import Mathlib

/-!
# Verification of the storage-engine core (B+-tree, extendible hash table, replacer)

This file gives a shallow embedding, in Lean 4, of the core data structures of the
repository: the LRU replacer (`src/buffer/lru_replacer.cpp`), the hash-table bucket
page (`src/storage/page/hash_table_bucket_page.cpp`), the extendible hash table
(`src/container/hash/extendible_hash_table.cpp`, split/merge variant), the B+-tree
(`src/storage/index/b_plus_tree.cpp`) and its index iterator
(`src/storage/index/index_iterator.cpp`), and proves the specified properties about
the embedded operations.

Machine integers: frame ids and sizes are embedded as `Nat`; page ids, which can be
the sentinel `INVALID_PAGE_ID = -1`, are embedded as `Int`.  Concurrency artifacts
(latches, pin counts) have no observable effect on the sequential values computed
here and are not part of the state; buffer-pool unpin calls that carry a dirty flag
are recorded explicitly where a claim is about them.
-/

namespace BusTub

/-! ## LRU replacer (`src/buffer/lru_replacer.cpp`)

The source keeps a doubly-linked list `lst_` (front = most recently unpinned,
back = LRU victim end) together with a map `mp_` from frame id to list iterator;
`mp_` holds exactly the elements of `lst_`, so the embedded state is the list
alone and `mp_.size()` is the list length; `mp_.find(f) != end` is list
membership. -/

namespace LRU

structure Replacer where
  capacity : Nat
  lst : List Nat
  deriving Repr, DecidableEq

/-- `LRUReplacer(num_pages)`: empty list. -/
def init (c : Nat) : Replacer := ⟨c, []⟩

/-- `Victim(&frame_id)`: if the list is empty return `false` (here: `none`);
otherwise return the back element and remove it (`lst_.pop_back()`). -/
def victim (s : Replacer) : Option (Nat × Replacer) :=
  match s.lst.getLast? with
  | none => none
  | some f => some (f, ⟨s.capacity, s.lst.dropLast⟩)

/-- `Pin(frame_id)`: if present, erase from the list (ids are unique in the list,
so erasing the first occurrence is erasing the occurrence). -/
def pin (f : Nat) (s : Replacer) : Replacer := ⟨s.capacity, s.lst.erase f⟩

/-- `Unpin(frame_id)`: if absent and `mp_.size() != capacity_`, push at the front
(the MRU end); otherwise no-op. -/
def unpin (f : Nat) (s : Replacer) : Replacer :=
  if f ∉ s.lst ∧ s.lst.length ≠ s.capacity then ⟨s.capacity, f :: s.lst⟩ else s

/-- `Size()`: `mp_.size()`, i.e. the list length. -/
def size (s : Replacer) : Nat := s.lst.length

/-- One replacer call, as issued by a client. -/
inductive Op where
  | unpin (f : Nat)
  | pin (f : Nat)
  | victim
  deriving Repr, DecidableEq

def applyOp (s : Replacer) (op : Op) : Replacer :=
  match op with
  | .unpin f => unpin f s
  | .pin f => pin f s
  | .victim =>
    match victim s with
    | none => s
    | some (_, s') => s'

/-- Run a sequence of replacer calls from the initial state of capacity `c`. -/
def run (c : Nat) (ops : List Op) : Replacer := ops.foldl applyOp (init c)

/-- Draining: call `Victim` repeatedly (at most `fuel` times), collecting the
returned frames, until it returns `none`. -/
def drainAux : Nat → Replacer → List Nat
  | 0, _ => []
  | n + 1, s =>
    match victim s with
    | none => []
    | some (f, s') => f :: drainAux n s'

def drain (s : Replacer) : List Nat := drainAux s.lst.length s

theorem capacity_applyOp (s : Replacer) (op : Op) : (applyOp s op).capacity = s.capacity := by
  cases op with
  | unpin f => simp only [applyOp, unpin]; split <;> rfl
  | pin f => rfl
  | victim =>
    simp only [applyOp, victim]
    cases s.lst.getLast? <;> simp

theorem nodup_applyOp (s : Replacer) (op : Op) (h : s.lst.Nodup) : (applyOp s op).lst.Nodup := by
  cases op with
  | unpin f =>
    simp only [applyOp, unpin]
    split
    · rename_i hc
      exact List.nodup_cons.mpr ⟨hc.1, h⟩
    · exact h
  | pin f => exact h.erase f
  | victim =>
    simp only [applyOp, victim]
    cases hl : s.lst.getLast? with
    | none => exact h
    | some a => exact h.sublist (List.dropLast_sublist s.lst)

theorem length_le_applyOp (s : Replacer) (op : Op) (h : s.lst.length ≤ s.capacity) :
    (applyOp s op).lst.length ≤ (applyOp s op).capacity := by
  rw [capacity_applyOp]
  cases op with
  | unpin f =>
    simp only [applyOp, unpin]
    split
    · rename_i hc
      simpa using Nat.lt_of_le_of_ne h hc.2
    · exact h
  | pin f =>
    exact le_trans (List.length_erase_le _ _) h
  | victim =>
    simp only [applyOp, victim]
    cases hl : s.lst.getLast? with
    | none => exact h
    | some a =>
      simp only
      rw [List.length_dropLast]
      exact le_trans (Nat.sub_le _ _) h

theorem run_invariant (c : Nat) (ops : List Op) :
    (run c ops).capacity = c ∧ (run c ops).lst.Nodup ∧ (run c ops).lst.length ≤ c := by
  have main : ∀ (l : List Op) (s : Replacer), s.lst.Nodup → s.lst.length ≤ s.capacity →
      (l.foldl applyOp s).capacity = s.capacity ∧ (l.foldl applyOp s).lst.Nodup ∧
        (l.foldl applyOp s).lst.length ≤ (l.foldl applyOp s).capacity := by
    intro l
    induction l with
    | nil => intro s h1 h2; exact ⟨rfl, h1, h2⟩
    | cons op rest ih =>
      intro s h1 h2
      have := ih (applyOp s op) (nodup_applyOp s op h1) (length_le_applyOp s op h2)
      refine ⟨?_, this.2.1, this.2.2⟩
      rw [List.foldl_cons, this.1, capacity_applyOp]
  have h := main ops (init c) (by simp [init]) (by simp [init])
  refine ⟨h.1, h.2.1, ?_⟩
  have h2 := h.2.2
  rw [h.1] at h2
  exact h2

theorem drainAux_eq (c : Nat) (l : List Nat) : drainAux l.length ⟨c, l⟩ = l.reverse := by
  induction l using List.reverseRecOn with
  | nil => rfl
  | append_singleton xs x ih =>
    have hlen : (xs ++ [x]).length = xs.length + 1 := by simp
    rw [hlen]
    simp only [drainAux, victim, List.getLast?_concat, List.dropLast_concat]
    rw [ih]
    simp

end LRU

/-- C8: for every operation sequence on an LRU replacer of capacity `c`, starting
empty: (a) the resident count never exceeds `c`; (b) no frame is resident twice;
(c) `Unpin(f)` inserts `f` at the MRU end exactly when `f` is absent and the size
is below `c`, and otherwise changes nothing; (d) `Victim` fails exactly on the
empty replacer; (e) successive `Victim` calls return the current residents in
strict LRU (oldest-unpin-first) order. -/
theorem lru_replacer_spec (c : Nat) (ops : List LRU.Op) (f : Nat) :
    (LRU.run c ops).lst.length ≤ c ∧
    (LRU.run c ops).lst.Nodup ∧
    (f ∉ (LRU.run c ops).lst → (LRU.run c ops).lst.length < c →
      LRU.unpin f (LRU.run c ops) = ⟨c, f :: (LRU.run c ops).lst⟩) ∧
    (f ∈ (LRU.run c ops).lst ∨ (LRU.run c ops).lst.length = c →
      LRU.unpin f (LRU.run c ops) = LRU.run c ops) ∧
    (LRU.victim (LRU.run c ops) = none ↔ (LRU.run c ops).lst = []) ∧
    LRU.drain (LRU.run c ops) = (LRU.run c ops).lst.reverse := by
  obtain ⟨hcap, hnodup, hlen⟩ := LRU.run_invariant c ops
  refine ⟨hlen, hnodup, ?_, ?_, ?_, ?_⟩
  · intro habs hlt
    rw [LRU.unpin, if_pos ⟨habs, by rw [hcap]; exact Nat.ne_of_lt hlt⟩, hcap]
  · intro h
    rw [LRU.unpin, if_neg]
    rintro ⟨h1, h2⟩
    rcases h with h | h
    · exact h1 h
    · exact h2 (by rw [hcap, h])
  · constructor
    · intro h
      rw [LRU.victim] at h
      cases hl : (LRU.run c ops).lst.getLast? with
      | none => exact List.getLast?_eq_none_iff.mp hl
      | some a => rw [hl] at h; simp at h
    · intro h
      rw [LRU.victim, h]
      rfl
  · have := LRU.drainAux_eq (LRU.run c ops).capacity (LRU.run c ops).lst
    rw [LRU.drain]
    rw [show (⟨(LRU.run c ops).capacity, (LRU.run c ops).lst⟩ : LRU.Replacer) = LRU.run c ops from rfl] at this
    exact this

/-- Witness for C8 at a concrete input: capacity 3, operations
`Unpin 0; Unpin 1; Pin 0; Unpin 3`, probe frame `f = 5`.  The state is `[3, 1]`
(0 was pinned away), `f = 5` is absent and the size is below capacity, so
`Unpin(5)` pushes at the MRU end, and draining yields `1` (LRU) then `3`. -/
theorem lru_replacer_spec_witness :
    LRU.unpin 5 (LRU.run 3 [LRU.Op.unpin 0, LRU.Op.unpin 1,
      LRU.Op.pin 0, LRU.Op.unpin 3]) = ⟨3, 5 :: (LRU.run 3 [LRU.Op.unpin 0, LRU.Op.unpin 1,
        LRU.Op.pin 0, LRU.Op.unpin 3]).lst⟩ ∧
    LRU.drain (LRU.run 3 [LRU.Op.unpin 0, LRU.Op.unpin 1,
      LRU.Op.pin 0, LRU.Op.unpin 3]) = [1, 3] := by
  refine ⟨(lru_replacer_spec 3 [LRU.Op.unpin 0, LRU.Op.unpin 1,
      LRU.Op.pin 0, LRU.Op.unpin 3] 5).2.2.1 (by decide) (by decide), ?_⟩
  have h := (lru_replacer_spec 3 [LRU.Op.unpin 0, LRU.Op.unpin 1,
      LRU.Op.pin 0, LRU.Op.unpin 3] 5).2.2.2.2.2
  rw [h]
  decide

/-! ## Hash-table bucket page (`src/storage/page/hash_table_bucket_page.cpp`)

The source keeps three parallel arrays of size `BUCKET_ARRAY_SIZE`: bit-packed
`occupied_` and `readable_` bitmaps and the `array_` of pairs.  The embedding
fuses the three parallel arrays into one list of slots (same indices, same
order); the bit-packing `(idx / 8, idx % 8)` is byte layout with no logical
content.  `IsFull`'s byte loop checks exactly that all `BUCKET_ARRAY_SIZE`
readable bits are set, and `IsEmpty`'s that none is; they are embedded as such.
Scans `break` at the first slot whose occupied bit is clear. -/

namespace Bucket

structure Slot (K V : Type) where
  occupied : Bool
  readable : Bool
  key : K
  val : V
  deriving Repr, DecidableEq

/-- A bucket page: the slot list has length `BUCKET_ARRAY_SIZE`. -/
abbrev Page (K V : Type) := List (Slot K V)

/-- `IsFull()`: every readable bit set. -/
def isFull (b : Page K V) : Bool := b.all (·.readable)

/-- `IsEmpty()`: no readable bit set. -/
def isEmpty (b : Page K V) : Bool := b.all (fun s => !s.readable)

/-- `IsExist(key, value, cmp)`: scan until the first non-occupied slot; true if a
readable slot holds exactly the pair.  `Insert`'s duplicate loop is this same
scan. -/
def isExist [DecidableEq V] (cmp : K → K → Bool) (k : K) (v : V) : Page K V → Bool
  | [] => false
  | s :: rest =>
    if !s.occupied then false
    else if cmp k s.key && decide (v = s.val) && s.readable then true
    else isExist cmp k v rest

/-- `GetValue` / `MyGetValue`: scan until the first non-occupied slot, appending
every readable value whose key compares equal; the returned boolean of the
source is `result ≠ []`. -/
def myGetValue (cmp : K → K → Bool) (k : K) : Page K V → List V
  | [] => []
  | s :: rest =>
    if !s.occupied then []
    else if cmp k s.key && s.readable then s.val :: myGetValue cmp k rest
    else myGetValue cmp k rest

/-- The second loop of `Insert`: write the pair into the first slot whose
readable bit is clear and set both bits (a no-op if every slot is readable,
which `Insert` rules out beforehand via `IsFull`). -/
def writeFirstNonReadable (k : K) (v : V) : Page K V → Page K V
  | [] => []
  | s :: rest =>
    if !s.readable then ⟨true, true, k, v⟩ :: rest
    else s :: writeFirstNonReadable k v rest

/-- `Insert(key, value, cmp)`: reject when full; reject a readable duplicate
found before the first non-occupied slot; otherwise write into the first
non-readable slot and return true. -/
def insert [DecidableEq V] (cmp : K → K → Bool) (k : K) (v : V) (b : Page K V) :
    Bool × Page K V :=
  if isFull b then (false, b)
  else if isExist cmp k v b then (false, b)
  else (true, writeFirstNonReadable k v b)

/-- `MyInsert(key, value, cmp)`: no duplicate or fullness pre-check; write into
the first non-readable slot and return true, or return false if every slot is
readable. -/
def myInsert (k : K) (v : V) : Page K V → Bool × Page K V
  | [] => (false, [])
  | s :: rest =>
    if !s.readable then (true, ⟨true, true, k, v⟩ :: rest)
    else
      let r := myInsert k v rest
      (r.1, s :: r.2)

/-- `Remove` / `MyRemove`: scan until the first non-occupied slot; clear the
readable bit of the first readable slot holding exactly the pair (`RemoveAt`
leaves the occupied bit set: a tombstone). -/
def myRemove [DecidableEq V] (cmp : K → K → Bool) (k : K) (v : V) :
    Page K V → Bool × Page K V
  | [] => (false, [])
  | s :: rest =>
    if !s.occupied then (false, s :: rest)
    else if cmp k s.key && decide (v = s.val) && s.readable then
      (true, { s with readable := false } :: rest)
    else
      let r := myRemove cmp k v rest
      (r.1, s :: r.2)

/-- `GetAllPairs(result)`: the readable pairs before the first non-occupied
slot, in slot order. -/
def getAllPairs : Page K V → List (K × V)
  | [] => []
  | s :: rest =>
    if !s.occupied then []
    else if s.readable then (s.key, s.val) :: getAllPairs rest
    else getAllPairs rest

/-- `Clear()`: reset both bitmaps (the pair array is not touched). -/
def clear : Page K V → Page K V :=
  List.map (fun s => { s with occupied := false, readable := false })

/-- `NumReadable()`: popcount of the readable bitmap. -/
def numReadable (b : Page K V) : Nat := (b.filter (·.readable)).length

theorem writeFirstNonReadable_eq_set (k : K) (v : V) (b : Page K V)
    (h : isFull b = false) :
    b.findIdx (fun s => !s.readable) < b.length ∧
      writeFirstNonReadable k v b =
        b.set (b.findIdx (fun s => !s.readable)) ⟨true, true, k, v⟩ := by
  induction b with
  | nil => simp [isFull] at h
  | cons s rest ih =>
    rw [List.findIdx_cons]
    by_cases hr : s.readable
    · have h' : isFull rest = false := by
        simpa [isFull, hr] using h
      obtain ⟨ih1, ih2⟩ := ih h'
      simp only [hr, Bool.not_true, cond_false]
      refine ⟨by simpa using ih1, ?_⟩
      rw [writeFirstNonReadable, if_neg (by simp [hr]), ih2]
      simp
    · simp only [Bool.not_eq_true] at hr
      simp only [hr, Bool.not_false, cond_true]
      refine ⟨by simp, ?_⟩
      rw [writeFirstNonReadable, if_pos (by simp [hr])]
      rfl

end Bucket

/-- C7: on every bucket page satisfying the tombstone invariant
(`readable ⇒ occupied`), `Insert(k, v, cmp)` returns false and leaves the bucket
unchanged when the bucket is full or a readable duplicate `(k, v)` occurs before
the first non-occupied slot; otherwise it writes `(k, v)` into the first
non-readable slot, sets that slot's occupied and readable bits, and returns
true. -/
theorem bucket_insert_spec [DecidableEq V] (cmp : K → K → Bool) (k : K) (v : V)
    (b : Bucket.Page K V) (_hinv : ∀ s ∈ b, s.readable → s.occupied) :
    ((Bucket.isFull b || Bucket.isExist cmp k v b) = true →
      Bucket.insert cmp k v b = (false, b)) ∧
    ((Bucket.isFull b || Bucket.isExist cmp k v b) = false →
      b.findIdx (fun s => !s.readable) < b.length ∧
        Bucket.insert cmp k v b =
          (true, b.set (b.findIdx (fun s => !s.readable)) ⟨true, true, k, v⟩)) := by
  constructor
  · intro h
    rw [Bool.or_eq_true] at h
    rw [Bucket.insert]
    rcases h with h | h
    · rw [if_pos h]
    · by_cases hf : Bucket.isFull b = true
      · rw [if_pos hf]
      · rw [if_neg hf, if_pos h]
  · intro h
    rw [Bool.or_eq_false_iff] at h
    obtain ⟨hfull, hdup⟩ := h
    obtain ⟨h1, h2⟩ := Bucket.writeFirstNonReadable_eq_set k v b hfull
    refine ⟨h1, ?_⟩
    rw [Bucket.insert, if_neg (by simp [hfull]), if_neg (by simp [hdup]), h2]

/-- Witness for C7: a three-slot bucket holding live `(1, 10)`, a tombstone for
`(2, 20)`, and a never-occupied slot.  It is neither full nor does it hold a
readable duplicate of `(2, 20)`, so inserting `(2, 20)` reuses the tombstone
slot (index 1, the first non-readable slot) and returns true. -/
theorem bucket_insert_spec_witness :
    Bucket.insert (fun a b => a == b) 2 20
        [⟨true, true, 1, 10⟩, ⟨true, false, 2, 20⟩, ⟨false, false, 0, 0⟩] =
      (true, [⟨true, true, 1, 10⟩, ⟨true, true, 2, 20⟩, ⟨false, false, 0, (0 : Nat)⟩]) := by
  have h := (bucket_insert_spec (fun a b => a == b) 2 20
    [⟨true, true, 1, 10⟩, ⟨true, false, 2, 20⟩, ⟨false, false, 0, (0 : Nat)⟩]
    (by decide)).2 (by decide)
  rw [h.2]
  rfl

/-! ## B+-tree index iterator (`src/storage/index/index_iterator.cpp`)

The iterator holds a pinned, read-latched leaf page (`page_` / `node_`) and an
`int` slot index.  Fetching a page through the buffer pool is embedded as a
lookup in a total map from page id to leaf content; latches and pins have no
sequential effect.  `INVALID_PAGE_ID` is `-1`. -/

namespace Iter

/-- The view of a leaf page that the iterator reads: `GetSize()`,
`GetNextPageId()` and `GetItem(i)`. -/
structure LeafView (K V : Type) where
  size : Int
  next : Int
  item : Int → K × V

/-- The iterator state: buffer pool (the page-id → leaf map), current page id,
current leaf content, current slot index. -/
structure IndexIterator (K V : Type) where
  pages : Int → LeafView K V
  pageId : Int
  node : LeafView K V
  index : Int

/-- `IsEnd()`: at or past the end of a leaf whose next pointer is invalid. -/
def isEnd (it : IndexIterator K V) : Bool :=
  it.node.next == -1 && decide (it.node.size ≤ it.index)

/-- `operator++`: increment the index; if it just reached the leaf's size and
the next page id is valid, release the current leaf and fetch, latch and enter
the next leaf at index 0. -/
def inc (it : IndexIterator K V) : IndexIterator K V :=
  let idx := it.index + 1
  if idx = it.node.size ∧ it.node.next ≠ -1 then
    { it with pageId := it.node.next, node := it.pages it.node.next, index := 0 }
  else
    { it with index := idx }

end Iter

/-- C9: applying `operator++` to an iterator for which `IsEnd()` holds fetches
no other page — the iterator stays on the same leaf page with only its index
incremented — and `IsEnd()` still holds afterwards. -/
theorem iterator_inc_at_end (K V : Type) (it : Iter.IndexIterator K V)
    (h : Iter.isEnd it = true) :
    Iter.inc it = { it with index := it.index + 1 } ∧
      Iter.isEnd (Iter.inc it) = true := by
  rw [Iter.isEnd, Bool.and_eq_true, beq_iff_eq, decide_eq_true_eq] at h
  obtain ⟨hnext, hsize⟩ := h
  have hcond : ¬(it.index + 1 = it.node.size ∧ it.node.next ≠ -1) := by
    rintro ⟨-, hne⟩
    exact hne hnext
  constructor
  · rw [Iter.inc, if_neg hcond]
  · rw [Iter.inc, if_neg hcond, Iter.isEnd]
    simp only [hnext]
    simp only [beq_self_eq_true, Bool.true_and, decide_eq_true_eq]
    omega

/-- Witness for C9: an iterator on a last leaf (`next = INVALID_PAGE_ID = -1`)
of size 2 with index 2; `IsEnd()` holds, `operator++` only bumps the index, and
`IsEnd()` still holds. -/
theorem iterator_inc_at_end_witness :
    Iter.inc
        { pages := fun _ => ⟨0, -1, fun _ => (0, 0)⟩, pageId := 7,
          node := ⟨2, -1, fun _ => ((0 : Nat), (0 : Nat))⟩, index := 2 } =
      { pages := fun _ => ⟨0, -1, fun _ => (0, 0)⟩, pageId := 7,
        node := ⟨2, -1, fun _ => ((0 : Nat), (0 : Nat))⟩, index := 3 } ∧
    Iter.isEnd (Iter.inc
        { pages := fun _ => ⟨0, -1, fun _ => (0, 0)⟩, pageId := 7,
          node := ⟨2, -1, fun _ => ((0 : Nat), (0 : Nat))⟩, index := 2 }) = true :=
  iterator_inc_at_end Nat Nat _ (by rfl)

/-! ## Extendible hash table (`src/container/hash/extendible_hash_table.cpp`)

Embedding of the split/merge variant (the first implementation in the file:
`GetValue` at lines 86–105, `Insert` at 111–140, `SplitInsert` at 143–224,
`Remove` at 230–259, `Merge` at 264–318).

The directory arrays `local_depth[]` / `bucket_page_id[]` are embedded as total
functions `Nat → Nat` (the fixed `DIRECTORY_ARRAY_SIZE = 1 << 9` array, with
slots at or above `1 << global_depth` inactive); doubling past `MAX_DEPTH = 9`
would write out of the array's bounds in the source and is embedded as failure
(`none`).  The buffer pool is a total map from page id to bucket page;
`NewPage` returns the next page id and a zeroed page, `DeletePage` zeroes the
page.  Bitmasking `x & ((1 << d) - 1)` is written `x % 2 ^ d`.  The directory
loops `for (i = start; i < n; i += diff)` touch exactly the slots `i < n` with
`i % diff = start % diff` and their iterations are independent, so they are
embedded as pointwise function updates.  `BUCKET_ARRAY_SIZE` is a build-time
constant that varies with the key/value instantiation; it is a parameter here.
The while loop of `SplitInsert` has data-dependent length and is fuelled.
Every operation also returns the list of dirty flags passed to the buffer
pool's `UnpinPage` calls on the directory page, in order. -/

namespace EHT

/-- The black-box capabilities the table is instantiated with: the comparator
(`cmp k k' = true` iff `comparator_(k, k') == 0`), the 32-bit hash, and
`BUCKET_ARRAY_SIZE`. -/
structure Ctx (K V : Type) where
  cmp : K → K → Bool
  hash : K → Nat
  bucketSize : Nat

/-- `MAX_DEPTH` of the directory page (`DIRECTORY_ARRAY_SIZE = 512` slots). -/
def maxDepth : Nat := 9

structure HState (K V : Type) where
  globalDepth : Nat
  localDepth : Nat → Nat
  bucketPageId : Nat → Nat
  store : Nat → Bucket.Page K V
  nextPageId : Nat

variable {K V : Type} [DecidableEq K] [DecidableEq V] [Inhabited K] [Inhabited V]

/-- A zeroed page interpreted as a bucket: both bitmaps clear. -/
def emptyBucket (c : Ctx K V) : Bucket.Page K V :=
  List.replicate c.bucketSize ⟨false, false, default, default⟩

/-- The constructor: `NewPage` gives the directory page id 0, a second
`NewPage` gives bucket page id 1, and `SetBucketPageId(0, bucket_page_id)`. -/
def initState (c : Ctx K V) : HState K V where
  globalDepth := 0
  localDepth := fun _ => 0
  bucketPageId := Function.update (fun _ => 0) 0 1
  store := fun _ => emptyBucket c
  nextPageId := 2

/-- `GetValue(txn, key, result)`: resolve the slot `Hash(key) & global mask`,
scan that bucket.  Returns the appended values, the found flag, and the
directory-unpin dirty flags (`UnpinPage(directory_page_id_, false)`). -/
def getValue (c : Ctx K V) (ht : HState K V) (k : K) : List V × Bool × List Bool :=
  let index := c.hash k % 2 ^ ht.globalDepth
  let bpid := ht.bucketPageId index
  let vals := Bucket.myGetValue c.cmp k (ht.store bpid)
  (vals, !vals.isEmpty, [false])

/-- The directory-doubling step of `SplitInsert` (lines 170–177): mirror the
lower half into the upper half — both `bucket_page_id` and `local_depth`,
reading the pre-doubling lower half, in which slot `index` already carries the
incremented local depth — then increment the global depth, then set only the
image slot's `bucket_page_id` to the newly allocated bucket.  The image slot's
local depth is not set separately. -/
def doubleDir (g : Nat) (ld bp : Nat → Nat) (image newId : Nat) :
    Nat × (Nat → Nat) × (Nat → Nat) :=
  let n := 2 ^ g
  let ld2 := fun j => if n ≤ j ∧ j < 2 * n then ld (j - n) else ld j
  let bp2 := fun j => if n ≤ j ∧ j < 2 * n then bp (j - n) else bp j
  (g + 1, ld2, Function.update bp2 image newId)

/-- The in-place directory update of `SplitInsert` when no doubling is needed
(lines 179–189): set the new local depth on every active slot of the source's
class modulo `2 ^ ld'`, and the new local depth and the new bucket page id on
every active slot of the image's class. -/
def splitDir (g : Nat) (ld bp : Nat → Nat) (ld' index image newId : Nat) :
    Nat × (Nat → Nat) × (Nat → Nat) :=
  let n := 2 ^ g
  let ld2 := fun j =>
    if j < n ∧ j % 2 ^ ld' = index % 2 ^ ld' then ld'
    else if j < n ∧ j % 2 ^ ld' = image % 2 ^ ld' then ld'
    else ld j
  let bp2 := fun j =>
    if j < n ∧ j % 2 ^ ld' = image % 2 ^ ld' then newId else bp j
  (g, ld2, bp2)

/-- One iteration of `SplitInsert`'s while loop, lines 158–214: allocate the
image bucket, compute `image_index = index ^ (1 << local_depth)`, increment the
slot's local depth, update the directory (doubling branch or in-place branch),
rehash the source bucket's pairs, and decide whether the key now routes to the
source or to the image bucket.  Returns the new state and the loop-carried
`(index, bucket_page_id)`. -/
def splitIter (c : Ctx K V) (ht : HState K V) (hk : Nat) (index bpid : Nat) :
    Option (HState K V × Nat × Nat) :=
  let newId := ht.nextPageId
  let ht0 : HState K V :=
    { ht with store := Function.update ht.store newId (emptyBucket c),
              nextPageId := newId + 1 }
  let image := index ^^^ 2 ^ (ht0.localDepth index)
  let ld1 := Function.update ht0.localDepth index (ht0.localDepth index + 1)
  let ld' := ld1 index
  let dir :=
    if ld' > ht0.globalDepth then
      if maxDepth ≤ ht0.globalDepth then none
      else some (doubleDir ht0.globalDepth ld1 ht0.bucketPageId image newId)
    else some (splitDir ht0.globalDepth ld1 ht0.bucketPageId ld' index image newId)
  match dir with
  | none => none
  | some d3 =>
    let pairs := Bucket.getAllPairs (ht0.store bpid)
    let src0 := Bucket.clear (ht0.store bpid)
    let img0 := ht0.store newId
    let moved := pairs.foldl
      (fun (bs : Bucket.Page K V × Bucket.Page K V) kv =>
        if c.hash kv.1 % 2 ^ ld' = index then ((Bucket.myInsert kv.1 kv.2 bs.1).2, bs.2)
        else (bs.1, (Bucket.myInsert kv.1 kv.2 bs.2).2))
      (src0, img0)
    let ht1 : HState K V :=
      { globalDepth := d3.1, localDepth := d3.2.1, bucketPageId := d3.2.2,
        store := Function.update (Function.update ht0.store bpid moved.1) newId moved.2,
        nextPageId := ht0.nextPageId }
    let toInsert := ht1.bucketPageId (hk % 2 ^ ld')
    if toInsert = bpid then some (ht1, index, bpid)
    else some (ht1, image, newId)

/-- The fuelled while loop of `SplitInsert` (line 158): iterate while the
current bucket is full; the boolean accumulates `is_dir_dirty`. -/
def splitLoop (c : Ctx K V) :
    Nat → HState K V → Nat → Nat → Nat → Bool → Option (HState K V × Nat × Nat × Bool)
  | 0, _, _, _, _, _ => none
  | fuel + 1, ht, hk, index, bpid, dirty =>
    if Bucket.isFull (ht.store bpid) then
      match splitIter c ht hk index bpid with
      | none => none
      | some (ht', index', bpid') => splitLoop c fuel ht' hk index' bpid' true
    else some (ht, index, bpid, dirty)

/-- `SplitInsert(txn, key, value)`: under the table write lock, if the exact
pair exists return false; otherwise split until the target bucket has room,
then `MyInsert`.  The directory is unpinned with `is_dir_dirty`. -/
def splitInsert (c : Ctx K V) (fuel : Nat) (ht : HState K V) (k : K) (v : V) :
    Option (HState K V × Bool × List Bool) :=
  let index := c.hash k % 2 ^ ht.globalDepth
  let bpid := ht.bucketPageId index
  if Bucket.isExist c.cmp k v (ht.store bpid) then some (ht, false, [false])
  else
    match splitLoop c fuel ht (c.hash k) index bpid false with
    | none => none
    | some (ht', _, bpid', dirty) =>
      let r := Bucket.myInsert k v (ht'.store bpid')
      some ({ ht' with store := Function.update ht'.store bpid' r.2 }, r.1, [dirty])

/-- `Insert(txn, key, value)`: fast path under the table read lock — reject an
existing pair, else `MyInsert`; on a full bucket fall through to
`SplitInsert`.  The fast path unpins the directory with `false` (line 120). -/
def insert (c : Ctx K V) (fuel : Nat) (ht : HState K V) (k : K) (v : V) :
    Option (HState K V × Bool × List Bool) :=
  let index := c.hash k % 2 ^ ht.globalDepth
  let bpid := ht.bucketPageId index
  let b := ht.store bpid
  if Bucket.isExist c.cmp k v b then some (ht, false, [false])
  else
    let r := Bucket.myInsert k v b
    if r.1 then some ({ ht with store := Function.update ht.store bpid r.2 }, true, [false])
    else (splitInsert c fuel ht k v).map fun res => (res.1, res.2.1, false :: res.2.2)

/-- `CanShrink()` on the directory (modelled from the spec: if every active
slot's local depth is below the global depth, decrement the global depth). -/
def canShrink (g : Nat) (ld : Nat → Nat) : Nat :=
  if ∀ s < 2 ^ g, ld s < g then g - 1 else g

/-- The directory update of one `Merge` iteration (lines 287–295): point every
active slot of the index's class modulo `2 ^ (ldNew + 1)` at the image bucket
and lower its local depth, and lower the local depth of every active slot of
the image's class (whose bucket page id already is the image's). -/
def mergeDir (g : Nat) (ld bp : Nat → Nat) (ldNew index image imageBpid : Nat) :
    (Nat → Nat) × (Nat → Nat) :=
  let diff := 2 ^ (ldNew + 1)
  let n := 2 ^ g
  let ld2 := fun j =>
    if j < n ∧ j % diff = index % diff then ldNew
    else if j < n ∧ j % diff = image % diff then ldNew
    else ld j
  let bp2 := fun j =>
    if j < n ∧ j % diff = index % diff then imageBpid else bp j
  (ld2, bp2)

/-- The while loop of `Merge` (line 281), by recursion on the loop-carried
`local_depth`, which each iteration decrements: while `local_depth > 0`, the
image slot has equal local depth and the bucket is empty — point the index
slot's class at the image bucket and lower both classes' local depths,
`CanShrink`, delete the emptied bucket page (zero the frame) and continue from
the image bucket with the recomputed image slot. -/
def mergeLoop (c : Ctx K V) :
    Nat → HState K V → Nat → Nat → Bool → HState K V × Bool
  | 0, ht, _, _, dirty => (ht, dirty)
  | ldp + 1, ht, index, bpid, dirty =>
    let image := index ^^^ 2 ^ ldp
    if ht.localDepth image = ldp + 1 ∧ Bucket.isEmpty (ht.store bpid) then
      let imageBpid := ht.bucketPageId image
      let dir := mergeDir ht.globalDepth ht.localDepth ht.bucketPageId ldp index image imageBpid
      let g2 := canShrink ht.globalDepth dir.1
      let ht' : HState K V :=
        { globalDepth := g2, localDepth := dir.1, bucketPageId := dir.2,
          store := Function.update ht.store bpid (emptyBucket c),
          nextPageId := ht.nextPageId }
      mergeLoop c ldp ht' index imageBpid true
    else (ht, dirty)

/-- `Merge(txn, key, value)`: under the table write lock, re-resolve the slot
and loop; the directory is unpinned with `is_merge`. -/
def merge (c : Ctx K V) (ht : HState K V) (k : K) : HState K V × List Bool :=
  let index := c.hash k % 2 ^ ht.globalDepth
  let bpid := ht.bucketPageId index
  let r := mergeLoop c (ht.localDepth index) ht index bpid false
  (r.1, [r.2])

/-- `Remove(txn, key, value)`: `MyRemove` on the resolved bucket (directory
unpinned with `false`, line 239); if a pair was removed and the bucket became
empty with a same-depth image slot at positive depth, call `Merge`. -/
def remove (c : Ctx K V) (ht : HState K V) (k : K) (v : V) :
    HState K V × Bool × List Bool :=
  let index := c.hash k % 2 ^ ht.globalDepth
  let bpid := ht.bucketPageId index
  let r := Bucket.myRemove c.cmp k v (ht.store bpid)
  let ht1 : HState K V := { ht with store := Function.update ht.store bpid r.2 }
  if r.1 then
    let ld := ht1.localDepth index
    let highBit := if 0 < ld then 2 ^ (ld - 1) else 0
    let image := index ^^^ highBit
    if 0 < ld ∧ ht1.localDepth image = ld ∧ Bucket.isEmpty (ht1.store bpid) then
      let m := merge c ht1 k
      (m.1, true, false :: m.2)
    else (ht1, true, [false])
  else (ht1, false, [false])

/-- A client call to the hash table. -/
inductive HOp (K V : Type) where
  | ins (k : K) (v : V)
  | rem (k : K) (v : V)
  deriving Repr, DecidableEq

def applyHashOp (c : Ctx K V) (fuel : Nat) (st : Option (HState K V)) (op : HOp K V) :
    Option (HState K V) :=
  match st, op with
  | none, _ => none
  | some ht, .ins k v => (insert c fuel ht k v).map (·.1)
  | some ht, .rem k v => some (remove c ht k v).1

/-- Run a call sequence from the freshly constructed table. -/
def runOps (c : Ctx K V) (fuel : Nat) (ops : List (HOp K V)) : Option (HState K V) :=
  ops.foldl (applyHashOp c fuel) (some (initState c))

/-- The reference associative multimap: `Insert` appends the pair unless the
exact pair is present (the table rejects exact duplicates), `Remove` erases the
pair. -/
def refApply [DecidableEq K] [DecidableEq V] (l : List (K × V)) (op : HOp K V) :
    List (K × V) :=
  match op with
  | .ins k v => if (k, v) ∈ l then l else l ++ [(k, v)]
  | .rem k v => l.erase (k, v)

def refRun [DecidableEq K] [DecidableEq V] (ops : List (HOp K V)) : List (K × V) :=
  ops.foldl refApply []

def refGetValue [DecidableEq K] (l : List (K × V)) (k : K) : List V :=
  (l.filter (fun kv => kv.1 = k)).map Prod.snd

/-- The `int, int, IntComparator` instantiation with the identity hash and a
bucket capacity of 2. -/
def natCtx (sz : Nat) : Ctx Nat Nat := ⟨fun a b => a == b, id, sz⟩

/-- An insertion sequence that drives one bucket to local depth 1 while the
global depth grows to 3, then splits it at directory slot 4: the rehash test
`(Hash(k) & mask) == index` (line 196) compares a 2-bit masked hash with the
unmasked slot index 4 and therefore moves every pair to the image bucket. -/
def badOps : List (HOp Nat Nat) :=
  [.ins 0 0, .ins 2 2, .ins 1 1, .ins 3 3, .ins 5 5, .ins 7 7, .ins 11 11, .ins 4 4]

end EHT

/-- C4 failing input: after the eight inserts of `badOps` on the hash table
with identity hash and bucket capacity 2 (all of which succeed and return
true), `GetValue(0)` returns no values, while the reference associative
multimap subjected to the same sequence returns `{0}` for key 0 — the pair
`(0, 0)` was rehashed into the image bucket during the final split even though
hash 0 still routes to the retained bucket. -/
theorem eht_getvalue_diverges_from_reference :
    (EHT.runOps (EHT.natCtx 2) 20 EHT.badOps).map
        (fun ht => (EHT.getValue (EHT.natCtx 2) ht 0).1) = some [] ∧
    EHT.refGetValue (EHT.refRun EHT.badOps) 0 = [0] ∧
    (EHT.runOps (EHT.natCtx 2) 20 EHT.badOps).map
        (fun ht => (EHT.getValue (EHT.natCtx 2) ht 11).1) = some [11] := by
  constructor
  · decide
  constructor
  · decide
  · decide

/-! ### Bit-arithmetic helpers

The source manipulates directory slots through `&` with masks `(1 << d) - 1`
(embedded as `% 2 ^ d`) and `^` with `1 << d`; these lemmas relate the two. -/

theorem mod_two_pow_eq_iff_testBit (a b n : Nat) :
    a % 2 ^ n = b % 2 ^ n ↔ ∀ i, i < n → a.testBit i = b.testBit i := by
  constructor
  · intro h i hi
    have h2 := congrArg (fun x => Nat.testBit x i) h
    simpa [Nat.testBit_mod_two_pow, hi] using h2
  · intro h
    apply Nat.eq_of_testBit_eq
    intro i
    rw [Nat.testBit_mod_two_pow, Nat.testBit_mod_two_pow]
    by_cases hi : i < n
    · simp [hi, h i hi]
    · simp [hi]

theorem testBit_xor_two_pow (a d i : Nat) :
    (a ^^^ 2 ^ d).testBit i = if i = d then !a.testBit d else a.testBit i := by
  rw [Nat.testBit_xor]
  by_cases hi : i = d
  · subst hi
    simp [Nat.testBit_two_pow_self]
  · simp [Nat.testBit_two_pow_of_ne (fun h => hi h.symm), hi]

theorem xor_two_pow_lt {a g : Nat} (d : Nat) (ha : a < 2 ^ g) (hd : d < g) :
    a ^^^ 2 ^ d < 2 ^ g := by
  apply Nat.lt_pow_two_of_testBit
  intro i hig
  rw [testBit_xor_two_pow, if_neg (by omega)]
  exact Nat.testBit_lt_two_pow
    (lt_of_lt_of_le ha (Nat.pow_le_pow_right (by norm_num) hig))

theorem xor_two_pow_mod_self (a d : Nat) : (a ^^^ 2 ^ d) % 2 ^ d = a % 2 ^ d := by
  rw [mod_two_pow_eq_iff_testBit]
  intro i hi
  rw [testBit_xor_two_pow, if_neg (by omega)]

theorem xor_two_pow_mod_succ_ne (a d : Nat) :
    (a ^^^ 2 ^ d) % 2 ^ (d + 1) ≠ a % 2 ^ (d + 1) := by
  rw [Ne, mod_two_pow_eq_iff_testBit]
  intro h
  have h2 := h d (by omega)
  rw [testBit_xor_two_pow, if_pos rfl] at h2
  cases hb : a.testBit d <;> rw [hb] at h2 <;> simp at h2

theorem xor_two_pow_of_lt {a d : Nat} (h : a < 2 ^ d) : a ^^^ 2 ^ d = 2 ^ d + a := by
  apply Nat.eq_of_testBit_eq
  intro i
  rw [testBit_xor_two_pow]
  rcases lt_trichotomy i d with hi | hi | hi
  · rw [if_neg (by omega), Nat.testBit_two_pow_add_gt hi]
  · subst hi
    rw [if_pos rfl, Nat.testBit_two_pow_add_eq]
  · have hpow : 2 ^ d + a < 2 ^ (d + 1) := by
      rw [pow_succ]
      omega
    have hle : 2 ^ (d + 1) ≤ 2 ^ i := Nat.pow_le_pow_right (by norm_num) (by omega)
    have ha : a < 2 ^ i :=
      lt_of_lt_of_le h (Nat.pow_le_pow_right (by norm_num) (by omega))
    rw [if_neg (by omega), Nat.testBit_lt_two_pow (lt_of_lt_of_le hpow hle),
      Nat.testBit_lt_two_pow ha]

/-- The pointwise effect of `doubleDir` when invoked, as `SplitInsert` does,
with the local-depth array already incremented at `index` and the image slot
`2 ^ g + index`. -/
theorem doubleDir_effect (g : Nat) (ld0 bp : Nat → Nat) (index newId : Nat)
    (hidx : index < 2 ^ g) :
    (EHT.doubleDir g (Function.update ld0 index (g + 1)) bp (2 ^ g + index) newId).1
        = g + 1 ∧
    (EHT.doubleDir g (Function.update ld0 index (g + 1)) bp (2 ^ g + index)
        newId).2.1 index = g + 1 ∧
    (EHT.doubleDir g (Function.update ld0 index (g + 1)) bp (2 ^ g + index)
        newId).2.1 (2 ^ g + index) = g + 1 ∧
    (EHT.doubleDir g (Function.update ld0 index (g + 1)) bp (2 ^ g + index)
        newId).2.2 (2 ^ g + index) = newId ∧
    (∀ j, j < 2 ^ g → j ≠ index →
      (EHT.doubleDir g (Function.update ld0 index (g + 1)) bp (2 ^ g + index)
          newId).2.1 j = ld0 j ∧
        (EHT.doubleDir g (Function.update ld0 index (g + 1)) bp (2 ^ g + index)
          newId).2.2 j = bp j) ∧
    (∀ j, j < 2 ^ g →
      (EHT.doubleDir g (Function.update ld0 index (g + 1)) bp (2 ^ g + index)
          newId).2.1 (j + 2 ^ g) = Function.update ld0 index (g + 1) j) ∧
    (∀ j, j < 2 ^ g → j ≠ index →
      (EHT.doubleDir g (Function.update ld0 index (g + 1)) bp (2 ^ g + index)
          newId).2.2 (j + 2 ^ g) = bp j) := by
  refine ⟨rfl, ?_, ?_, ?_, ?_, ?_, ?_⟩
  · show (if 2 ^ g ≤ index ∧ index < 2 * 2 ^ g then
        Function.update ld0 index (g + 1) (index - 2 ^ g)
      else Function.update ld0 index (g + 1) index) = g + 1
    rw [if_neg (by omega), Function.update_same]
  · show (if 2 ^ g ≤ 2 ^ g + index ∧ 2 ^ g + index < 2 * 2 ^ g then
        Function.update ld0 index (g + 1) (2 ^ g + index - 2 ^ g)
      else Function.update ld0 index (g + 1) (2 ^ g + index)) = g + 1
    rw [if_pos ⟨by omega, by omega⟩, show 2 ^ g + index - 2 ^ g = index by omega,
      Function.update_same]
  · show Function.update
        (fun i => if 2 ^ g ≤ i ∧ i < 2 * 2 ^ g then bp (i - 2 ^ g) else bp i)
        (2 ^ g + index) newId (2 ^ g + index) = newId
    exact Function.update_same _ _ _
  · intro j hj hne
    constructor
    · show (if 2 ^ g ≤ j ∧ j < 2 * 2 ^ g then
          Function.update ld0 index (g + 1) (j - 2 ^ g)
        else Function.update ld0 index (g + 1) j) = ld0 j
      rw [if_neg (by omega), Function.update_noteq hne]
    · show Function.update
          (fun i => if 2 ^ g ≤ i ∧ i < 2 * 2 ^ g then bp (i - 2 ^ g) else bp i)
          (2 ^ g + index) newId j = bp j
      rw [Function.update_noteq (by omega)]
      show (if 2 ^ g ≤ j ∧ j < 2 * 2 ^ g then bp (j - 2 ^ g) else bp j) = bp j
      rw [if_neg (by omega)]
  · intro j hj
    show (if 2 ^ g ≤ j + 2 ^ g ∧ j + 2 ^ g < 2 * 2 ^ g then
        Function.update ld0 index (g + 1) (j + 2 ^ g - 2 ^ g)
      else Function.update ld0 index (g + 1) (j + 2 ^ g)) =
        Function.update ld0 index (g + 1) j
    rw [if_pos ⟨by omega, by omega⟩, show j + 2 ^ g - 2 ^ g = j by omega]
  · intro j hj hne
    show Function.update
        (fun i => if 2 ^ g ≤ i ∧ i < 2 * 2 ^ g then bp (i - 2 ^ g) else bp i)
        (2 ^ g + index) newId (j + 2 ^ g) = bp j
    rw [Function.update_noteq (by omega)]
    show (if 2 ^ g ≤ j + 2 ^ g ∧ j + 2 ^ g < 2 * 2 ^ g then bp (j + 2 ^ g - 2 ^ g)
      else bp (j + 2 ^ g)) = bp j
    rw [if_pos ⟨by omega, by omega⟩, show j + 2 ^ g - 2 ^ g = j by omega]

/-- C6: whenever a `SplitInsert` iteration increments the target slot's local
depth past the current global depth `g` (and the directory can still double),
the iteration succeeds and afterwards: the global depth is `g + 1`; the image
slot (at `index + 2^g`) holds the newly allocated bucket page id and — purely
from the mirror, without a separate write — local depth `g + 1`; every other
lower-half slot is unchanged; the upper half mirrors the lower half's
post-increment local depths, and its bucket page ids away from the image
slot. -/
theorem split_insert_doubling_spec [DecidableEq K] [DecidableEq V]
    [Inhabited K] [Inhabited V] (c : EHT.Ctx K V) (ht : EHT.HState K V)
    (hk index bpid : Nat) (hidx : index < 2 ^ ht.globalDepth)
    (hld : ht.localDepth index = ht.globalDepth)
    (hg : ht.globalDepth < EHT.maxDepth) :
    ∃ ht' index' bpid',
      EHT.splitIter c ht hk index bpid = some (ht', index', bpid') ∧
      ht'.globalDepth = ht.globalDepth + 1 ∧
      ht'.localDepth index = ht.globalDepth + 1 ∧
      ht'.localDepth (index ^^^ 2 ^ ht.globalDepth) = ht.globalDepth + 1 ∧
      ht'.bucketPageId (index ^^^ 2 ^ ht.globalDepth) = ht.nextPageId ∧
      (∀ j, j < 2 ^ ht.globalDepth → j ≠ index →
        ht'.localDepth j = ht.localDepth j ∧
          ht'.bucketPageId j = ht.bucketPageId j) ∧
      (∀ j, j < 2 ^ ht.globalDepth →
        ht'.localDepth (j + 2 ^ ht.globalDepth) =
          Function.update ht.localDepth index (ht.globalDepth + 1) j) ∧
      (∀ j, j < 2 ^ ht.globalDepth → j ≠ index →
        ht'.bucketPageId (j + 2 ^ ht.globalDepth) = ht.bucketPageId j) := by
  have himage2 : index ^^^ 2 ^ ht.globalDepth = 2 ^ ht.globalDepth + index :=
    xor_two_pow_of_lt hidx
  obtain ⟨h1, h2, h3, h4, h5, h6, h7⟩ :=
    doubleDir_effect ht.globalDepth ht.localDepth ht.bucketPageId index
      ht.nextPageId hidx
  simp only [EHT.splitIter, hld, himage2, Function.update_same]
  rw [if_pos (Nat.lt_succ_self _), if_neg (by omega)]
  split
  · rename_i heq
    exact absurd heq (by simp)
  · rename_i d3 heq
    rw [Option.some.injEq] at heq
    subst heq
    split
    · exact ⟨_, index, bpid, rfl, h1, h2, h3, h4, h5, h6, h7⟩
    · exact ⟨_, 2 ^ ht.globalDepth + index, ht.nextPageId, rfl, h1, h2, h3, h4, h5,
        h6, h7⟩

/-- Witness for C6: the freshly constructed table (global depth 0) with its
slot-0 bucket; an iteration at index 0 doubles the directory to global depth 1
and puts the new bucket, at local depth 1, in the image slot 1. -/
theorem split_insert_doubling_spec_witness :
    ∃ ht' index' bpid',
      EHT.splitIter (EHT.natCtx 2) (EHT.initState (EHT.natCtx 2)) 1 0 1 =
          some (ht', index', bpid') ∧
      ht'.globalDepth = 0 + 1 ∧
      ht'.localDepth 0 = 0 + 1 ∧
      ht'.localDepth (0 ^^^ 2 ^ 0) = 0 + 1 ∧
      ht'.bucketPageId (0 ^^^ 2 ^ 0) = 2 ∧
      (∀ j, j < 2 ^ 0 → j ≠ 0 →
        ht'.localDepth j = (EHT.initState (EHT.natCtx 2)).localDepth j ∧
          ht'.bucketPageId j = (EHT.initState (EHT.natCtx 2)).bucketPageId j) ∧
      (∀ j, j < 2 ^ 0 →
        ht'.localDepth (j + 2 ^ 0) =
          Function.update (EHT.initState (EHT.natCtx 2)).localDepth 0 (0 + 1) j) ∧
      (∀ j, j < 2 ^ 0 → j ≠ 0 →
        ht'.bucketPageId (j + 2 ^ 0) =
          (EHT.initState (EHT.natCtx 2)).bucketPageId j) :=
  split_insert_doubling_spec (EHT.natCtx 2) (EHT.initState (EHT.natCtx 2)) 1 0 1
    (by decide) (by rfl) (by decide)

/-- C10: every non-structural hash-table operation leaves the directory page
untouched and unpins it not-dirty: `GetValue` (which, being pure here, returns
no state at all) records the single directory unpin `false`; an `Insert` that
detects a duplicate or succeeds without falling through to `SplitInsert`
returns a state with the same global depth, local-depth array and
bucket-page-id array and records the single directory unpin `false`; a
`Remove` whose merge condition fails does the same. -/
theorem nonstructural_ops_directory_clean [DecidableEq K] [DecidableEq V]
    [Inhabited K] [Inhabited V] (c : EHT.Ctx K V) (fuel : Nat)
    (ht : EHT.HState K V) (k : K) (v : V) :
    (EHT.getValue c ht k).2.2 = [false] ∧
    ((Bucket.isExist c.cmp k v
          (ht.store (ht.bucketPageId (c.hash k % 2 ^ ht.globalDepth))) = true ∨
        (Bucket.myInsert k v
          (ht.store (ht.bucketPageId (c.hash k % 2 ^ ht.globalDepth)))).1 = true) →
      ∃ ht' ok, EHT.insert c fuel ht k v = some (ht', ok, [false]) ∧
        ht'.globalDepth = ht.globalDepth ∧ ht'.localDepth = ht.localDepth ∧
        ht'.bucketPageId = ht.bucketPageId) ∧
    (¬((Bucket.myRemove c.cmp k v
          (ht.store (ht.bucketPageId (c.hash k % 2 ^ ht.globalDepth)))).1 = true ∧
        0 < ht.localDepth (c.hash k % 2 ^ ht.globalDepth) ∧
        ht.localDepth ((c.hash k % 2 ^ ht.globalDepth) ^^^
            2 ^ (ht.localDepth (c.hash k % 2 ^ ht.globalDepth) - 1)) =
          ht.localDepth (c.hash k % 2 ^ ht.globalDepth) ∧
        Bucket.isEmpty (Bucket.myRemove c.cmp k v
          (ht.store (ht.bucketPageId (c.hash k % 2 ^ ht.globalDepth)))).2 = true) →
      (EHT.remove c ht k v).2.2 = [false] ∧
        (EHT.remove c ht k v).1.globalDepth = ht.globalDepth ∧
        (EHT.remove c ht k v).1.localDepth = ht.localDepth ∧
        (EHT.remove c ht k v).1.bucketPageId = ht.bucketPageId) := by
  refine ⟨rfl, ?_, ?_⟩
  · intro h
    by_cases hex : Bucket.isExist c.cmp k v
        (ht.store (ht.bucketPageId (c.hash k % 2 ^ ht.globalDepth))) = true
    · refine ⟨ht, false, ?_, rfl, rfl, rfl⟩
      simp only [EHT.insert]
      rw [if_pos hex]
    · have hins : (Bucket.myInsert k v
          (ht.store (ht.bucketPageId (c.hash k % 2 ^ ht.globalDepth)))).1 = true :=
        h.resolve_left hex
      have heq : ∃ ht', EHT.insert c fuel ht k v = some (ht', true, [false]) ∧
          ht'.globalDepth = ht.globalDepth ∧ ht'.localDepth = ht.localDepth ∧
          ht'.bucketPageId = ht.bucketPageId := by
        simp only [EHT.insert]
        rw [if_neg hex, if_pos hins]
        exact ⟨_, rfl, rfl, rfl, rfl⟩
      obtain ⟨ht', h1, h2, h3, h4⟩ := heq
      exact ⟨ht', true, h1, h2, h3, h4⟩
  · intro h
    simp only [EHT.remove]
    by_cases hrem : (Bucket.myRemove c.cmp k v
        (ht.store (ht.bucketPageId (c.hash k % 2 ^ ht.globalDepth)))).1 = true
    · rw [if_pos hrem, if_neg ?hcond]
      case hcond =>
        rintro ⟨hb, hc, hd⟩
        refine h ⟨hrem, hb, ?_, ?_⟩
        · rw [if_pos hb] at hc
          exact hc
        · rwa [Function.update_same] at hd
      exact ⟨rfl, rfl, rfl, rfl⟩
    · rw [if_neg hrem]
      exact ⟨rfl, rfl, rfl, rfl⟩

/-- Witness for C10 on the freshly constructed table: inserting `(0, 0)`
succeeds on the fast path (the slot-0 bucket has room), and removing `(0, 0)`
removes nothing, so neither touches the directory and both unpin it clean. -/
theorem nonstructural_ops_directory_clean_witness :
    (∃ ht' ok, EHT.insert (EHT.natCtx 2) 5 (EHT.initState (EHT.natCtx 2)) 0 0 =
        some (ht', ok, [false]) ∧
      ht'.globalDepth = (EHT.initState (EHT.natCtx 2)).globalDepth ∧
      ht'.localDepth = (EHT.initState (EHT.natCtx 2)).localDepth ∧
      ht'.bucketPageId = (EHT.initState (EHT.natCtx 2)).bucketPageId) ∧
    (EHT.remove (EHT.natCtx 2) (EHT.initState (EHT.natCtx 2)) 0 0).2.2 = [false] :=
  ⟨(nonstructural_ops_directory_clean (EHT.natCtx 2) 5 (EHT.initState (EHT.natCtx 2))
      0 0).2.1 (Or.inr (by decide)),
    ((nonstructural_ops_directory_clean (EHT.natCtx 2) 5 (EHT.initState (EHT.natCtx 2))
      0 0).2.2 (by decide)).1⟩

theorem mod_pow_mod (a : Nat) {d g : Nat} (h : d ≤ g) : a % 2 ^ g % 2 ^ d = a % 2 ^ d :=
  Nat.mod_mod_of_dvd a (pow_dvd_pow 2 h)

theorem xor_mod_two_pow {j n : Nat} (a : Nat) (h : j < n) :
    (a ^^^ 2 ^ j) % 2 ^ n = a % 2 ^ n ^^^ 2 ^ j := by
  apply Nat.eq_of_testBit_eq
  intro i
  rw [Nat.testBit_mod_two_pow, testBit_xor_two_pow, testBit_xor_two_pow,
    Nat.testBit_mod_two_pow]
  by_cases hij : i = j
  · subst hij
    rw [if_pos rfl, if_pos rfl]
    simp [h]
  · rw [if_neg hij, if_neg hij]
    by_cases hi : i < n
    · simp [hi]
    · simp [hi]

/-- Splitting a residue class modulo `2 ^ d` into its two subclasses modulo
`2 ^ (d + 1)`: the one of `a` and the one of `a ^^^ 2 ^ d`. -/
theorem mod_two_pow_succ_split (j a d : Nat) :
    j % 2 ^ d = a % 2 ^ d ↔
      (j % 2 ^ (d + 1) = a % 2 ^ (d + 1) ∨
        j % 2 ^ (d + 1) = (a ^^^ 2 ^ d) % 2 ^ (d + 1)) := by
  constructor
  · intro h
    rw [mod_two_pow_eq_iff_testBit] at h
    by_cases hbit : j.testBit d = a.testBit d
    · left
      rw [mod_two_pow_eq_iff_testBit]
      intro i hi
      rcases Nat.lt_or_ge i d with hid | hid
      · exact h i hid
      · rw [show i = d by omega]
        exact hbit
    · right
      rw [mod_two_pow_eq_iff_testBit]
      intro i hi
      rw [testBit_xor_two_pow]
      rcases Nat.lt_or_ge i d with hid | hid
      · rw [if_neg (by omega)]
        exact h i hid
      · rw [show i = d by omega, if_pos rfl]
        cases hja : j.testBit d <;> cases haa : a.testBit d <;>
          simp_all
  · intro h
    rw [mod_two_pow_eq_iff_testBit]
    intro i hi
    rcases h with h | h
    · rw [mod_two_pow_eq_iff_testBit] at h
      exact h i (by omega)
    · rw [mod_two_pow_eq_iff_testBit] at h
      have h2 := h i (by omega)
      rw [testBit_xor_two_pow, if_neg (by omega)] at h2
      exact h2

/-- The inductive strengthening of the directory sharing invariant: local
depths are bounded by the global depth, bucket page ids are below the
allocator watermark, every active slot congruent to `s` modulo
`2 ^ local_depth[s]` carries the same local depth and bucket page id
(uniformity), and conversely two active slots sharing a bucket page id are
congruent at that common local depth (injectivity). -/
def EHT.DirInv {K V : Type} (ht : EHT.HState K V) : Prop :=
  (∀ s, s < 2 ^ ht.globalDepth → ht.localDepth s ≤ ht.globalDepth) ∧
  (∀ s, s < 2 ^ ht.globalDepth → ht.bucketPageId s < ht.nextPageId) ∧
  (∀ s s', s < 2 ^ ht.globalDepth → s' < 2 ^ ht.globalDepth →
    s' % 2 ^ ht.localDepth s = s % 2 ^ ht.localDepth s →
    ht.localDepth s' = ht.localDepth s ∧ ht.bucketPageId s' = ht.bucketPageId s) ∧
  (∀ s s', s < 2 ^ ht.globalDepth → s' < 2 ^ ht.globalDepth →
    ht.bucketPageId s = ht.bucketPageId s' →
    s % 2 ^ ht.localDepth s = s' % 2 ^ ht.localDepth s ∧
      ht.localDepth s = ht.localDepth s')

/-- The sharing invariant exactly as the specification states it (its
invariant (1)). -/
def EHT.SharingInv {K V : Type} (ht : EHT.HState K V) : Prop :=
  ∀ s s', s < 2 ^ ht.globalDepth → s' < 2 ^ ht.globalDepth →
    (ht.bucketPageId s = ht.bucketPageId s' ↔
      (s % 2 ^ ht.localDepth s = s' % 2 ^ ht.localDepth s ∧
        ht.localDepth s = ht.localDepth s'))

theorem EHT.DirInv.sharing {K V : Type} {ht : EHT.HState K V} (h : EHT.DirInv ht) :
    EHT.SharingInv ht := by
  obtain ⟨-, -, h3, h4⟩ := h
  intro s s' hs hs'
  constructor
  · exact h4 s s' hs hs'
  · rintro ⟨hc, -⟩
    exact ((h3 s s' hs hs' hc.symm).2).symm

theorem EHT.dirInv_init {K V : Type} [DecidableEq K] [DecidableEq V] [Inhabited K]
    [Inhabited V] (c : EHT.Ctx K V) : EHT.DirInv (EHT.initState c) := by
  refine ⟨?_, ?_, ?_, ?_⟩
  · intro s hs
    simp [EHT.initState]
  · intro s hs
    simp only [EHT.initState, pow_zero, Nat.lt_one_iff] at hs
    subst hs
    simp [EHT.initState]
  · intro s s' hs hs' _
    simp only [EHT.initState, pow_zero, Nat.lt_one_iff] at hs hs'
    subst hs
    subst hs'
    exact ⟨rfl, rfl⟩
  · intro s s' hs hs' _
    simp only [EHT.initState, pow_zero, Nat.lt_one_iff] at hs hs'
    subst hs
    subst hs'
    exact ⟨rfl, rfl⟩

/-- Preservation of the four directory-invariant components by the in-place
split update (`splitDir`), stated over the raw slot functions: `ld`/`bp` are
the old arrays, `LD2`/`BP2` the new ones, `d` the split bucket's old local
depth, `next` the id of the freshly allocated image bucket. -/
theorem dirInv_split_core (g d next index : Nat) (ld bp LD2 BP2 : Nat → Nat)
    (hLD2 : ∀ j, LD2 j =
      if j < 2 ^ g ∧ j % 2 ^ (d + 1) = index % 2 ^ (d + 1) then d + 1
      else if j < 2 ^ g ∧ j % 2 ^ (d + 1) = (index ^^^ 2 ^ d) % 2 ^ (d + 1) then d + 1
      else Function.update ld index (d + 1) j)
    (hBP2 : ∀ j, BP2 j =
      if j < 2 ^ g ∧ j % 2 ^ (d + 1) = (index ^^^ 2 ^ d) % 2 ^ (d + 1) then next
      else bp j)
    (inv1 : ∀ s, s < 2 ^ g → ld s ≤ g)
    (inv2 : ∀ s, s < 2 ^ g → bp s < next)
    (inv3 : ∀ s s', s < 2 ^ g → s' < 2 ^ g → s' % 2 ^ ld s = s % 2 ^ ld s →
      ld s' = ld s ∧ bp s' = bp s)
    (inv4 : ∀ s s', s < 2 ^ g → s' < 2 ^ g → bp s = bp s' →
      s % 2 ^ ld s = s' % 2 ^ ld s ∧ ld s = ld s')
    (hidx : index < 2 ^ g) (hd : ld index = d) (hd1 : d + 1 ≤ g) :
    (∀ s, s < 2 ^ g → LD2 s ≤ g) ∧
    (∀ s, s < 2 ^ g → BP2 s < next + 1) ∧
    (∀ s s', s < 2 ^ g → s' < 2 ^ g → s' % 2 ^ LD2 s = s % 2 ^ LD2 s →
      LD2 s' = LD2 s ∧ BP2 s' = BP2 s) ∧
    (∀ s s', s < 2 ^ g → s' < 2 ^ g → BP2 s = BP2 s' →
      s % 2 ^ LD2 s = s' % 2 ^ LD2 s ∧ LD2 s = LD2 s') := by
  have himg_ne : (index ^^^ 2 ^ d) % 2 ^ (d + 1) ≠ index % 2 ^ (d + 1) :=
    xor_two_pow_mod_succ_ne index d
  have himg_mod : (index ^^^ 2 ^ d) % 2 ^ d = index % 2 ^ d :=
    xor_two_pow_mod_self index d
  have hdrop : ∀ j a : Nat, j % 2 ^ (d + 1) = a % 2 ^ (d + 1) →
      j % 2 ^ d = a % 2 ^ d := by
    intro j a hj
    calc j % 2 ^ d = j % 2 ^ (d + 1) % 2 ^ d := (mod_pow_mod j (Nat.le_succ d)).symm
    _ = a % 2 ^ (d + 1) % 2 ^ d := by rw [hj]
    _ = a % 2 ^ d := mod_pow_mod a (Nat.le_succ d)
  have hCd : ∀ s : Nat, s % 2 ^ d = index % 2 ^ d ↔
      (s % 2 ^ (d + 1) = index % 2 ^ (d + 1) ∨
        s % 2 ^ (d + 1) = (index ^^^ 2 ^ d) % 2 ^ (d + 1)) :=
    fun s => mod_two_pow_succ_split s index d
  have hclass : ∀ s, s < 2 ^ g → s % 2 ^ d = index % 2 ^ d →
      ld s = d ∧ bp s = bp index := by
    intro s hs hc
    have h2 := inv3 index s hidx hs (by rw [hd]; exact hc)
    rw [hd] at h2
    exact h2
  refine ⟨?_, ?_, ?_, ?_⟩
  · intro s hs
    rw [hLD2 s]
    split_ifs with h1 h2
    · omega
    · omega
    · rcases eq_or_ne s index with rfl | hne
      · rw [Function.update_same]
        omega
      · rw [Function.update_noteq hne]
        exact inv1 s hs
  · intro s hs
    rw [hBP2 s]
    split_ifs with h1
    · omega
    · exact Nat.lt_succ_of_lt (inv2 s hs)
  · intro s s' hs hs' hmod
    by_cases hsI : s % 2 ^ (d + 1) = index % 2 ^ (d + 1)
    · have hLs : LD2 s = d + 1 := by rw [hLD2 s, if_pos ⟨hs, hsI⟩]
      rw [hLs] at hmod
      have hs'I : s' % 2 ^ (d + 1) = index % 2 ^ (d + 1) := by rw [hmod]; exact hsI
      have hLs' : LD2 s' = d + 1 := by rw [hLD2 s', if_pos ⟨hs', hs'I⟩]
      have hsM : ¬s % 2 ^ (d + 1) = (index ^^^ 2 ^ d) % 2 ^ (d + 1) := by
        intro hc
        exact himg_ne (by rw [← hc, hsI])
      have hs'M : ¬s' % 2 ^ (d + 1) = (index ^^^ 2 ^ d) % 2 ^ (d + 1) := by
        intro hc
        exact himg_ne (by rw [← hc, hs'I])
      refine ⟨by rw [hLs, hLs'], ?_⟩
      rw [hBP2 s, if_neg (fun hc => hsM hc.2), hBP2 s', if_neg (fun hc => hs'M hc.2)]
      have h1 := hclass s hs (hdrop _ _ hsI)
      have h2 := hclass s' hs' (hdrop _ _ hs'I)
      rw [h1.2, h2.2]
    · by_cases hsM : s % 2 ^ (d + 1) = (index ^^^ 2 ^ d) % 2 ^ (d + 1)
      · have hLs : LD2 s = d + 1 := by
          rw [hLD2 s, if_neg (fun hc => hsI hc.2), if_pos ⟨hs, hsM⟩]
        rw [hLs] at hmod
        have hs'M : s' % 2 ^ (d + 1) = (index ^^^ 2 ^ d) % 2 ^ (d + 1) := by
          rw [hmod]; exact hsM
        have hs'I : ¬s' % 2 ^ (d + 1) = index % 2 ^ (d + 1) := by
          intro hc
          exact himg_ne (by rw [← hs'M, hc])
        have hLs' : LD2 s' = d + 1 := by
          rw [hLD2 s', if_neg (fun hc => hs'I hc.2), if_pos ⟨hs', hs'M⟩]
        refine ⟨by rw [hLs, hLs'], ?_⟩
        rw [hBP2 s, if_pos ⟨hs, hsM⟩, hBP2 s', if_pos ⟨hs', hs'M⟩]
      · have hsC : ¬s % 2 ^ d = index % 2 ^ d := by
          intro hc
          rcases (hCd s).mp hc with h | h
          · exact hsI h
          · exact hsM h
        have hsne : s ≠ index := by
          rintro rfl
          exact hsC rfl
        have hLs : LD2 s = ld s := by
          rw [hLD2 s, if_neg (fun hc => hsI hc.2), if_neg (fun hc => hsM hc.2),
            Function.update_noteq hsne]
        rw [hLs] at hmod
        have hold := inv3 s s' hs hs' hmod
        have hs'C : ¬s' % 2 ^ d = index % 2 ^ d := by
          intro hc
          have h2 := hclass s' hs' hc
          have hlds : ld s = d := by rw [← hold.1, h2.1]
          rw [hlds] at hmod
          exact hsC (by rw [← hmod]; exact hc)
        have hs'I : ¬s' % 2 ^ (d + 1) = index % 2 ^ (d + 1) :=
          fun hc => hs'C (hdrop _ _ hc)
        have hs'M : ¬s' % 2 ^ (d + 1) = (index ^^^ 2 ^ d) % 2 ^ (d + 1) :=
          fun hc => hs'C ((hdrop _ _ hc).trans himg_mod)
        have hs'ne : s' ≠ index := by
          rintro rfl
          exact hs'C rfl
        have hLs' : LD2 s' = ld s' := by
          rw [hLD2 s', if_neg (fun hc => hs'I hc.2), if_neg (fun hc => hs'M hc.2),
            Function.update_noteq hs'ne]
        refine ⟨by rw [hLs, hLs', hold.1], ?_⟩
        rw [hBP2 s, if_neg (fun hc => hsM hc.2), hBP2 s', if_neg (fun hc => hs'M hc.2)]
        exact hold.2
  · intro s s' hs hs' hbp
    by_cases hsM : s % 2 ^ (d + 1) = (index ^^^ 2 ^ d) % 2 ^ (d + 1)
    · have hBs : BP2 s = next := by rw [hBP2 s, if_pos ⟨hs, hsM⟩]
      by_cases hs'M : s' % 2 ^ (d + 1) = (index ^^^ 2 ^ d) % 2 ^ (d + 1)
      · have hsI : ¬s % 2 ^ (d + 1) = index % 2 ^ (d + 1) := by
          intro hc
          exact himg_ne (by rw [← hsM, hc])
        have hs'I : ¬s' % 2 ^ (d + 1) = index % 2 ^ (d + 1) := by
          intro hc
          exact himg_ne (by rw [← hs'M, hc])
        have hLs : LD2 s = d + 1 := by
          rw [hLD2 s, if_neg (fun hc => hsI hc.2), if_pos ⟨hs, hsM⟩]
        have hLs' : LD2 s' = d + 1 := by
          rw [hLD2 s', if_neg (fun hc => hs'I hc.2), if_pos ⟨hs', hs'M⟩]
        refine ⟨?_, by rw [hLs, hLs']⟩
        rw [hLs, hsM, hs'M]
      · exfalso
        have hBs' : BP2 s' = bp s' := by rw [hBP2 s', if_neg (fun hc => hs'M hc.2)]
        have h2 := inv2 s' hs'
        omega
    · have hBs : BP2 s = bp s := by rw [hBP2 s, if_neg (fun hc => hsM hc.2)]
      by_cases hs'M : s' % 2 ^ (d + 1) = (index ^^^ 2 ^ d) % 2 ^ (d + 1)
      · exfalso
        have hBs' : BP2 s' = next := by rw [hBP2 s', if_pos ⟨hs', hs'M⟩]
        have h2 := inv2 s hs
        omega
      · have hBs' : BP2 s' = bp s' := by rw [hBP2 s', if_neg (fun hc => hs'M hc.2)]
        have hbp2 : bp s = bp s' := by rw [← hBs, ← hBs', hbp]
        by_cases hsI : s % 2 ^ (d + 1) = index % 2 ^ (d + 1)
        · have h1 := hclass s hs (hdrop _ _ hsI)
          have h2 : bp s' = bp index := by rw [← hbp2, h1.2]
          have h3 := inv4 s' index hs' hidx (by rw [h2])
          have hlds' : ld s' = d := by rw [h3.2, hd]
          have hs'C : s' % 2 ^ d = index % 2 ^ d := by
            rw [← hlds']
            exact h3.1
          rcases (hCd s').mp hs'C with h | h
          · have hLs : LD2 s = d + 1 := by rw [hLD2 s, if_pos ⟨hs, hsI⟩]
            have hLs' : LD2 s' = d + 1 := by rw [hLD2 s', if_pos ⟨hs', h⟩]
            refine ⟨?_, by rw [hLs, hLs']⟩
            rw [hLs, hsI, h]
          · exact absurd h hs'M
        · have hsC : ¬s % 2 ^ d = index % 2 ^ d := by
            intro hc
            rcases (hCd s).mp hc with h | h
            · exact hsI h
            · exact hsM h
          by_cases hs'I : s' % 2 ^ (d + 1) = index % 2 ^ (d + 1)
          · exfalso
            have h1 := hclass s' hs' (hdrop _ _ hs'I)
            have h2 : bp s = bp index := by rw [hbp2, h1.2]
            have h3 := inv4 s index hs hidx (by rw [h2])
            have hlds : ld s = d := by rw [h3.2, hd]
            exact hsC (by rw [← hlds]; exact h3.1)
          · have hs'C : ¬s' % 2 ^ d = index % 2 ^ d := by
              intro hc
              rcases (hCd s').mp hc with h | h
              · exact hs'I h
              · exact hs'M h
            have hsne : s ≠ index := by
              rintro rfl
              exact hsC rfl
            have hs'ne : s' ≠ index := by
              rintro rfl
              exact hs'C rfl
            have hLs : LD2 s = ld s := by
              rw [hLD2 s, if_neg (fun hc => hsI hc.2), if_neg (fun hc => hsM hc.2),
                Function.update_noteq hsne]
            have hLs' : LD2 s' = ld s' := by
              rw [hLD2 s', if_neg (fun hc => hs'I hc.2), if_neg (fun hc => hs'M hc.2),
                Function.update_noteq hs'ne]
            have hold := inv4 s s' hs hs' hbp2
            exact ⟨by rw [hLs]; exact hold.1, by rw [hLs, hLs']; exact hold.2⟩

/-- Preservation of the four directory-invariant components by the doubling
update (`doubleDir`): the active region grows from `2 ^ g` to `2 ^ (g + 1)`
and every new slot behaves like its base `s % 2 ^ g`, except the image slot
`2 ^ g + index`, which holds the new bucket. -/
theorem dirInv_double_core (g next index : Nat) (ld bp LD2 BP2 : Nat → Nat)
    (hLD2 : ∀ j, LD2 j =
      if 2 ^ g ≤ j ∧ j < 2 * 2 ^ g then Function.update ld index (g + 1) (j - 2 ^ g)
      else Function.update ld index (g + 1) j)
    (hBP2 : ∀ j, BP2 j = Function.update
      (fun i => if 2 ^ g ≤ i ∧ i < 2 * 2 ^ g then bp (i - 2 ^ g) else bp i)
      (index ^^^ 2 ^ g) next j)
    (inv1 : ∀ s, s < 2 ^ g → ld s ≤ g)
    (inv2 : ∀ s, s < 2 ^ g → bp s < next)
    (inv3 : ∀ s s', s < 2 ^ g → s' < 2 ^ g → s' % 2 ^ ld s = s % 2 ^ ld s →
      ld s' = ld s ∧ bp s' = bp s)
    (inv4 : ∀ s s', s < 2 ^ g → s' < 2 ^ g → bp s = bp s' →
      s % 2 ^ ld s = s' % 2 ^ ld s ∧ ld s = ld s')
    (hidx : index < 2 ^ g) (hd : ld index = g) :
    (∀ s, s < 2 ^ (g + 1) → LD2 s ≤ g + 1) ∧
    (∀ s, s < 2 ^ (g + 1) → BP2 s < next + 1) ∧
    (∀ s s', s < 2 ^ (g + 1) → s' < 2 ^ (g + 1) → s' % 2 ^ LD2 s = s % 2 ^ LD2 s →
      LD2 s' = LD2 s ∧ BP2 s' = BP2 s) ∧
    (∀ s s', s < 2 ^ (g + 1) → s' < 2 ^ (g + 1) → BP2 s = BP2 s' →
      s % 2 ^ LD2 s = s' % 2 ^ LD2 s ∧ LD2 s = LD2 s') := by
  have h2g : 0 < 2 ^ g := pow_pos (by norm_num) g
  have hpow : 2 ^ (g + 1) = 2 * 2 ^ g := by
    rw [pow_succ]
    ring
  have himg : index ^^^ 2 ^ g = 2 ^ g + index := xor_two_pow_of_lt hidx
  have hmodr : ∀ s : Nat, s < 2 ^ (g + 1) → 2 ^ g ≤ s → s % 2 ^ g = s - 2 ^ g := by
    intro s hs hup
    rw [Nat.mod_eq_sub_mod hup, Nat.mod_eq_of_lt (by omega)]
  have hLn : ∀ s, s < 2 ^ (g + 1) →
      LD2 s = Function.update ld index (g + 1) (s % 2 ^ g) := by
    intro s hs
    rw [hLD2 s]
    by_cases hup : 2 ^ g ≤ s
    · rw [if_pos ⟨hup, by omega⟩, hmodr s hs hup]
    · rw [if_neg (fun hc => hup hc.1), Nat.mod_eq_of_lt (by omega)]
  have hBn : ∀ s, s < 2 ^ (g + 1) → s ≠ 2 ^ g + index → BP2 s = bp (s % 2 ^ g) := by
    intro s hs hne
    rw [hBP2 s, himg, Function.update_noteq hne]
    by_cases hup : 2 ^ g ≤ s
    · show (if 2 ^ g ≤ s ∧ s < 2 * 2 ^ g then bp (s - 2 ^ g) else bp s) = bp (s % 2 ^ g)
      rw [if_pos ⟨hup, by omega⟩, hmodr s hs hup]
    · show (if 2 ^ g ≤ s ∧ s < 2 * 2 ^ g then bp (s - 2 ^ g) else bp s) = bp (s % 2 ^ g)
      rw [if_neg (fun hc => hup hc.1), Nat.mod_eq_of_lt (by omega)]
  have hBi : BP2 (2 ^ g + index) = next := by
    rw [hBP2 _, himg, Function.update_same]
  have hrlt : ∀ s : Nat, s % 2 ^ g < 2 ^ g := fun s => Nat.mod_lt s h2g
  have hr_img : (2 ^ g + index) % 2 ^ g = index := by
    rw [Nat.add_mod_left, Nat.mod_eq_of_lt hidx]
  refine ⟨?_, ?_, ?_, ?_⟩
  · intro s hs
    rw [hLn s hs]
    rcases eq_or_ne (s % 2 ^ g) index with he | hne
    · rw [he, Function.update_same]
    · rw [Function.update_noteq hne]
      exact Nat.le_succ_of_le (inv1 _ (hrlt s))
  · intro s hs
    rcases eq_or_ne s (2 ^ g + index) with rfl | hne
    · rw [hBi]
      omega
    · rw [hBn s hs hne]
      exact Nat.lt_succ_of_lt (inv2 _ (hrlt s))
  · intro s s' hs hs' hmod
    rcases eq_or_ne (s % 2 ^ g) index with he | hne
    · have hLs : LD2 s = g + 1 := by rw [hLn s hs, he, Function.update_same]
      rw [hLs] at hmod
      have hss : s' = s := by
        rw [Nat.mod_eq_of_lt hs', Nat.mod_eq_of_lt hs] at hmod
        exact hmod
      exact ⟨by rw [hss], by rw [hss]⟩
    · have hLs : LD2 s = ld (s % 2 ^ g) := by
        rw [hLn s hs, Function.update_noteq hne]
      rw [hLs] at hmod
      have hldle : ld (s % 2 ^ g) ≤ g := inv1 _ (hrlt s)
      have hrr : s' % 2 ^ g % 2 ^ ld (s % 2 ^ g) = s % 2 ^ g % 2 ^ ld (s % 2 ^ g) := by
        rw [mod_pow_mod _ hldle, mod_pow_mod _ hldle]
        exact hmod
      have hne' : s' % 2 ^ g ≠ index := by
        intro he'
        have h3 := inv3 (s % 2 ^ g) index (hrlt s) hidx (by rw [← he']; exact hrr)
        have h5 : ld (s % 2 ^ g) = g := by rw [← h3.1, hd]
        rw [h5, mod_pow_mod s' (le_refl g), mod_pow_mod s (le_refl g)] at hrr
        exact hne (by rw [← hrr, he'])
      have h3 := inv3 (s % 2 ^ g) (s' % 2 ^ g) (hrlt s) (hrlt s') hrr
      have hsimg : s ≠ 2 ^ g + index := fun hc => hne (by rw [hc, hr_img])
      have hs'img : s' ≠ 2 ^ g + index := fun hc => hne' (by rw [hc, hr_img])
      have hLs' : LD2 s' = ld (s' % 2 ^ g) := by
        rw [hLn s' hs', Function.update_noteq hne']
      refine ⟨by rw [hLs, hLs', h3.1], ?_⟩
      rw [hBn s hs hsimg, hBn s' hs' hs'img, h3.2]
  · intro s s' hs hs' hbp
    rcases eq_or_ne s (2 ^ g + index) with rfl | hsimg
    · rcases eq_or_ne s' (2 ^ g + index) with rfl | hs'img
      · exact ⟨rfl, rfl⟩
      · exfalso
        rw [hBi, hBn s' hs' hs'img] at hbp
        have h2 := inv2 _ (hrlt s')
        omega
    · rcases eq_or_ne s' (2 ^ g + index) with rfl | hs'img
      · exfalso
        rw [hBi, hBn s hs hsimg] at hbp
        have h2 := inv2 _ (hrlt s)
        omega
      · rw [hBn s hs hsimg, hBn s' hs' hs'img] at hbp
        rcases eq_or_ne (s % 2 ^ g) index with he | hne
        · have hsi : s = index := by
            rcases Nat.lt_or_ge s (2 ^ g) with h | h
            · rw [Nat.mod_eq_of_lt h] at he
              exact he
            · exfalso
              apply hsimg
              have h6 := hmodr s hs h
              omega
          have h4 := inv4 index (s' % 2 ^ g) hidx (hrlt s') (by rw [← he, hbp])
          have h5 := h4.1
          rw [hd, Nat.mod_eq_of_lt hidx, mod_pow_mod s' (le_refl g)] at h5
          have hs'i : s' = index := by
            rcases Nat.lt_or_ge s' (2 ^ g) with h | h
            · rw [Nat.mod_eq_of_lt h] at h5
              omega
            · exfalso
              apply hs'img
              have h6 := hmodr s' hs' h
              omega
          exact ⟨by rw [hsi, hs'i], by rw [hsi, hs'i]⟩
        · have hne' : s' % 2 ^ g ≠ index := by
            intro he'
            have h4 := inv4 (s % 2 ^ g) index (hrlt s) hidx (by rw [← he', hbp])
            have hldg : ld (s % 2 ^ g) = g := by rw [h4.2, hd]
            have h5 := h4.1
            rw [hldg, mod_pow_mod s (le_refl g), Nat.mod_eq_of_lt hidx] at h5
            exact hne h5
          have h4 := inv4 (s % 2 ^ g) (s' % 2 ^ g) (hrlt s) (hrlt s') hbp
          have hLs : LD2 s = ld (s % 2 ^ g) := by
            rw [hLn s hs, Function.update_noteq hne]
          have hLs' : LD2 s' = ld (s' % 2 ^ g) := by
            rw [hLn s' hs', Function.update_noteq hne']
          have hldle : ld (s % 2 ^ g) ≤ g := inv1 _ (hrlt s)
          refine ⟨?_, by rw [hLs, hLs', h4.2]⟩
          rw [hLs]
          calc s % 2 ^ ld (s % 2 ^ g)
              = s % 2 ^ g % 2 ^ ld (s % 2 ^ g) := (mod_pow_mod s hldle).symm
          _ = s' % 2 ^ g % 2 ^ ld (s % 2 ^ g) := by rw [h4.1]
          _ = s' % 2 ^ ld (s % 2 ^ g) := mod_pow_mod s' hldle

/-- One `SplitInsert` iteration preserves the directory invariant, and the
loop-carried index stays inside the active region. -/
theorem EHT.splitIter_preserves {K V : Type} [DecidableEq K] [DecidableEq V]
    [Inhabited K] [Inhabited V] (c : EHT.Ctx K V) (ht : EHT.HState K V)
    (hk index bpid : Nat) (ht' : EHT.HState K V) (index' bpid' : Nat)
    (hinv : EHT.DirInv ht) (hidx : index < 2 ^ ht.globalDepth)
    (heq : EHT.splitIter c ht hk index bpid = some (ht', index', bpid')) :
    EHT.DirInv ht' ∧ index' < 2 ^ ht'.globalDepth := by
  obtain ⟨hinv1, hinv2, hinv3, hinv4⟩ := hinv
  simp only [EHT.splitIter, Function.update_same] at heq
  by_cases hgt : ht.localDepth index + 1 > ht.globalDepth
  · rw [if_pos hgt] at heq
    have hdg : ht.localDepth index = ht.globalDepth := by
      have h2 := hinv1 index hidx
      omega
    by_cases hmax : EHT.maxDepth ≤ ht.globalDepth
    · rw [if_pos hmax] at heq
      exact absurd heq (by simp)
    · rw [if_neg hmax, hdg] at heq
      obtain ⟨c1, c2, c3, c4⟩ := dirInv_double_core ht.globalDepth ht.nextPageId index
        ht.localDepth ht.bucketPageId
        (EHT.doubleDir ht.globalDepth
          (Function.update ht.localDepth index (ht.globalDepth + 1))
          ht.bucketPageId (index ^^^ 2 ^ ht.globalDepth) ht.nextPageId).2.1
        (EHT.doubleDir ht.globalDepth
          (Function.update ht.localDepth index (ht.globalDepth + 1))
          ht.bucketPageId (index ^^^ 2 ^ ht.globalDepth) ht.nextPageId).2.2
        (fun j => rfl) (fun j => rfl) hinv1 hinv2 hinv3 hinv4 hidx hdg
      split at heq
      · rename_i heq2
        exact absurd heq2 (by simp)
      · rename_i d3 heq2
        rw [Option.some.injEq] at heq2
        subst heq2
        split at heq
        · simp only [Option.some.injEq, Prod.mk.injEq] at heq
          obtain ⟨h1, h2, h3⟩ := heq
          subst h1
          subst h2
          subst h3
          refine ⟨⟨c1, c2, c3, c4⟩, ?_⟩
          show index < 2 ^ (ht.globalDepth + 1)
          have h4 : (2 : Nat) ^ ht.globalDepth ≤ 2 ^ (ht.globalDepth + 1) :=
            Nat.pow_le_pow_right (by norm_num) (Nat.le_succ _)
          omega
        · simp only [Option.some.injEq, Prod.mk.injEq] at heq
          obtain ⟨h1, h2, h3⟩ := heq
          subst h1
          subst h2
          subst h3
          refine ⟨⟨c1, c2, c3, c4⟩, ?_⟩
          show index ^^^ 2 ^ ht.globalDepth < 2 ^ (ht.globalDepth + 1)
          rw [xor_two_pow_of_lt hidx, pow_succ]
          omega
  · rw [if_neg hgt] at heq
    have hd1 : ht.localDepth index + 1 ≤ ht.globalDepth := by omega
    obtain ⟨c1, c2, c3, c4⟩ := dirInv_split_core ht.globalDepth (ht.localDepth index)
      ht.nextPageId index ht.localDepth ht.bucketPageId
      (EHT.splitDir ht.globalDepth
        (Function.update ht.localDepth index (ht.localDepth index + 1))
        ht.bucketPageId (ht.localDepth index + 1) index
        (index ^^^ 2 ^ ht.localDepth index) ht.nextPageId).2.1
      (EHT.splitDir ht.globalDepth
        (Function.update ht.localDepth index (ht.localDepth index + 1))
        ht.bucketPageId (ht.localDepth index + 1) index
        (index ^^^ 2 ^ ht.localDepth index) ht.nextPageId).2.2
      (fun j => rfl) (fun j => rfl) hinv1 hinv2 hinv3 hinv4 hidx rfl hd1
    split at heq
    · rename_i heq2
      exact absurd heq2 (by simp)
    · rename_i d3 heq2
      rw [Option.some.injEq] at heq2
      subst heq2
      split at heq
      · simp only [Option.some.injEq, Prod.mk.injEq] at heq
        obtain ⟨h1, h2, h3⟩ := heq
        subst h1
        subst h2
        subst h3
        exact ⟨⟨c1, c2, c3, c4⟩, hidx⟩
      · simp only [Option.some.injEq, Prod.mk.injEq] at heq
        obtain ⟨h1, h2, h3⟩ := heq
        subst h1
        subst h2
        subst h3
        refine ⟨⟨c1, c2, c3, c4⟩, ?_⟩
        show index ^^^ 2 ^ ht.localDepth index < 2 ^ ht.globalDepth
        exact xor_two_pow_lt _ hidx (by omega)

theorem EHT.splitLoop_preserves {K V : Type} [DecidableEq K] [DecidableEq V]
    [Inhabited K] [Inhabited V] (c : EHT.Ctx K V) :
    ∀ (fuel : Nat) (ht : EHT.HState K V) (hk index bpid : Nat) (dirty : Bool)
      (res : EHT.HState K V × Nat × Nat × Bool),
      EHT.DirInv ht → index < 2 ^ ht.globalDepth →
      EHT.splitLoop c fuel ht hk index bpid dirty = some res →
      EHT.DirInv res.1 := by
  intro fuel
  induction fuel with
  | zero =>
    intro ht hk index bpid dirty res hinv hidx heq
    simp [EHT.splitLoop] at heq
  | succ n ih =>
    intro ht hk index bpid dirty res hinv hidx heq
    simp only [EHT.splitLoop] at heq
    split at heq
    · split at heq
      · exact absurd heq (by simp)
      · rename_i ht2 i2 b2 heq2
        obtain ⟨hd2, hi2⟩ :=
          EHT.splitIter_preserves c ht hk index bpid ht2 i2 b2 hinv hidx heq2
        exact ih ht2 hk i2 b2 true res hd2 hi2 heq
    · rw [Option.some.injEq] at heq
      rw [← heq]
      exact hinv

theorem EHT.splitInsert_preserves {K V : Type} [DecidableEq K] [DecidableEq V]
    [Inhabited K] [Inhabited V] (c : EHT.Ctx K V) (fuel : Nat)
    (ht : EHT.HState K V) (k : K) (v : V) (res : EHT.HState K V × Bool × List Bool)
    (hinv : EHT.DirInv ht) (heq : EHT.splitInsert c fuel ht k v = some res) :
    EHT.DirInv res.1 := by
  simp only [EHT.splitInsert] at heq
  split at heq
  · rw [Option.some.injEq] at heq
    rw [← heq]
    exact hinv
  · split at heq
    · exact absurd heq (by simp)
    · rename_i ht2 i2 b2 dirty heq2
      have hidx : c.hash k % 2 ^ ht.globalDepth < 2 ^ ht.globalDepth :=
        Nat.mod_lt _ (pow_pos (by norm_num) _)
      have hd2 := EHT.splitLoop_preserves c fuel ht (c.hash k)
        (c.hash k % 2 ^ ht.globalDepth)
        (ht.bucketPageId (c.hash k % 2 ^ ht.globalDepth)) false
        (ht2, i2, b2, dirty) hinv hidx heq2
      rw [Option.some.injEq] at heq
      rw [← heq]
      exact hd2

theorem EHT.insert_preserves {K V : Type} [DecidableEq K] [DecidableEq V]
    [Inhabited K] [Inhabited V] (c : EHT.Ctx K V) (fuel : Nat)
    (ht : EHT.HState K V) (k : K) (v : V) (res : EHT.HState K V × Bool × List Bool)
    (hinv : EHT.DirInv ht) (heq : EHT.insert c fuel ht k v = some res) :
    EHT.DirInv res.1 := by
  simp only [EHT.insert] at heq
  split at heq
  · rw [Option.some.injEq] at heq
    rw [← heq]
    exact hinv
  · split at heq
    · rw [Option.some.injEq] at heq
      rw [← heq]
      exact hinv
    · rw [Option.map_eq_some'] at heq
      obtain ⟨res2, heq2, hres⟩ := heq
      rw [← hres]
      exact EHT.splitInsert_preserves c fuel ht k v res2 hinv heq2

/-- Preservation of the four directory-invariant components by one merge
update (`mergeDir`), stated over the raw slot functions with the active
representative `rep` of the merging slot: the classes of `rep` and of its
image `rep ^^^ 2 ^ ldp` modulo `2 ^ (ldp + 1)`, both at local depth
`ldp + 1`, fuse into the class of `rep` modulo `2 ^ ldp` at depth `ldp`,
pointing at the image's bucket. -/
theorem dirInv_merge_core (g ldp next rep : Nat) (ld bp LD2 BP2 : Nat → Nat)
    (hLD2 : ∀ j, LD2 j =
      if j < 2 ^ g ∧ j % 2 ^ (ldp + 1) = rep % 2 ^ (ldp + 1) then ldp
      else if j < 2 ^ g ∧ j % 2 ^ (ldp + 1) = (rep ^^^ 2 ^ ldp) % 2 ^ (ldp + 1) then ldp
      else ld j)
    (hBP2 : ∀ j, BP2 j =
      if j < 2 ^ g ∧ j % 2 ^ (ldp + 1) = rep % 2 ^ (ldp + 1) then bp (rep ^^^ 2 ^ ldp)
      else bp j)
    (inv1 : ∀ s, s < 2 ^ g → ld s ≤ g)
    (inv2 : ∀ s, s < 2 ^ g → bp s < next)
    (inv3 : ∀ s s', s < 2 ^ g → s' < 2 ^ g → s' % 2 ^ ld s = s % 2 ^ ld s →
      ld s' = ld s ∧ bp s' = bp s)
    (inv4 : ∀ s s', s < 2 ^ g → s' < 2 ^ g → bp s = bp s' →
      s % 2 ^ ld s = s' % 2 ^ ld s ∧ ld s = ld s')
    (hrep : rep < 2 ^ g) (hld : ld rep = ldp + 1)
    (hldimg : ld (rep ^^^ 2 ^ ldp) = ldp + 1) (hlt : ldp + 1 ≤ g) :
    (∀ s, s < 2 ^ g → LD2 s ≤ g) ∧
    (∀ s, s < 2 ^ g → BP2 s < next) ∧
    (∀ s s', s < 2 ^ g → s' < 2 ^ g → s' % 2 ^ LD2 s = s % 2 ^ LD2 s →
      LD2 s' = LD2 s ∧ BP2 s' = BP2 s) ∧
    (∀ s s', s < 2 ^ g → s' < 2 ^ g → BP2 s = BP2 s' →
      s % 2 ^ LD2 s = s' % 2 ^ LD2 s ∧ LD2 s = LD2 s') := by
  have himg_lt : rep ^^^ 2 ^ ldp < 2 ^ g := xor_two_pow_lt ldp hrep (by omega)
  have himg_mod : (rep ^^^ 2 ^ ldp) % 2 ^ ldp = rep % 2 ^ ldp :=
    xor_two_pow_mod_self rep ldp
  have himg_ne : (rep ^^^ 2 ^ ldp) % 2 ^ (ldp + 1) ≠ rep % 2 ^ (ldp + 1) :=
    xor_two_pow_mod_succ_ne rep ldp
  have hdrop : ∀ j a : Nat, j % 2 ^ (ldp + 1) = a % 2 ^ (ldp + 1) →
      j % 2 ^ ldp = a % 2 ^ ldp := by
    intro j a hj
    calc j % 2 ^ ldp = j % 2 ^ (ldp + 1) % 2 ^ ldp :=
        (mod_pow_mod j (Nat.le_succ ldp)).symm
    _ = a % 2 ^ (ldp + 1) % 2 ^ ldp := by rw [hj]
    _ = a % 2 ^ ldp := mod_pow_mod a (Nat.le_succ ldp)
  have hCd : ∀ s : Nat, s % 2 ^ ldp = rep % 2 ^ ldp ↔
      (s % 2 ^ (ldp + 1) = rep % 2 ^ (ldp + 1) ∨
        s % 2 ^ (ldp + 1) = (rep ^^^ 2 ^ ldp) % 2 ^ (ldp + 1)) :=
    fun s => mod_two_pow_succ_split s rep ldp
  have hclassI : ∀ s, s < 2 ^ g → s % 2 ^ (ldp + 1) = rep % 2 ^ (ldp + 1) →
      ld s = ldp + 1 ∧ bp s = bp rep := by
    intro s hs hc
    have h2 := inv3 rep s hrep hs (by rw [hld]; exact hc)
    rw [hld] at h2
    exact h2
  have hclassM : ∀ s, s < 2 ^ g →
      s % 2 ^ (ldp + 1) = (rep ^^^ 2 ^ ldp) % 2 ^ (ldp + 1) →
      ld s = ldp + 1 ∧ bp s = bp (rep ^^^ 2 ^ ldp) := by
    intro s hs hc
    have h2 := inv3 (rep ^^^ 2 ^ ldp) s himg_lt hs (by rw [hldimg]; exact hc)
    rw [hldimg] at h2
    exact h2
  have hBPM : ∀ s, s < 2 ^ g → s % 2 ^ ldp = rep % 2 ^ ldp →
      BP2 s = bp (rep ^^^ 2 ^ ldp) ∧ LD2 s = ldp := by
    intro s hs hc
    rcases (hCd s).mp hc with h | h
    · constructor
      · rw [hBP2 s, if_pos ⟨hs, h⟩]
      · rw [hLD2 s, if_pos ⟨hs, h⟩]
    · have hnotI : ¬s % 2 ^ (ldp + 1) = rep % 2 ^ (ldp + 1) := by
        intro hc2
        exact himg_ne (by rw [← h, hc2])
      constructor
      · rw [hBP2 s, if_neg (fun hc2 => hnotI hc2.2)]
        exact (hclassM s hs h).2
      · rw [hLD2 s, if_neg (fun hc2 => hnotI hc2.2), if_pos ⟨hs, h⟩]
  have hOut : ∀ s, s < 2 ^ g → ¬s % 2 ^ ldp = rep % 2 ^ ldp →
      LD2 s = ld s ∧ BP2 s = bp s := by
    intro s hs hc
    have hnI : ¬s % 2 ^ (ldp + 1) = rep % 2 ^ (ldp + 1) :=
      fun h => hc ((hCd s).mpr (Or.inl h))
    have hnM : ¬s % 2 ^ (ldp + 1) = (rep ^^^ 2 ^ ldp) % 2 ^ (ldp + 1) :=
      fun h => hc ((hCd s).mpr (Or.inr h))
    constructor
    · rw [hLD2 s, if_neg (fun h => hnI h.2), if_neg (fun h => hnM h.2)]
    · rw [hBP2 s, if_neg (fun h => hnI h.2)]
  refine ⟨?_, ?_, ?_, ?_⟩
  · intro s hs
    by_cases hc : s % 2 ^ ldp = rep % 2 ^ ldp
    · rw [(hBPM s hs hc).2]
      omega
    · rw [(hOut s hs hc).1]
      exact inv1 s hs
  · intro s hs
    by_cases hc : s % 2 ^ ldp = rep % 2 ^ ldp
    · rw [(hBPM s hs hc).1]
      exact inv2 _ himg_lt
    · rw [(hOut s hs hc).2]
      exact inv2 s hs
  · intro s s' hs hs' hmod
    by_cases hc : s % 2 ^ ldp = rep % 2 ^ ldp
    · rw [(hBPM s hs hc).2] at hmod
      have hc' : s' % 2 ^ ldp = rep % 2 ^ ldp := by rw [hmod]; exact hc
      rw [(hBPM s hs hc).2, (hBPM s' hs' hc').2, (hBPM s hs hc).1,
        (hBPM s' hs' hc').1]
      exact ⟨rfl, rfl⟩
    · rw [(hOut s hs hc).1] at hmod
      have hold := inv3 s s' hs hs' hmod
      have hc' : ¬s' % 2 ^ ldp = rep % 2 ^ ldp := by
        intro hc2
        rcases (hCd s').mp hc2 with h | h
        · have h3 := hclassI s' hs' h
          have hlds : ld s = ldp + 1 := by rw [← hold.1, h3.1]
          rw [hlds] at hmod
          exact hc (by rw [← hdrop _ _ hmod]; exact hc2)
        · have h3 := hclassM s' hs' h
          have hlds : ld s = ldp + 1 := by rw [← hold.1, h3.1]
          rw [hlds] at hmod
          exact hc (by rw [← hdrop _ _ hmod]; exact hc2)
      rw [(hOut s hs hc).1, (hOut s hs hc).2, (hOut s' hs' hc').1,
        (hOut s' hs' hc').2]
      exact hold
  · intro s s' hs hs' hbp
    by_cases hc : s % 2 ^ ldp = rep % 2 ^ ldp
    · by_cases hc' : s' % 2 ^ ldp = rep % 2 ^ ldp
      · rw [(hBPM s hs hc).2, (hBPM s' hs' hc').2]
        refine ⟨?_, rfl⟩
        rw [hc, hc']
      · exfalso
        rw [(hBPM s hs hc).1, (hOut s' hs' hc').2] at hbp
        have h3 := inv4 (rep ^^^ 2 ^ ldp) s' himg_lt hs' hbp
        rw [hldimg] at h3
        exact hc' ((hdrop _ _ h3.1.symm).trans himg_mod)
    · by_cases hc' : s' % 2 ^ ldp = rep % 2 ^ ldp
      · exfalso
        rw [(hOut s hs hc).2, (hBPM s' hs' hc').1] at hbp
        have h3 := inv4 s (rep ^^^ 2 ^ ldp) hs himg_lt hbp
        have hlds : ld s = ldp + 1 := by rw [h3.2, hldimg]
        rw [hlds] at h3
        exact hc ((hdrop _ _ h3.1).trans himg_mod)
      · rw [(hOut s hs hc).2, (hOut s' hs' hc').2] at hbp
        rw [(hOut s hs hc).1, (hOut s' hs' hc').1]
        exact inv4 s s' hs hs' hbp

/-- Restricting the four directory-invariant components from global depth
`g` to `canShrink g ld`: when every active slot's local depth is below `g`
the directory halves, and the components restrict to the smaller range. -/
theorem dirInv_shrink_core (g next : Nat) (ld bp : Nat → Nat)
    (inv1 : ∀ s, s < 2 ^ g → ld s ≤ g)
    (inv2 : ∀ s, s < 2 ^ g → bp s < next)
    (inv3 : ∀ s s', s < 2 ^ g → s' < 2 ^ g → s' % 2 ^ ld s = s % 2 ^ ld s →
      ld s' = ld s ∧ bp s' = bp s)
    (inv4 : ∀ s s', s < 2 ^ g → s' < 2 ^ g → bp s = bp s' →
      s % 2 ^ ld s = s' % 2 ^ ld s ∧ ld s = ld s') :
    (∀ s, s < 2 ^ EHT.canShrink g ld → ld s ≤ EHT.canShrink g ld) ∧
    (∀ s, s < 2 ^ EHT.canShrink g ld → bp s < next) ∧
    (∀ s s', s < 2 ^ EHT.canShrink g ld → s' < 2 ^ EHT.canShrink g ld →
      s' % 2 ^ ld s = s % 2 ^ ld s → ld s' = ld s ∧ bp s' = bp s) ∧
    (∀ s s', s < 2 ^ EHT.canShrink g ld → s' < 2 ^ EHT.canShrink g ld →
      bp s = bp s' → s % 2 ^ ld s = s' % 2 ^ ld s ∧ ld s = ld s') := by
  rw [EHT.canShrink]
  split
  · rename_i hall
    have hle : 2 ^ (g - 1) ≤ 2 ^ g := Nat.pow_le_pow_right (by omega) (by omega)
    refine ⟨?_, ?_, ?_, ?_⟩
    · intro s hs
      have := hall s (lt_of_lt_of_le hs hle)
      omega
    · intro s hs
      exact inv2 s (lt_of_lt_of_le hs hle)
    · intro s s' hs hs' h
      exact inv3 s s' (lt_of_lt_of_le hs hle) (lt_of_lt_of_le hs' hle) h
    · intro s s' hs hs' h
      exact inv4 s s' (lt_of_lt_of_le hs hle) (lt_of_lt_of_le hs' hle) h
  · exact ⟨inv1, inv2, inv3, inv4⟩

/-- Flipping a bit below `d` changes the residue modulo `2 ^ d`. -/
theorem xor_two_pow_mod_ne (a : Nat) {j d : Nat} (h : j < d) :
    (a ^^^ 2 ^ j) % 2 ^ d ≠ a % 2 ^ d := by
  rw [Ne, mod_two_pow_eq_iff_testBit]
  intro h2
  have h3 := h2 j h
  rw [testBit_xor_two_pow, if_pos rfl] at h3
  cases hb : a.testBit j <;> rw [hb] at h3 <;> simp at h3

/-- One iteration of the merge loop, at the level of the directory slot
functions: from the loop invariant at carried depth `ldp + 1` — the active
representative of `index` has that local depth, and every raw image slot
`index ^^^ 2 ^ j` for `j` below it agrees with its active representative —
the merged and possibly shrunk directory satisfies the four invariant
components again, and the loop invariant is re-established at depth `ldp`
for the continuation from the image bucket. -/
theorem EHT.mergeIter_core (g ldp next index g2 : Nat) (ld bp LD2 BP2 : Nat → Nat)
    (hLD2 : LD2 = (EHT.mergeDir g ld bp ldp index (index ^^^ 2 ^ ldp)
      (bp (index ^^^ 2 ^ ldp))).1)
    (hBP2 : BP2 = (EHT.mergeDir g ld bp ldp index (index ^^^ 2 ^ ldp)
      (bp (index ^^^ 2 ^ ldp))).2)
    (hg2 : g2 = EHT.canShrink g LD2)
    (inv1 : ∀ s, s < 2 ^ g → ld s ≤ g)
    (inv2 : ∀ s, s < 2 ^ g → bp s < next)
    (inv3 : ∀ s s', s < 2 ^ g → s' < 2 ^ g → s' % 2 ^ ld s = s % 2 ^ ld s →
      ld s' = ld s ∧ bp s' = bp s)
    (inv4 : ∀ s s', s < 2 ^ g → s' < 2 ^ g → bp s = bp s' →
      s % 2 ^ ld s = s' % 2 ^ ld s ∧ ld s = ld s')
    (hldrep : ld (index % 2 ^ g) = ldp + 1)
    (hldimg : ld (index ^^^ 2 ^ ldp) = ldp + 1)
    (hmirror : ∀ j, j < ldp + 1 →
      ld (index ^^^ 2 ^ j) = ld ((index ^^^ 2 ^ j) % 2 ^ g) ∧
        bp (index ^^^ 2 ^ j) = bp ((index ^^^ 2 ^ j) % 2 ^ g))
    (hle : ldp + 1 ≤ g) :
    (∀ s, s < 2 ^ g2 → LD2 s ≤ g2) ∧
    (∀ s, s < 2 ^ g2 → BP2 s < next) ∧
    (∀ s s', s < 2 ^ g2 → s' < 2 ^ g2 → s' % 2 ^ LD2 s = s % 2 ^ LD2 s →
      LD2 s' = LD2 s ∧ BP2 s' = BP2 s) ∧
    (∀ s s', s < 2 ^ g2 → s' < 2 ^ g2 → BP2 s = BP2 s' →
      s % 2 ^ LD2 s = s' % 2 ^ LD2 s ∧ LD2 s = LD2 s') ∧
    LD2 (index % 2 ^ g2) = ldp ∧
    (∀ j, j < ldp →
      LD2 (index ^^^ 2 ^ j) = LD2 ((index ^^^ 2 ^ j) % 2 ^ g2) ∧
        BP2 (index ^^^ 2 ^ j) = BP2 ((index ^^^ 2 ^ j) % 2 ^ g2)) ∧
    ldp ≤ g2 := by
  have hgpos : (0 : Nat) < 2 ^ g := pow_pos (by norm_num) g
  have hldp_lt : ldp < g := by omega
  have hrep_lt : index % 2 ^ g < 2 ^ g := Nat.mod_lt _ hgpos
  have himgrep : (index ^^^ 2 ^ ldp) % 2 ^ g = index % 2 ^ g ^^^ 2 ^ ldp :=
    xor_mod_two_pow index hldp_lt
  have hmir := hmirror ldp (Nat.lt_succ_self ldp)
  have hldimg2 : ld (index % 2 ^ g ^^^ 2 ^ ldp) = ldp + 1 := by
    rw [← himgrep, ← hmir.1]
    exact hldimg
  have hbpimg2 : bp (index ^^^ 2 ^ ldp) = bp (index % 2 ^ g ^^^ 2 ^ ldp) := by
    rw [hmir.2, himgrep]
  have hidxc : index % 2 ^ (ldp + 1) = index % 2 ^ g % 2 ^ (ldp + 1) :=
    (mod_pow_mod index hle).symm
  have himgc : (index ^^^ 2 ^ ldp) % 2 ^ (ldp + 1) =
      (index % 2 ^ g ^^^ 2 ^ ldp) % 2 ^ (ldp + 1) := by
    rw [xor_mod_two_pow index (Nat.lt_succ_self ldp),
      xor_mod_two_pow (index % 2 ^ g) (Nat.lt_succ_self ldp),
      mod_pow_mod index hle]
  have hld2 : ∀ j, LD2 j =
      if j < 2 ^ g ∧ j % 2 ^ (ldp + 1) = index % 2 ^ g % 2 ^ (ldp + 1) then ldp
      else if j < 2 ^ g ∧
          j % 2 ^ (ldp + 1) = (index % 2 ^ g ^^^ 2 ^ ldp) % 2 ^ (ldp + 1) then ldp
      else ld j := by
    intro j
    rw [hLD2]
    show (if j < 2 ^ g ∧ j % 2 ^ (ldp + 1) = index % 2 ^ (ldp + 1) then ldp
      else if j < 2 ^ g ∧
          j % 2 ^ (ldp + 1) = (index ^^^ 2 ^ ldp) % 2 ^ (ldp + 1) then ldp
      else ld j) = _
    rw [hidxc, himgc]
  have hbp2 : ∀ j, BP2 j =
      if j < 2 ^ g ∧ j % 2 ^ (ldp + 1) = index % 2 ^ g % 2 ^ (ldp + 1) then
        bp (index % 2 ^ g ^^^ 2 ^ ldp)
      else bp j := by
    intro j
    rw [hBP2]
    show (if j < 2 ^ g ∧ j % 2 ^ (ldp + 1) = index % 2 ^ (ldp + 1) then
        bp (index ^^^ 2 ^ ldp)
      else bp j) = _
    rw [hidxc, hbpimg2]
  obtain ⟨c1, c2, c3, c4⟩ := dirInv_merge_core g ldp next (index % 2 ^ g) ld bp
    LD2 BP2 hld2 hbp2 inv1 inv2 inv3 inv4 hrep_lt hldrep hldimg2 hle
  have shr := dirInv_shrink_core g next LD2 BP2 c1 c2 c3 c4
  rw [← hg2] at shr
  have hg2le : g2 ≤ g := by
    rw [hg2, EHT.canShrink]
    split <;> omega
  have hg2ge : g - 1 ≤ g2 := by
    rw [hg2, EHT.canShrink]
    split <;> omega
  have hldp_le_g2 : ldp ≤ g2 := by omega
  have hdrop : ∀ j a : Nat, j % 2 ^ (ldp + 1) = a % 2 ^ (ldp + 1) →
      j % 2 ^ ldp = a % 2 ^ ldp := by
    intro j a hj
    calc j % 2 ^ ldp = j % 2 ^ (ldp + 1) % 2 ^ ldp :=
        (mod_pow_mod j (Nat.le_succ ldp)).symm
    _ = a % 2 ^ (ldp + 1) % 2 ^ ldp := by rw [hj]
    _ = a % 2 ^ ldp := mod_pow_mod a (Nat.le_succ ldp)
  have hout : ∀ s, ¬(s < 2 ^ g ∧ s % 2 ^ ldp = index % 2 ^ g % 2 ^ ldp) →
      LD2 s = ld s ∧ BP2 s = bp s := by
    intro s hs
    constructor
    · rw [hld2 s, if_neg, if_neg]
      · intro hc
        exact hs ⟨hc.1, (hdrop _ _ hc.2).trans (xor_two_pow_mod_self _ ldp)⟩
      · intro hc
        exact hs ⟨hc.1, hdrop _ _ hc.2⟩
    · rw [hbp2 s, if_neg]
      intro hc
      exact hs ⟨hc.1, hdrop _ _ hc.2⟩
  have hstep : ∀ u : Nat, ¬u % 2 ^ ldp = index % 2 ^ g % 2 ^ ldp →
      ld (u % 2 ^ g2) = ld (u % 2 ^ g) ∧ bp (u % 2 ^ g2) = bp (u % 2 ^ g) := by
    intro u hu
    by_cases hsh : ∀ s < 2 ^ g, LD2 s < g
    · have hg2eq : g2 = g - 1 := by rw [hg2, EHT.canShrink, if_pos hsh]
      have hglt : u % 2 ^ g < 2 ^ g := Nat.mod_lt _ hgpos
      have hne2 : ¬(u % 2 ^ g) % 2 ^ ldp = index % 2 ^ g % 2 ^ ldp := by
        rw [mod_pow_mod u (by omega : ldp ≤ g)]
        exact hu
      have hldlt : ld (u % 2 ^ g) < g := by
        have h5 := hsh (u % 2 ^ g) hglt
        rwa [(hout _ (fun hc => hne2 hc.2)).1] at h5
      have ht2eq : u % 2 ^ g2 = (u % 2 ^ g) % 2 ^ g2 := (mod_pow_mod u hg2le).symm
      have ht2lt : u % 2 ^ g2 < 2 ^ g :=
        lt_of_lt_of_le (Nat.mod_lt _ (pow_pos (by norm_num) g2))
          (Nat.pow_le_pow_right (by norm_num) hg2le)
      have hmodeq : (u % 2 ^ g2) % 2 ^ ld (u % 2 ^ g) =
          (u % 2 ^ g) % 2 ^ ld (u % 2 ^ g) := by
        rw [ht2eq, mod_pow_mod _ (by omega : ld (u % 2 ^ g) ≤ g2)]
      exact inv3 (u % 2 ^ g) (u % 2 ^ g2) hglt ht2lt hmodeq
    · have hg2eq : g2 = g := by rw [hg2, EHT.canShrink, if_neg hsh]
      rw [hg2eq]
      exact ⟨rfl, rfl⟩
  refine ⟨shr.1, shr.2.1, shr.2.2.1, shr.2.2.2, ?_, ?_, hldp_le_g2⟩
  · have h1 : (index % 2 ^ g2) % 2 ^ ldp = (index % 2 ^ g) % 2 ^ ldp := by
      rw [mod_pow_mod index hldp_le_g2, mod_pow_mod index (by omega : ldp ≤ g)]
    have hlt2 : index % 2 ^ g2 < 2 ^ g :=
      lt_of_lt_of_le (Nat.mod_lt _ (pow_pos (by norm_num) g2))
        (Nat.pow_le_pow_right (by norm_num) hg2le)
    rcases (mod_two_pow_succ_split (index % 2 ^ g2) (index % 2 ^ g) ldp).mp h1
      with h | h
    · rw [hld2, if_pos ⟨hlt2, h⟩]
    · rw [hld2, if_neg, if_pos ⟨hlt2, h⟩]
      intro hc
      exact xor_two_pow_mod_succ_ne (index % 2 ^ g) ldp (h.symm.trans hc.2)
  · intro j hj
    have hne : ¬(index ^^^ 2 ^ j) % 2 ^ ldp = index % 2 ^ g % 2 ^ ldp := by
      rw [mod_pow_mod index (by omega : ldp ≤ g)]
      exact xor_two_pow_mod_ne index (by omega)
    have hneg2 : ¬(index ^^^ 2 ^ j) % 2 ^ g2 % 2 ^ ldp =
        index % 2 ^ g % 2 ^ ldp := by
      rw [mod_pow_mod _ hldp_le_g2]
      exact hne
    have hm := hmirror j (by omega)
    have hs := hstep (index ^^^ 2 ^ j) hne
    constructor
    · rw [(hout _ (fun hc => hne hc.2)).1, (hout _ (fun hc => hneg2 hc.2)).1,
        hm.1, hs.1]
    · rw [(hout _ (fun hc => hne hc.2)).2, (hout _ (fun hc => hneg2 hc.2)).2,
        hm.2, hs.2]

/-- The while loop of `Merge` preserves the directory invariant, under the
loop invariant that the carried local depth is the one of the active
representative of `index` and that the raw image slots read by the loop agree
with their active representatives. -/
theorem EHT.mergeLoop_preserves {K V : Type} [DecidableEq K] [DecidableEq V]
    [Inhabited K] [Inhabited V] (c : EHT.Ctx K V) :
    ∀ (ldv : Nat) (ht : EHT.HState K V) (index bpid : Nat) (dirty : Bool),
      EHT.DirInv ht →
      ht.localDepth (index % 2 ^ ht.globalDepth) = ldv →
      (∀ j, j < ldv →
        ht.localDepth (index ^^^ 2 ^ j) =
            ht.localDepth ((index ^^^ 2 ^ j) % 2 ^ ht.globalDepth) ∧
          ht.bucketPageId (index ^^^ 2 ^ j) =
            ht.bucketPageId ((index ^^^ 2 ^ j) % 2 ^ ht.globalDepth)) →
      ldv ≤ ht.globalDepth →
      EHT.DirInv (EHT.mergeLoop c ldv ht index bpid dirty).1 := by
  intro ldv
  induction ldv with
  | zero =>
    intro ht index bpid dirty hinv _ _ _
    exact hinv
  | succ ldp IH =>
    intro ht index bpid dirty hinv hldrep hmirror hle
    simp only [EHT.mergeLoop]
    split
    · rename_i hcond
      obtain ⟨hinv1, hinv2, hinv3, hinv4⟩ := hinv
      have core := EHT.mergeIter_core ht.globalDepth ldp ht.nextPageId index _
        ht.localDepth ht.bucketPageId _ _ rfl rfl rfl hinv1 hinv2 hinv3 hinv4
        hldrep hcond.1 hmirror hle
      refine IH _ index _ true ?_ ?_ ?_ ?_
      · exact ⟨core.1, core.2.1, core.2.2.1, core.2.2.2.1⟩
      · exact core.2.2.2.2.1
      · exact core.2.2.2.2.2.1
      · exact core.2.2.2.2.2.2
    · exact hinv

theorem EHT.merge_preserves {K V : Type} [DecidableEq K] [DecidableEq V]
    [Inhabited K] [Inhabited V] (c : EHT.Ctx K V) (ht : EHT.HState K V) (k : K)
    (hinv : EHT.DirInv ht) : EHT.DirInv (EHT.merge c ht k).1 := by
  have hidx : c.hash k % 2 ^ ht.globalDepth < 2 ^ ht.globalDepth :=
    Nat.mod_lt _ (pow_pos (by norm_num) _)
  have hmodid : c.hash k % 2 ^ ht.globalDepth % 2 ^ ht.globalDepth =
      c.hash k % 2 ^ ht.globalDepth := Nat.mod_eq_of_lt hidx
  have hldle : ht.localDepth (c.hash k % 2 ^ ht.globalDepth) ≤ ht.globalDepth :=
    hinv.1 _ hidx
  show EHT.DirInv (EHT.mergeLoop c
    (ht.localDepth (c.hash k % 2 ^ ht.globalDepth)) ht
    (c.hash k % 2 ^ ht.globalDepth)
    (ht.bucketPageId (c.hash k % 2 ^ ht.globalDepth)) false).1
  refine EHT.mergeLoop_preserves c _ ht _ _ false hinv ?_ ?_ hldle
  · rw [hmodid]
  · intro j hj
    have hxlt : c.hash k % 2 ^ ht.globalDepth ^^^ 2 ^ j < 2 ^ ht.globalDepth :=
      xor_two_pow_lt j hidx (by omega)
    rw [Nat.mod_eq_of_lt hxlt]
    exact ⟨rfl, rfl⟩

theorem EHT.remove_preserves {K V : Type} [DecidableEq K] [DecidableEq V]
    [Inhabited K] [Inhabited V] (c : EHT.Ctx K V) (ht : EHT.HState K V) (k : K)
    (v : V) (hinv : EHT.DirInv ht) : EHT.DirInv (EHT.remove c ht k v).1 := by
  simp only [EHT.remove]
  split
  all_goals try split
  all_goals try split
  all_goals
    first
      | exact EHT.merge_preserves c _ k
          ⟨hinv.1, hinv.2.1, hinv.2.2.1, hinv.2.2.2⟩
      | exact ⟨hinv.1, hinv.2.1, hinv.2.2.1, hinv.2.2.2⟩

theorem EHT.runOps_preserves {K V : Type} [DecidableEq K] [DecidableEq V]
    [Inhabited K] [Inhabited V] (c : EHT.Ctx K V) (fuel : Nat)
    (ops : List (EHT.HOp K V)) (ht : EHT.HState K V)
    (h : EHT.runOps c fuel ops = some ht) : EHT.DirInv ht := by
  have main : ∀ (l : List (EHT.HOp K V)) (st : Option (EHT.HState K V)),
      (∀ h0, st = some h0 → EHT.DirInv h0) →
      ∀ h1, l.foldl (EHT.applyHashOp c fuel) st = some h1 → EHT.DirInv h1 := by
    intro l
    induction l with
    | nil =>
      intro st hst h1 heq
      exact hst h1 heq
    | cons op rest ih =>
      intro st hst h1 heq
      refine ih (EHT.applyHashOp c fuel st op) ?_ h1 heq
      intro h0 heq0
      cases st with
      | none => cases op <;> simp [EHT.applyHashOp] at heq0
      | some ht0 =>
        cases op with
        | ins k v =>
          simp only [EHT.applyHashOp] at heq0
          rw [Option.map_eq_some'] at heq0
          obtain ⟨res, hres, hr⟩ := heq0
          rw [← hr]
          exact EHT.insert_preserves c fuel ht0 k v res (hst ht0 rfl) hres
        | rem k v =>
          simp only [EHT.applyHashOp] at heq0
          rw [Option.some.injEq] at heq0
          rw [← heq0]
          exact EHT.remove_preserves c ht0 k v (hst ht0 rfl)
  refine main ops (some (EHT.initState c)) ?_ ht h
  intro h0 he
  rw [Option.some.injEq] at he
  rw [← he]
  exact EHT.dirInv_init c

/-- C5: the directory sharing invariant holds in the initial hash-table
state and is maintained by every table operation: the strengthened
directory invariant `DirInv` holds initially, implies the specification's
sharing iff (`SharingInv`: two active slots share a bucket page id exactly
when they agree on the low `local_depth` bits and on the local depth), and
is preserved by `Insert`, `SplitInsert`, `Remove` and `Merge`; consequently
the sharing iff holds in every state reachable by a sequence of operations
from the initial state. -/
theorem directory_sharing_invariant {K V : Type} [DecidableEq K]
    [DecidableEq V] [Inhabited K] [Inhabited V] (c : EHT.Ctx K V) :
    (EHT.DirInv (EHT.initState c) ∧ EHT.SharingInv (EHT.initState c)) ∧
    (∀ ht : EHT.HState K V, EHT.DirInv ht → EHT.SharingInv ht) ∧
    (∀ fuel ht k v res, EHT.DirInv ht → EHT.insert c fuel ht k v = some res →
      EHT.DirInv res.1 ∧ EHT.SharingInv res.1) ∧
    (∀ fuel ht k v res, EHT.DirInv ht →
      EHT.splitInsert c fuel ht k v = some res →
      EHT.DirInv res.1 ∧ EHT.SharingInv res.1) ∧
    (∀ ht k v, EHT.DirInv ht → EHT.DirInv (EHT.remove c ht k v).1 ∧
      EHT.SharingInv (EHT.remove c ht k v).1) ∧
    (∀ ht k, EHT.DirInv ht → EHT.DirInv (EHT.merge c ht k).1 ∧
      EHT.SharingInv (EHT.merge c ht k).1) ∧
    (∀ fuel ops ht, EHT.runOps c fuel ops = some ht → EHT.SharingInv ht) := by
  refine ⟨⟨EHT.dirInv_init c, (EHT.dirInv_init c).sharing⟩,
    fun ht h => h.sharing, ?_, ?_, ?_, ?_, ?_⟩
  · intro fuel ht k v res hinv heq
    have h2 := EHT.insert_preserves c fuel ht k v res hinv heq
    exact ⟨h2, h2.sharing⟩
  · intro fuel ht k v res hinv heq
    have h2 := EHT.splitInsert_preserves c fuel ht k v res hinv heq
    exact ⟨h2, h2.sharing⟩
  · intro ht k v hinv
    have h2 := EHT.remove_preserves c ht k v hinv
    exact ⟨h2, h2.sharing⟩
  · intro ht k hinv
    have h2 := EHT.merge_preserves c ht k hinv
    exact ⟨h2, h2.sharing⟩
  · intro fuel ops ht heq
    exact (EHT.runOps_preserves c fuel ops ht heq).sharing

/-- Witness for C5: the sharing iff holds in the concrete state reached by
inserting two pairs and removing one on a two-slot-bucket table over `Nat`
keys. -/
theorem directory_sharing_invariant_witness :
    EHT.SharingInv ((EHT.runOps (EHT.natCtx 2) 9
      [EHT.HOp.ins 0 0, EHT.HOp.ins 1 1, EHT.HOp.rem 1 1]).getD
        (EHT.initState (EHT.natCtx 2))) :=
  (directory_sharing_invariant (EHT.natCtx 2)).2.2.2.2.2.2 9
    [EHT.HOp.ins 0 0, EHT.HOp.ins 1 1, EHT.HOp.rem 1 1] _ rfl

/-! ## B+-tree (`src/src/storage/index/b_plus_tree.cpp`)

The tree is embedded algebraically: a node page is a leaf (its sorted
key/value array) or an internal page, held as its slot-0 child plus the
chain of (key, child) pairs from slot 1 on.  Page ids, parent pointers and
the buffer pool are traversal plumbing: the descent through
`InternalPage::Lookup` becomes the structural descent, and the upward walk
of `InsertIntoParent` / `AdjustLeafNode` (which fetches the parent by its
page id) becomes the return path of the recursion.  The leaf and internal
page operations themselves (`b_plus_tree_leaf_page.cpp` /
`b_plus_tree_internal_page.cpp`) are not part of the repository; they are
modelled from the specification, section 4.7. -/

namespace BPlus

mutual
/-- A B+-tree page: a leaf with its sorted (key, value) array, or an
internal page with its slot-0 child and the chain of (key, child) pairs. -/
inductive BPT (K V : Type) where
  | leaf (kvs : List (K × V))
  | node (c : BPT K V) (rest : Entries K V)

/-- The (key, child) pairs of an internal page from slot 1 on. -/
inductive Entries (K V : Type) where
  | nil
  | cons (key : K) (child : BPT K V) (rest : Entries K V)
end

variable {K V : Type}

/-- Number of entries of a chain. -/
def lenE : Entries K V → Nat
  | .nil => 0
  | .cons _ _ tl => 1 + lenE tl

/-- The first `n` entries of a chain. -/
def takeE : Nat → Entries K V → Entries K V
  | 0, _ => .nil
  | _, .nil => .nil
  | n + 1, .cons k t tl => .cons k t (takeE n tl)

/-- The chain without its first `n` entries. -/
def dropE : Nat → Entries K V → Entries K V
  | 0, es => es
  | _ + 1, .nil => .nil
  | n + 1, .cons _ _ tl => dropE n tl

/-- Concatenation of chains. -/
def appendE : Entries K V → Entries K V → Entries K V
  | .nil, fs => fs
  | .cons k t tl, fs => .cons k t (appendE tl fs)

/-- The chain without its last entry, with that entry, when there is one. -/
def unsnocE : Entries K V → Option (Entries K V × K × BPT K V)
  | .nil => none
  | .cons k t tl =>
    match unsnocE tl with
    | none => some (.nil, k, t)
    | some (es, kl, cl) => some (.cons k t es, kl, cl)

mutual
/-- The tree's contents in key order (concatenation of its leaves). -/
def flattenT : BPT K V → List (K × V)
  | .leaf kvs => kvs
  | .node c rest => flattenE c rest
termination_by t => sizeOf t
def flattenE : BPT K V → Entries K V → List (K × V)
  | c, .nil => flattenT c
  | c, .cons _ t tl => flattenT c ++ flattenE t tl
termination_by c rest => sizeOf c + sizeOf rest
end

mutual
/-- The in-order list of the tree's leaf arrays: the sibling chain, the
specification's LeafPage invariant being that `next_page_id` links the
leaves in key order. -/
def leavesT : BPT K V → List (List (K × V))
  | .leaf kvs => [kvs]
  | .node c rest => leavesE c rest
termination_by t => sizeOf t
def leavesE : BPT K V → Entries K V → List (List (K × V))
  | c, .nil => leavesT c
  | c, .cons _ t tl => leavesT c ++ leavesE t tl
termination_by c rest => sizeOf c + sizeOf rest
end

mutual
/-- `FindLeafPage(key)` followed by `LeafPage::Lookup` (binary search on the
sorted array, modelled from the spec as the first slot with the key): the
descent takes the child following the last separator key `≤ k`
(`InternalPage::Lookup`, modelled from the spec, section 4.7). -/
def lookupT [LinearOrder K] : BPT K V → K → Option V
  | .leaf kvs, k => (kvs.find? fun p => decide (p.1 = k)).map Prod.snd
  | .node c rest, k => lookupE c rest k
termination_by t => sizeOf t
def lookupE [LinearOrder K] : BPT K V → Entries K V → K → Option V
  | c, .nil, k => lookupT c k
  | c, .cons k1 t1 tl, k => if k < k1 then lookupT c k else lookupE t1 tl k
termination_by c rest _ => sizeOf c + sizeOf rest
end

/-- `LeafPage::Insert(k, v, cmp)` on the sorted array, modelled from the
spec: keep sorted order, reject a duplicate key (the code detects the
rejection as an unchanged size); the flag is true when the pair went in. -/
def leafInsert [LinearOrder K] : List (K × V) → K → V → List (K × V) × Bool
  | [], k, v => ([(k, v)], true)
  | (k1, v1) :: tl, k, v =>
    if k < k1 then ((k, v) :: (k1, v1) :: tl, true)
    else if k = k1 then ((k1, v1) :: tl, false)
    else
      let r := leafInsert tl k v
      ((k1, v1) :: r.1, r.2)

/-- `LeafPage::RemoveAndDeleteRecord(k, cmp)`, modelled from the spec:
delete the key's pair, shifting the tail down; the flag is true when a pair
was deleted (the code detects the miss as an unchanged size). -/
def leafRemove [LinearOrder K] : List (K × V) → K → List (K × V) × Bool
  | [], _ => ([], false)
  | (k1, v1) :: tl, k =>
    if k = k1 then (tl, true)
    else
      let r := leafRemove tl k
      ((k1, v1) :: r.1, r.2)

/-- The outcome `InsertIntoLeaf` / `InsertIntoParent` propagate upward: a
duplicate key (return false), an updated page, or a split with the
separator key pushed up. -/
inductive InsRes (K V : Type) where
  | dup
  | ok (t : BPT K V)
  | split (l : BPT K V) (key : K) (r : BPT K V)

/-- `SplitLeafNode` (line 241): allocate the right leaf, `MoveHalfTo` it
(modelled from the spec: the upper half moves, the lower `max_size / 2`
pairs stay), splice the sibling chain; the key pushed up is
`right->KeyAt(0)` (line 203). -/
def splitLeaf (lmax : Nat) (kvs : List (K × V)) : InsRes K V :=
  match kvs.drop (lmax / 2) with
  | [] => .ok (.leaf kvs)
  | (k0, v0) :: tlr => .split (.leaf (kvs.take (lmax / 2))) k0 (.leaf ((k0, v0) :: tlr))

/-- `SplitInternalNode` (line 258): `MoveHalfTo` the upper half of the
children (modelled from the spec: the lower `max_size / 2` children stay);
the entry at the split point provides the pushed-up key (`right->KeyAt(0)`,
line 296) and the right page's slot-0 child. -/
def splitInternal (imax : Nat) (c : BPT K V) (es : Entries K V) : InsRes K V :=
  match dropE (imax / 2 - 1) es with
  | .nil => .ok (.node c es)
  | .cons κ t re => .split (.node c (takeE (imax / 2 - 1) es)) κ (.node t re)

mutual
/-- `InsertIntoLeaf` (lines 143–225) with the ascent of `InsertIntoParent`
(lines 282–306) as the return path: at the leaf, `Insert` and compare sizes
(duplicate returns false, line 180); a leaf that reached `max_size` splits
(line 198); an internal page that reached `max_size` after
`InsertNodeAfter` splits likewise (line 291). -/
def insertT [LinearOrder K] (lmax imax : Nat) : BPT K V → K → V → InsRes K V
  | .leaf kvs, k, v =>
    let r := leafInsert kvs k v
    if r.2 = false then .dup
    else if r.1.length = lmax then splitLeaf lmax r.1
    else .ok (.leaf r.1)
  | .node c rest, k, v =>
    match insertE lmax imax c rest k v with
    | none => .dup
    | some (c2, rest2) =>
      if 1 + lenE rest2 = imax then splitInternal imax c2 rest2
      else .ok (.node c2 rest2)
termination_by t _ _ => sizeOf t
/-- Descent into the child the separator keys route `k` to, splicing a
split child's new sibling right after it (`InsertNodeAfter`); `none` is
the duplicate-key outcome. -/
def insertE [LinearOrder K] (lmax imax : Nat) :
    BPT K V → Entries K V → K → V → Option (BPT K V × Entries K V)
  | c, .nil, k, v =>
    match insertT lmax imax c k v with
    | .dup => none
    | .ok c2 => some (c2, .nil)
    | .split l κ r => some (l, .cons κ r .nil)
  | c, .cons k1 t1 tl, k, v =>
    if k < k1 then
      match insertT lmax imax c k v with
      | .dup => none
      | .ok c2 => some (c2, .cons k1 t1 tl)
      | .split l κ r => some (l, .cons κ r (.cons k1 t1 tl))
    else
      match insertE lmax imax t1 tl k v with
      | none => none
      | some (t2, tl2) => some (c, .cons k1 t2 tl2)
termination_by c rest _ _ => sizeOf c + sizeOf rest
end

/-- The index as the client sees it: the root (`INVALID_PAGE_ID` is
`none`) and the two size limits from the constructor. -/
structure BTree (K V : Type) where
  root : Option (BPT K V)
  leafMax : Nat
  internalMax : Nat

/-- `BPlusTree::Insert` (line 80): an empty tree starts a new root leaf
holding the pair (`StartNewTree`); otherwise `InsertIntoLeaf`, where a root
split makes a new root via `StartNewRoot` / `PopulateNewRoot` (line 203). -/
def insert [LinearOrder K] (T : BTree K V) (k : K) (v : V) : BTree K V × Bool :=
  match T.root with
  | none => ({ T with root := some (.leaf [(k, v)]) }, true)
  | some t =>
    match insertT T.leafMax T.internalMax t k v with
    | .dup => (T, false)
    | .ok t2 => ({ T with root := some t2 }, true)
    | .split l κ r => ({ T with root := some (.node l (.cons κ r .nil)) }, true)

/-- `BPlusTree::GetValue` (line 45): false on the empty tree, else descend
and `Lookup` in the leaf; `some v` stands for `true` with `{v}` appended. -/
def getValue [LinearOrder K] (T : BTree K V) (k : K) : Option V :=
  match T.root with
  | none => none
  | some t => lookupT t k

/-- `GetSize()` of a page: pairs for a leaf, children for an internal. -/
def sizeN : BPT K V → Nat
  | .leaf kvs => kvs.length
  | .node _ es => 1 + lenE es

/-- `GetMinSize()` (modelled from the spec: half of the respective
`max_size`). -/
def minN (lmax imax : Nat) : BPT K V → Nat
  | .leaf _ => lmax / 2
  | .node _ _ => imax / 2

/-- `MoveLastToFrontOf` from the left sibling plus the parent's key update
(`AdjustLeafNode` line 441, `AdjustInternalNode` line 508, the page moves
modelled from the spec): the left page's last pair (leaf) or last child
under the old separator (internal) moves to the front of the right page;
the new separator is the moved key (leaf) or the left page's last key
(internal).  Result: (left, separator, right). -/
def borrowLeft : BPT K V → K → BPT K V → BPT K V × K × BPT K V
  | .leaf A, κ, .leaf B =>
    match A.getLast? with
    | some p => (.leaf A.dropLast, p.1, .leaf (p :: B))
    | none => (.leaf A, κ, .leaf B)
  | .node c0 es, κ, .node d0 fs =>
    match unsnocE es with
    | some (es2, kl, cl) => (.node c0 es2, kl, .node cl (.cons κ d0 fs))
    | none => (.node c0 es, κ, .node d0 fs)
  | a, κ, b => (a, κ, b)

/-- `MoveFirstToEndOf` from the right sibling plus the parent's key update
(`AdjustLeafNode` line 459, `AdjustInternalNode` line 525, the page moves
modelled from the spec): the right page's first pair (leaf) or slot-0
child under the old separator (internal) moves to the end of the left
page; the new separator is the right page's next key. -/
def borrowRight : BPT K V → K → BPT K V → BPT K V × K × BPT K V
  | .leaf A, _, .leaf (p :: q :: B2) => (.leaf (A ++ [p]), q.1, .leaf (q :: B2))
  | .node c0 es, κ, .node d0 (.cons kf tf fs) =>
    (.node c0 (appendE es (.cons κ d0 .nil)), kf, .node tf fs)
  | a, κ, b => (a, κ, b)

/-- `MoveAllTo` the left sibling (`AdjustLeafNode` line 444 /
`AdjustInternalNode` line 511, the page moves modelled from the spec): a
leaf concatenates; an internal page brings its slot-0 child in under the
old separator.  The caller splices the sibling chain and removes the
parent entry. -/
def mergeLeft : BPT K V → K → BPT K V → BPT K V
  | .leaf A, _, .leaf B => .leaf (A ++ B)
  | .node c0 es, κ, .node d0 fs => .node c0 (appendE es (.cons κ d0 fs))
  | a, _, _ => a

/-- What a removal returns past a page: miss, an updated page, or an
updated page that fell below `min_size` (its parent adjusts). -/
inductive RemRes (K V : Type) where
  | notfound
  | ok (t : BPT K V)
  | under (t : BPT K V)

/-- What a removal returns along a child chain: miss, the updated chain,
or the updated chain whose head child fell below `min_size` and whose
preferred (left) sibling belongs to the caller. -/
inductive RemE (K V : Type) where
  | notfound
  | done (c : BPT K V) (rest : Entries K V)
  | headUnder (c : BPT K V) (rest : Entries K V)

/-- The page underflow check a parent performs after a child adjustment
(`GetSize() < GetMinSize()`, lines 472/537). -/
def finishNode (imax : Nat) (c : BPT K V) (rest : Entries K V) : RemRes K V :=
  if 1 + lenE rest < imax / 2 then .under (.node c rest) else .ok (.node c rest)

/-- The underflow adjustment for the child with no left sibling (`index`
0, lines 453–469): redistribute from the right sibling when it is above
`min_size`, else merge it in and drop its parent entry; with no sibling
at all nothing is adjusted. -/
def adjustHead (lmax imax : Nat) (c2 : BPT K V) : Entries K V → RemRes K V
  | .nil => finishNode imax c2 .nil
  | .cons k1 t1 tl =>
    if minN lmax imax t1 < sizeN t1 then
      let b := borrowRight c2 k1 t1
      finishNode imax b.1 (.cons b.2.1 b.2.2 tl)
    else finishNode imax (mergeLeft c2 k1 t1) tl

mutual
/-- `BPlusTree::Remove` (lines 319–403) below the root, with the ascent of
`AdjustLeafNode` / `AdjustInternalNode` as the return path: at the leaf,
`RemoveAndDeleteRecord` (a miss returns with nothing changed, line 362);
a leaf below `min_size` triggers the sibling adjustment at its parent.  A
child with no left sibling (index 0) prefers its right sibling: redistribute
when that sibling is above `min_size`, else merge it in and drop its parent
entry; with no sibling at all nothing is adjusted (lines 435–470). -/
def removeT [LinearOrder K] (lmax imax : Nat) : BPT K V → K → RemRes K V
  | .leaf kvs, k =>
    let r := leafRemove kvs k
    if r.2 = false then .notfound
    else if r.1.length < lmax / 2 then .under (.leaf r.1)
    else .ok (.leaf r.1)
  | .node c rest, k =>
    match removeE lmax imax c rest k with
    | .notfound => .notfound
    | .done c2 rest2 => finishNode imax c2 rest2
    | .headUnder c2 rest2 => adjustHead lmax imax c2 rest2
termination_by t _ => sizeOf t
/-- The descent along a chain: the head child's underflow is returned to
the caller, who owns the preferred left sibling (`index - 1 >= 0`, lines
435/502): redistribute when that sibling is above `min_size`, else merge
the underflowing child into it and drop the child's entry. -/
def removeE [LinearOrder K] (lmax imax : Nat) :
    BPT K V → Entries K V → K → RemE K V
  | c, .nil, k =>
    match removeT lmax imax c k with
    | .notfound => .notfound
    | .ok c2 => .done c2 .nil
    | .under c2 => .headUnder c2 .nil
  | c, .cons k1 t1 tl, k =>
    if k < k1 then
      match removeT lmax imax c k with
      | .notfound => .notfound
      | .ok c2 => .done c2 (.cons k1 t1 tl)
      | .under c2 => .headUnder c2 (.cons k1 t1 tl)
    else
      match removeE lmax imax t1 tl k with
      | .notfound => .notfound
      | .done t2 tl2 => .done c (.cons k1 t2 tl2)
      | .headUnder t2 tl2 =>
        if minN lmax imax c < sizeN c then
          let b := borrowLeft c k1 t2
          .done b.1 (.cons b.2.1 b.2.2 tl2)
        else
          .done (mergeLeft c k1 t2) tl2
termination_by c rest _ => sizeOf c + sizeOf rest
end

/-- `BPlusTree::Remove` at the tree level (`void`: only the state moves).
An empty tree returns at once (line 323); at the root, `AdjustLeafNode`
empties the tree when the root leaf reaches size 0 (line 421), and
`AdjustInternalNode` promotes the only child of a size-1 internal root
(`RemoveAndReturnOnlyChild`, line 483). -/
def remove [LinearOrder K] (T : BTree K V) (k : K) : BTree K V :=
  match T.root with
  | none => T
  | some t =>
    match removeT T.leafMax T.internalMax t k with
    | .notfound => T
    | .ok t2 => { T with root := some t2 }
    | .under t2 =>
      match t2 with
      | .leaf kvs => if kvs.length = 0 then { T with root := none }
        else { T with root := some (.leaf kvs) }
      | .node c .nil => { T with root := some c }
      | .node c (.cons k1 t1 tl) => { T with root := some (.node c (.cons k1 t1 tl)) }

/-- A key respects an optional inclusive lower bound. -/
def inLB [LinearOrder K] : Option K → K → Prop
  | none, _ => True
  | some a, k => a ≤ k

/-- A key respects an optional strict upper bound. -/
def inUB [LinearOrder K] : Option K → K → Prop
  | none, _ => True
  | some b, k => k < b

/-- A key respects an optional weak upper bound (separator keys of nested
internal pages may repeat). -/
def inUBw [LinearOrder K] : Option K → K → Prop
  | none, _ => True
  | some b, k => k ≤ b

mutual
/-- The search-tree shape the pages keep (spec section 3): leaf arrays
strictly sorted, every key inside the enclosing separator interval, each
internal page routing child `i` to the keys between separators `i` and
`i + 1` (slot `i`'s key is a lower bound of child `i`). -/
def WFT [LinearOrder K] : Option K → Option K → BPT K V → Prop
  | lo, hi, .leaf kvs => List.Pairwise (fun p q : K × V => p.1 < q.1) kvs ∧
      ∀ p ∈ kvs, inLB lo p.1 ∧ inUB hi p.1
  | lo, hi, .node c rest => WFE lo hi c rest
termination_by _ _ t => sizeOf t
def WFE [LinearOrder K] : Option K → Option K → BPT K V → Entries K V → Prop
  | lo, hi, c, .nil => WFT lo hi c
  | lo, hi, c, .cons k1 t1 tl =>
      WFT lo (some k1) c ∧ inLB lo k1 ∧ inUBw hi k1 ∧ WFE (some k1) hi t1 tl
termination_by _ _ c rest => sizeOf c + sizeOf rest
end

/-- The contents of a chain's subtrees in order (helper view of
`flattenE` without its head child). -/
def flattenC : Entries K V → List (K × V)
  | .nil => []
  | .cons _ t tl => flattenT t ++ flattenC tl

/-- The leaf arrays of a chain's subtrees in order. -/
def leavesC : Entries K V → List (List (K × V))
  | .nil => []
  | .cons _ t tl => leavesT t ++ leavesC tl

/-- The tree's contents as the client observes them. -/
def flatTree (T : BTree K V) : List (K × V) :=
  match T.root with
  | none => []
  | some t => flattenT t

/-- A fresh tree (`root_page_id_ = INVALID_PAGE_ID`, line 25). -/
def emptyTree (lmax imax : Nat) : BTree K V := ⟨none, lmax, imax⟩

/-- Inserting a list of pairs in order. -/
def insertAll [LinearOrder K] (T : BTree K V) (l : List (K × V)) : BTree K V :=
  l.foldl (fun T p => (insert T p.1 p.2).1) T

/-- The buffer pool the iterator reads, with the sibling chain's page ids
normalised to chain positions: page `i` holds the `i`-th leaf of the
chain, whose `next_page_id` is `i + 1`, `INVALID_PAGE_ID` (−1) for the
last (modelled from the spec: `next_page_id` links the leaves in key
order). -/
def chainPages [Inhabited K] [Inhabited V] (chain : List (List (K × V))) :
    Int → Iter.LeafView K V :=
  fun i =>
    if 0 ≤ i ∧ i.toNat < chain.length then
      { size := ((chain.getD i.toNat []).length : Int),
        next := if i.toNat + 1 = chain.length then -1 else i + 1,
        item := fun j => (chain.getD i.toNat []).getD j.toNat default }
    else { size := 0, next := -1, item := fun _ => default }

/-- `BPlusTree::Begin()` (line 598): `FindLeafPage` with the left-most
option descends through slot-0 children to the first leaf of the sibling
chain; the iterator starts there at index 0. -/
def beginIter [Inhabited K] [Inhabited V] (t : BPT K V) : Iter.IndexIterator K V :=
  { pages := chainPages (leavesT t), pageId := 0,
    node := chainPages (leavesT t) 0, index := 0 }

/-- The pairs a client reads by dereferencing and `operator++`-ing an
iterator until `IsEnd()` (fuelled). -/
def itItems {K V : Type} : Nat → Iter.IndexIterator K V → List (K × V)
  | 0, _ => []
  | fuel + 1, it =>
    if Iter.isEnd it then []
    else it.node.item it.index :: itItems fuel (Iter.inc it)

section LeafLemmas

variable [LinearOrder K]

theorem leafInsert_ne_nil (A : List (K × V)) (k : K) (v : V) :
    (leafInsert A k v).1 ≠ [] := by
  cases A with
  | nil => simp [leafInsert]
  | cons p tl =>
    obtain ⟨k1, v1⟩ := p
    simp only [leafInsert]
    split
    · simp
    · split <;> simp

theorem leafInsert_false_eq (A : List (K × V)) (k : K) (v : V)
    (h : (leafInsert A k v).2 = false) : (leafInsert A k v).1 = A := by
  induction A with
  | nil => simp [leafInsert] at h
  | cons p tl ih =>
    obtain ⟨k1, v1⟩ := p
    simp only [leafInsert] at h ⊢
    split at h
    · simp at h
    · split at h
      · rename_i h1 h2
        rw [if_neg h1, if_pos h2]
      · rename_i h1 h2
        rw [if_neg h1, if_neg h2]
        simp only [List.cons.injEq, true_and]
        exact ih h

theorem leafInsert_false_mem (A : List (K × V)) (k : K) (v : V)
    (h : (leafInsert A k v).2 = false) : k ∈ A.map Prod.fst := by
  induction A with
  | nil => simp [leafInsert] at h
  | cons p tl ih =>
    obtain ⟨k1, v1⟩ := p
    simp only [leafInsert] at h
    split at h
    · simp at h
    · split at h
      · rename_i h1 h2
        simp [h2]
      · simp only [List.map_cons, List.mem_cons]
        exact Or.inr (ih h)

theorem leafInsert_true_of_not_mem (A : List (K × V)) (k : K) (v : V)
    (h : k ∉ A.map Prod.fst) : (leafInsert A k v).2 = true := by
  cases hb : (leafInsert A k v).2 with
  | true => rfl
  | false => exact absurd (leafInsert_false_mem A k v hb) h

theorem leafInsert_false_of_mem (A : List (K × V)) (k : K) (v : V)
    (hs : List.Pairwise (fun p q : K × V => p.1 < q.1) A)
    (h : k ∈ A.map Prod.fst) : (leafInsert A k v).2 = false := by
  induction A with
  | nil => simp at h
  | cons p tl ih =>
    obtain ⟨k1, v1⟩ := p
    rw [List.pairwise_cons] at hs
    simp only [List.map_cons, List.mem_cons] at h
    simp only [leafInsert]
    rcases h with h | h
    · rw [if_neg (by simp [h]), if_pos h]
    · have hgt : k1 < k := by
        simp only [List.mem_map] at h
        obtain ⟨q, hq, hqk⟩ := h
        have := hs.1 q hq
        rw [hqk] at this
        exact this
      rw [if_neg (not_lt_of_gt hgt), if_neg (by
        intro he
        rw [he] at hgt
        exact lt_irrefl _ hgt)]
      exact ih hs.2 h

theorem leafInsert_perm (A : List (K × V)) (k : K) (v : V)
    (h : (leafInsert A k v).2 = true) :
    (leafInsert A k v).1.Perm ((k, v) :: A) := by
  induction A with
  | nil => simp [leafInsert]
  | cons p tl ih =>
    obtain ⟨k1, v1⟩ := p
    simp only [leafInsert] at h ⊢
    split
    · exact List.Perm.refl _
    · split
      · rename_i h1 h2
        rw [if_neg h1, if_pos h2] at h
        simp at h
      · rename_i h1 h2
        rw [if_neg h1, if_neg h2] at h
        refine List.Perm.trans (List.Perm.cons _ (ih h)) ?_
        exact List.Perm.swap _ _ _

theorem leafInsert_mem (A : List (K × V)) (k : K) (v : V) (p : K × V)
    (h : p ∈ (leafInsert A k v).1) : p ∈ A ∨ p = (k, v) := by
  induction A with
  | nil =>
    simp only [leafInsert, List.mem_singleton] at h
    exact Or.inr h
  | cons q tl ih =>
    obtain ⟨k1, v1⟩ := q
    simp only [leafInsert] at h
    split at h
    · simp only [List.mem_cons] at h
      rcases h with h | h
      · exact Or.inr h
      · exact Or.inl (List.mem_cons.mpr h)
    · split at h
      · exact Or.inl h
      · simp only [List.mem_cons] at h
        rcases h with h | h
        · exact Or.inl (List.mem_cons.mpr (Or.inl h))
        · rcases ih h with h2 | h2
          · exact Or.inl (List.mem_cons_of_mem _ h2)
          · exact Or.inr h2

theorem leafInsert_append_right (A B : List (K × V)) (k : K) (v : V)
    (hB : ∀ p ∈ B, k < p.1) :
    leafInsert (A ++ B) k v = ((leafInsert A k v).1 ++ B, (leafInsert A k v).2) := by
  induction A with
  | nil =>
    cases B with
    | nil => simp [leafInsert]
    | cons q B2 =>
      obtain ⟨kb, vb⟩ := q
      simp only [List.nil_append, leafInsert]
      rw [if_pos (hB (kb, vb) (List.mem_cons_self _ _))]
      rfl
  | cons p tl ih =>
    obtain ⟨k1, v1⟩ := p
    simp only [List.cons_append, leafInsert, List.append_eq]
    split
    · rfl
    · split
      · rfl
      · rw [ih]
        simp

theorem leafInsert_append_left (A B : List (K × V)) (k : K) (v : V)
    (hA : ∀ p ∈ A, p.1 < k) :
    leafInsert (A ++ B) k v = (A ++ (leafInsert B k v).1, (leafInsert B k v).2) := by
  induction A with
  | nil => simp
  | cons p tl ih =>
    obtain ⟨k1, v1⟩ := p
    have h1 : k1 < k := hA (k1, v1) (List.mem_cons_self _ _)
    simp only [List.cons_append, leafInsert, List.append_eq]
    rw [if_neg (not_lt_of_gt h1), if_neg (by
      intro he
      rw [he] at h1
      exact lt_irrefl _ h1)]
    rw [ih (fun p hp => hA p (List.mem_cons_of_mem _ hp))]

theorem leafInsert_pairwise (A : List (K × V)) (k : K) (v : V)
    (hs : List.Pairwise (fun p q : K × V => p.1 < q.1) A) :
    List.Pairwise (fun p q : K × V => p.1 < q.1) (leafInsert A k v).1 := by
  induction A with
  | nil => simp [leafInsert]
  | cons p tl ih =>
    obtain ⟨k1, v1⟩ := p
    rw [List.pairwise_cons] at hs
    simp only [leafInsert]
    split
    · rename_i h1
      rw [List.pairwise_cons]
      constructor
      · intro q hq
        rcases List.mem_cons.mp hq with h | h
        · rw [h]
          exact h1
        · exact lt_trans h1 (hs.1 q h)
      · exact List.pairwise_cons.mpr hs
    · split
      · exact List.pairwise_cons.mpr hs
      · rename_i h1 h2
        rw [List.pairwise_cons]
        constructor
        · intro q hq
          rcases leafInsert_mem tl k v q hq with h | h
          · exact hs.1 q h
          · rw [h]
            rcases lt_trichotomy k k1 with h3 | h3 | h3
            · exact absurd h3 h1
            · exact absurd h3 h2
            · exact h3
        · exact ih hs.2

theorem leafRemove_true_decomp (A : List (K × V)) (k : K)
    (h : (leafRemove A k).2 = true) :
    ∃ A1 v A2, A = A1 ++ (k, v) :: A2 ∧ (leafRemove A k).1 = A1 ++ A2 := by
  induction A with
  | nil => simp [leafRemove] at h
  | cons p tl ih =>
    obtain ⟨k1, v1⟩ := p
    simp only [leafRemove] at h ⊢
    split at h
    · rename_i h1
      refine ⟨[], v1, tl, ?_, ?_⟩
      · rw [h1]
        simp
      · rw [if_pos h1]
        rfl
    · rename_i h1
      obtain ⟨A1, v, A2, hA, hr⟩ := ih h
      refine ⟨(k1, v1) :: A1, v, A2, by rw [hA]; simp, ?_⟩
      rw [if_neg h1]
      simp only [List.cons_append, List.cons.injEq, true_and]
      exact hr

theorem leafRemove_false_iff (A : List (K × V)) (k : K) :
    (leafRemove A k).2 = false ↔
      (A.find? fun p => decide (p.1 = k)) = none := by
  induction A with
  | nil => simp [leafRemove]
  | cons p tl ih =>
    obtain ⟨k1, v1⟩ := p
    simp only [leafRemove, List.find?_cons]
    by_cases h1 : k = k1
    · rw [if_pos h1]
      simp [h1]
    · rw [if_neg h1]
      have : (decide ((k1, v1).1 = k)) = false := by
        simp only [decide_eq_false_iff_not]
        intro he
        exact h1 he.symm
      rw [this]
      simpa using ih

end LeafLemmas

theorem flattenE_eq (c : BPT K V) (es : Entries K V) :
    flattenE c es = flattenT c ++ flattenC es := by
  match es with
  | .nil => simp [flattenE, flattenC]
  | .cons k t tl => simp [flattenE, flattenC, flattenE_eq t tl]

theorem flattenT_node (c : BPT K V) (es : Entries K V) :
    flattenT (.node c es) = flattenT c ++ flattenC es := by
  rw [flattenT, flattenE_eq]

theorem leavesE_eq (c : BPT K V) (es : Entries K V) :
    leavesE c es = leavesT c ++ leavesC es := by
  match es with
  | .nil => simp [leavesE, leavesC]
  | .cons k t tl => simp [leavesE, leavesC, leavesE_eq t tl]

theorem leavesT_node (c : BPT K V) (es : Entries K V) :
    leavesT (.node c es) = leavesT c ++ leavesC es := by
  rw [leavesT, leavesE_eq]

mutual
theorem flatten_leavesT (t : BPT K V) : (leavesT t).flatten = flattenT t := by
  match t with
  | .leaf kvs => simp [leavesT, flattenT]
  | .node c es =>
    rw [leavesT_node, flattenT_node, List.flatten_append, flatten_leavesT c,
      flatten_leavesC es]
termination_by sizeOf t
theorem flatten_leavesC (es : Entries K V) :
    (leavesC es).flatten = flattenC es := by
  match es with
  | .nil => simp [leavesC, flattenC]
  | .cons k t tl =>
    rw [leavesC, flattenC, List.flatten_append, flatten_leavesT t,
      flatten_leavesC tl]
termination_by sizeOf es
end

theorem leavesT_ne_nil (t : BPT K V) : leavesT t ≠ [] := by
  match t with
  | .leaf kvs => simp [leavesT]
  | .node c es =>
    rw [leavesT_node]
    intro h
    rw [List.append_eq_nil] at h
    exact leavesT_ne_nil c h.1

section Bounds

variable [LinearOrder K]

theorem inLB_mono {lo : Option K} {a b : K} (h : inLB lo a) (hab : a ≤ b) :
    inLB lo b := by
  cases lo with
  | none => trivial
  | some x => exact le_trans h hab

theorem inUB_mono {hi : Option K} {a b : K} (h : inUB hi b) (hab : a ≤ b) :
    inUB hi a := by
  cases hi with
  | none => trivial
  | some x => exact lt_of_le_of_lt hab h

theorem inUB_of_lt_w {hi : Option K} {a b : K} (h : inUBw hi b) (hab : a < b) :
    inUB hi a := by
  cases hi with
  | none => trivial
  | some x => exact lt_of_lt_of_le hab h

theorem inUBw_of_inUB {hi : Option K} {a : K} (h : inUB hi a) : inUBw hi a := by
  cases hi with
  | none => trivial
  | some x => exact le_of_lt h

theorem inUBw_trans {hi : Option K} {a b : K} (h : inUBw hi b) (hab : a ≤ b) :
    inUBw hi a := by
  cases hi with
  | none => trivial
  | some x => exact le_trans hab h

mutual
/-- Keys of a well-formed subtree are sorted and lie inside its separator
interval. -/
theorem wfT_sorted {lo hi : Option K} {t : BPT K V} (h : WFT lo hi t) :
    List.Pairwise (fun p q : K × V => p.1 < q.1) (flattenT t) ∧
      ∀ p ∈ flattenT t, inLB lo p.1 ∧ inUB hi p.1 := by
  match t with
  | .leaf kvs =>
    rw [WFT] at h
    simp only [flattenT]
    exact h
  | .node c es =>
    rw [WFT] at h
    rw [flattenT_node]
    exact wfE_sorted h
termination_by sizeOf t
theorem wfE_sorted {lo hi : Option K} {c : BPT K V} {es : Entries K V}
    (h : WFE lo hi c es) :
    List.Pairwise (fun p q : K × V => p.1 < q.1) (flattenT c ++ flattenC es) ∧
      ∀ p ∈ flattenT c ++ flattenC es, inLB lo p.1 ∧ inUB hi p.1 := by
  match es with
  | .nil =>
    rw [WFE] at h
    have h2 := wfT_sorted h
    rw [flattenC, List.append_nil]
    exact h2
  | .cons k1 t1 tl =>
    rw [WFE] at h
    obtain ⟨hc, hlb, hub, hrest⟩ := h
    have h1 := wfT_sorted hc
    have h2 := wfE_sorted hrest
    rw [flattenC]
    constructor
    · rw [List.pairwise_append]
      refine ⟨h1.1, h2.1, ?_⟩
      intro p hp q hq
      have hpu : p.1 < k1 := (h1.2 p hp).2
      have hql : k1 ≤ q.1 := (h2.2 q hq).1
      exact lt_of_lt_of_le hpu hql
    · intro p hp
      rw [List.mem_append] at hp
      rcases hp with hp | hp
      · have h3 := h1.2 p hp
        exact ⟨h3.1, inUB_of_lt_w hub h3.2⟩
      · have h3 := h2.2 p hp
        exact ⟨inLB_mono hlb h3.1, h3.2⟩
termination_by sizeOf c + sizeOf es
end

theorem find?_keyed {A : List (K × V)} {k : K} {v : V}
    (hs : List.Pairwise (fun p q : K × V => p.1 < q.1) A) (h : (k, v) ∈ A) :
    (A.find? fun p => decide (p.1 = k)) = some (k, v) := by
  induction A with
  | nil => simp at h
  | cons p tl ih =>
    obtain ⟨k1, v1⟩ := p
    rw [List.pairwise_cons] at hs
    by_cases h1 : k1 = k
    · have hd : (decide ((k1, v1).1 = k)) = true := by simp [h1]
      simp only [List.find?_cons, hd]
      rcases List.mem_cons.mp h with h2 | h2
      · rw [h2]
      · exfalso
        have h3 := hs.1 (k, v) h2
        rw [h1] at h3
        exact lt_irrefl _ h3
    · have hd : (decide ((k1, v1).1 = k)) = false := by simp [h1]
      simp only [List.find?_cons, hd]
      rcases List.mem_cons.mp h with h2 | h2
      · exact absurd (congrArg Prod.fst h2).symm h1
      · exact ih hs.2 h2

mutual
/-- What `GetValue` finds is really in the tree (no well-formedness
needed). -/
theorem lookupT_sound {t : BPT K V} {k : K} {v : V}
    (h : lookupT t k = some v) : (k, v) ∈ flattenT t := by
  match t with
  | .leaf kvs =>
    simp only [lookupT, Option.map_eq_some'] at h
    obtain ⟨p, hp, hv⟩ := h
    have h2 := List.find?_some hp
    have h3 := List.mem_of_find?_eq_some hp
    rw [decide_eq_true_eq] at h2
    simp only [flattenT]
    have hpe : p = (k, v) := by
      obtain ⟨a, b⟩ := p
      simp only [Prod.mk.injEq]
      exact ⟨h2, hv⟩
    rw [← hpe]
    exact h3
  | .node c es =>
    simp only [lookupT] at h
    rw [flattenT_node]
    exact lookupE_sound h
termination_by sizeOf t
theorem lookupE_sound {c : BPT K V} {es : Entries K V} {k : K} {v : V}
    (h : lookupE c es k = some v) : (k, v) ∈ flattenT c ++ flattenC es := by
  match es with
  | .nil =>
    simp only [lookupE] at h
    rw [flattenC, List.append_nil]
    exact lookupT_sound h
  | .cons k1 t1 tl =>
    simp only [lookupE] at h
    rw [flattenC]
    split at h
    · exact List.mem_append.mpr (Or.inl (lookupT_sound h))
    · exact List.mem_append.mpr (Or.inr (lookupE_sound h))
termination_by sizeOf c + sizeOf es
end

mutual
/-- On a well-formed subtree, `GetValue` finds every pair the tree holds:
the separator routing reaches the pair's leaf. -/
theorem lookupT_complete {lo hi : Option K} {t : BPT K V} {k : K} {v : V}
    (hwf : WFT lo hi t) (h : (k, v) ∈ flattenT t) : lookupT t k = some v := by
  match t with
  | .leaf kvs =>
    rw [WFT] at hwf
    simp only [flattenT] at h
    simp only [lookupT, find?_keyed hwf.1 h, Option.map_some']
  | .node c es =>
    rw [WFT] at hwf
    rw [flattenT_node] at h
    simp only [lookupT]
    exact lookupE_complete hwf h
termination_by sizeOf t
theorem lookupE_complete {lo hi : Option K} {c : BPT K V} {es : Entries K V}
    {k : K} {v : V} (hwf : WFE lo hi c es)
    (h : (k, v) ∈ flattenT c ++ flattenC es) : lookupE c es k = some v := by
  match es with
  | .nil =>
    rw [WFE] at hwf
    rw [flattenC, List.append_nil] at h
    simp only [lookupE]
    exact lookupT_complete hwf h
  | .cons k1 t1 tl =>
    rw [WFE] at hwf
    obtain ⟨hc, hlb, hub, hrest⟩ := hwf
    rw [flattenC] at h
    simp only [lookupE]
    by_cases hk : k < k1
    · rw [if_pos hk]
      rcases List.mem_append.mp h with h2 | h2
      · exact lookupT_complete hc h2
      · exfalso
        have h3 := (wfE_sorted hrest).2 (k, v) h2
        exact absurd (lt_of_lt_of_le hk h3.1) (lt_irrefl _)
    · rw [if_neg hk]
      rcases List.mem_append.mp h with h2 | h2
      · exfalso
        have h3 := (wfT_sorted hc).2 (k, v) h2
        exact hk h3.2
      · exact lookupE_complete hrest h2
termination_by sizeOf c + sizeOf es
end

/-- Splitting a chain at an entry splits its well-formedness, the split
entry's key separating the two halves. -/
theorem chainSplit_wf {hi : Option K} {n : Nat} {κ : K} {t : BPT K V}
    {re : Entries K V} :
    ∀ {lo : Option K} {c : BPT K V} {es : Entries K V}, WFE lo hi c es →
      dropE n es = .cons κ t re →
      WFE lo (some κ) c (takeE n es) ∧ WFE (some κ) hi t re ∧
        inLB lo κ ∧ inUBw hi κ := by
  induction n with
  | zero =>
    intro lo c es hwf hd
    rw [dropE] at hd
    subst hd
    rw [WFE] at hwf
    obtain ⟨hc, hlb, hub, hrest⟩ := hwf
    simp only [takeE]
    rw [WFE]
    exact ⟨hc, hrest, hlb, hub⟩
  | succ n ih =>
    intro lo c es hwf hd
    cases es with
    | nil => simp [dropE] at hd
    | cons k1 t1 tl =>
      rw [dropE] at hd
      rw [WFE] at hwf
      obtain ⟨hc, hlb, hub, hrest⟩ := hwf
      obtain ⟨h1, h2, h3, h4⟩ := ih hrest hd
      have h3le : k1 ≤ κ := h3
      simp only [takeE]
      rw [WFE]
      exact ⟨⟨hc, hlb, h3le, h1⟩, h2, inLB_mono hlb h3le, h4⟩

omit [LinearOrder K] in
/-- Splitting a chain at an entry leaves the concatenated contents
unchanged. -/
theorem chainSplit_flattenC {n : Nat} {κ : K} {t : BPT K V}
    {re : Entries K V} :
    ∀ {es : Entries K V}, dropE n es = .cons κ t re →
      flattenC (takeE n es) ++ (flattenT t ++ flattenC re) = flattenC es := by
  induction n with
  | zero =>
    intro es hd
    rw [dropE] at hd
    subst hd
    simp [takeE, flattenC]
  | succ n ih =>
    intro es hd
    cases es with
    | nil => simp [dropE] at hd
    | cons k1 t1 tl =>
      rw [dropE] at hd
      simp only [takeE, flattenC, List.append_assoc]
      rw [ih hd]

omit [LinearOrder K] in
/-- Splitting a chain at an entry leaves the leaf sequence unchanged. -/
theorem chainSplit_leavesC {n : Nat} {κ : K} {t : BPT K V}
    {re : Entries K V} :
    ∀ {es : Entries K V}, dropE n es = .cons κ t re →
      leavesC (takeE n es) ++ (leavesT t ++ leavesC re) = leavesC es := by
  induction n with
  | zero =>
    intro es hd
    rw [dropE] at hd
    subst hd
    simp [takeE, leavesC]
  | succ n ih =>
    intro es hd
    cases es with
    | nil => simp [dropE] at hd
    | cons k1 t1 tl =>
      rw [dropE] at hd
      simp only [takeE, leavesC, List.append_assoc]
      rw [ih hd]

/-- A successful `LeafPage::Insert` keeps the page sorted and bounded. -/
theorem leafInsert_wf {lo hi : Option K} {kvs : List (K × V)} {k : K} {v : V}
    (hs : List.Pairwise (fun p q : K × V => p.1 < q.1) kvs)
    (hbd : ∀ p ∈ kvs, inLB lo p.1 ∧ inUB hi p.1)
    (hlb : inLB lo k) (hub : inUB hi k) :
    WFT lo hi (.leaf (leafInsert kvs k v).1) := by
  rw [WFT]
  refine ⟨leafInsert_pairwise kvs k v hs, ?_⟩
  intro p hp
  rcases leafInsert_mem kvs k v p hp with h | h
  · exact hbd p h
  · rw [h]
    exact ⟨hlb, hub⟩

mutual
/-- The heart of C2's and C1's insert reasoning: on a well-formed subtree
whose separator interval admits `k`, `InsertIntoLeaf` either reports the
duplicate (the key was present), or returns a well-formed subtree — or
a well-formed split pair with its pushed-up separator — whose contents
are the old contents with `(k, v)` placed in sorted position. -/
theorem insertT_wf (lmax imax : Nat) {lo hi : Option K} {t : BPT K V} {k : K}
    {v : V} (hwf : WFT lo hi t) (hlb : inLB lo k) (hub : inUB hi k) :
    match insertT lmax imax t k v with
    | .dup => k ∈ (flattenT t).map Prod.fst
    | .ok t2 => WFT lo hi t2 ∧
        flattenT t2 = (leafInsert (flattenT t) k v).1 ∧
        (leafInsert (flattenT t) k v).2 = true
    | .split l κ r => WFT lo (some κ) l ∧ WFT (some κ) hi r ∧
        inLB lo κ ∧ inUBw hi κ ∧
        flattenT l ++ flattenT r = (leafInsert (flattenT t) k v).1 ∧
        (leafInsert (flattenT t) k v).2 = true := by
  match t with
  | .leaf kvs =>
    rw [WFT] at hwf
    obtain ⟨hs, hbd⟩ := hwf
    simp only [insertT, flattenT]
    by_cases hd2 : (leafInsert kvs k v).2 = false
    · rw [if_pos hd2]
      exact leafInsert_false_mem kvs k v hd2
    · rw [if_neg hd2]
      have ht : (leafInsert kvs k v).2 = true := by
        cases h2 : (leafInsert kvs k v).2
        · exact absurd h2 hd2
        · rfl
      have hwf2 := leafInsert_wf hs hbd hlb hub (v := v)
      by_cases hlen : (leafInsert kvs k v).1.length = lmax
      · rw [if_pos hlen]
        rcases hdrop : (leafInsert kvs k v).1.drop (lmax / 2) with _ | ⟨⟨k0, v0⟩, tlr⟩
        · simp only [splitLeaf, hdrop]
          exact ⟨hwf2, by rw [flattenT], ht⟩
        · simp only [splitLeaf, hdrop]
          have htd := List.take_append_drop (lmax / 2) (leafInsert kvs k v).1
          rw [hdrop] at htd
          rw [WFT] at hwf2
          obtain ⟨hs2, hbd2⟩ := hwf2
          have hsp : List.Pairwise (fun p q : K × V => p.1 < q.1)
              ((leafInsert kvs k v).1.take (lmax / 2) ++ (k0, v0) :: tlr) := by
            rw [htd]
            exact hs2
          rw [List.pairwise_append] at hsp
          obtain ⟨hsL, hsR, hcross⟩ := hsp
          have hbdm : ∀ p ∈ (leafInsert kvs k v).1.take (lmax / 2) ++ (k0, v0) :: tlr,
              inLB lo p.1 ∧ inUB hi p.1 := by
            intro p hp
            rw [htd] at hp
            exact hbd2 p hp
          have hk0 := hbdm (k0, v0)
            (List.mem_append_right _ (List.mem_cons_self _ _))
          refine ⟨?_, ?_, hk0.1, inUBw_of_inUB hk0.2, ?_, ht⟩
          · rw [WFT]
            refine ⟨hsL, ?_⟩
            intro p hp
            refine ⟨(hbdm p (List.mem_append_left _ hp)).1, ?_⟩
            exact hcross p hp (k0, v0) (List.mem_cons_self _ _)
          · rw [WFT]
            refine ⟨hsR, ?_⟩
            intro p hp
            refine ⟨?_, (hbdm p (List.mem_append_right _ hp)).2⟩
            rcases List.mem_cons.mp hp with h | h
            · rw [h]
              exact le_refl _
            · rw [List.pairwise_cons] at hsR
              exact le_of_lt (hsR.1 p h)
          · simp only [flattenT]
            exact htd
      · rw [if_neg hlen]
        exact ⟨hwf2, by rw [flattenT], ht⟩
  | .node c es =>
    rw [WFT] at hwf
    have hE := insertE_wf lmax imax (v := v) hwf hlb hub
    rcases he : insertE lmax imax c es k v with _ | ⟨c2, es2⟩ <;> rw [he] at hE
    · simp only [insertT, he]
      rw [flattenT_node]
      exact hE
    · obtain ⟨hwf2, hfl, hflag⟩ := hE
      simp only [insertT, he]
      rw [flattenT_node]
      by_cases hsz : 1 + lenE es2 = imax
      · rw [if_pos hsz]
        rcases hdrop : dropE (imax / 2 - 1) es2 with _ | ⟨κ, t2, re⟩
        · simp only [splitInternal, hdrop]
          refine ⟨?_, ?_, hflag⟩
          · rw [WFT]
            exact hwf2
          · rw [flattenT_node, hfl]
        · simp only [splitInternal, hdrop]
          obtain ⟨h1, h2, h3, h4⟩ := chainSplit_wf hwf2 hdrop
          refine ⟨?_, ?_, h3, h4, ?_, hflag⟩
          · rw [WFT]
            exact h1
          · rw [WFT]
            exact h2
          · rw [flattenT_node, flattenT_node, List.append_assoc,
              chainSplit_flattenC hdrop, hfl]
      · rw [if_neg hsz]
        refine ⟨?_, ?_, hflag⟩
        · rw [WFT]
          exact hwf2
        · rw [flattenT_node, hfl]
termination_by sizeOf t
theorem insertE_wf (lmax imax : Nat) {lo hi : Option K} {c : BPT K V}
    {es : Entries K V} {k : K} {v : V} (hwf : WFE lo hi c es)
    (hlb : inLB lo k) (hub : inUB hi k) :
    match insertE lmax imax c es k v with
    | none => k ∈ ((flattenT c ++ flattenC es).map Prod.fst)
    | some (c2, es2) => WFE lo hi c2 es2 ∧
        flattenT c2 ++ flattenC es2 =
          (leafInsert (flattenT c ++ flattenC es) k v).1 ∧
        (leafInsert (flattenT c ++ flattenC es) k v).2 = true := by
  match es with
  | .nil =>
    rw [WFE] at hwf
    have hT := insertT_wf lmax imax (v := v) hwf hlb hub
    rcases ht : insertT lmax imax c k v with _ | c2 | ⟨l, κ, r⟩ <;> rw [ht] at hT <;>
      simp only [insertE, ht, flattenC, List.append_nil]
    · exact hT
    · refine ⟨?_, ?_, hT.2.2⟩
      · rw [WFE]
        exact hT.1
      · exact hT.2.1
    · obtain ⟨h1, h2, h3, h4, h5, h6⟩ := hT
      refine ⟨?_, ?_, h6⟩
      · rw [WFE]
        exact ⟨h1, h3, h4, by rw [WFE]; exact h2⟩
      · exact h5
  | .cons k1 t1 tl =>
    rw [WFE] at hwf
    obtain ⟨hc, hlb1, hub1, hrest⟩ := hwf
    have hsfx := wfE_sorted hrest
    have hcb := wfT_sorted hc
    by_cases hk : k < k1
    · have hub' : inUB (some k1) k := hk
      have hT := insertT_wf lmax imax (v := v) hc hlb hub'
      have hBgt : ∀ p ∈ flattenC (.cons k1 t1 tl), k < p.1 := by
        intro p hp
        rw [flattenC] at hp
        exact lt_of_lt_of_le hk ((hsfx.2 p hp).1)
      have hframe := leafInsert_append_right (flattenT c)
        (flattenC (.cons k1 t1 tl)) k v hBgt
      rcases ht : insertT lmax imax c k v with _ | c2 | ⟨l, κ, r⟩ <;> rw [ht] at hT <;>
        simp only [insertE, if_pos hk, ht]
      · rw [List.map_append]
        exact List.mem_append_left _ hT
      · refine ⟨?_, ?_, ?_⟩
        · rw [WFE]
          exact ⟨hT.1, hlb1, hub1, hrest⟩
        · rw [hframe]
          rw [hT.2.1]
        · rw [hframe]
          exact hT.2.2
      · obtain ⟨h1, h2, h3, h4, h5, h6⟩ := hT
        have hκk1 : κ ≤ k1 := h4
        refine ⟨?_, ?_, ?_⟩
        · rw [WFE]
          refine ⟨h1, h3, inUBw_trans hub1 hκk1, ?_⟩
          rw [WFE]
          exact ⟨h2, hκk1, hub1, hrest⟩
        · rw [hframe]
          simp only [flattenC]
          rw [← h5]
          simp [List.append_assoc]
        · rw [hframe]
          exact h6
    · have hlb' : inLB (some k1) k := le_of_not_lt hk
      have hE := insertE_wf lmax imax (v := v) hrest hlb' hub
      have hAlt : ∀ p ∈ flattenT c, p.1 < k := by
        intro p hp
        exact lt_of_lt_of_le ((hcb.2 p hp).2) (le_of_not_lt hk)
      have hframe := leafInsert_append_left (flattenT c)
        (flattenT t1 ++ flattenC tl) k v hAlt
      rcases he : insertE lmax imax t1 tl k v with _ | ⟨t2, tl2⟩ <;> rw [he] at hE <;>
        simp only [insertE, if_neg hk, he]
      · rw [flattenC, List.map_append]
        exact List.mem_append_right _ hE
      · refine ⟨?_, ?_, ?_⟩
        · rw [WFE]
          exact ⟨hc, hlb1, hub1, hE.1⟩
        · simp only [flattenC]
          rw [hframe, hE.2.1]
        · rw [flattenC, hframe]
          exact hE.2.2
termination_by sizeOf c + sizeOf es
end

mutual
/-- With `leaf_max_size ≥ 2` both halves of a leaf split are nonempty, so
insertion keeps every leaf of the sibling chain nonempty. -/
theorem insertT_leaves (lmax imax : Nat) {t : BPT K V} {k : K} {v : V}
    (hl2 : 2 ≤ lmax) (hne : ∀ L ∈ leavesT t, L ≠ []) :
    match insertT lmax imax t k v with
    | .dup => True
    | .ok t2 => ∀ L ∈ leavesT t2, L ≠ []
    | .split l _ r => (∀ L ∈ leavesT l, L ≠ []) ∧ ∀ L ∈ leavesT r, L ≠ [] := by
  match t with
  | .leaf kvs =>
    simp only [insertT]
    by_cases hd2 : (leafInsert kvs k v).2 = false
    · rw [if_pos hd2]
      trivial
    · rw [if_neg hd2]
      by_cases hlen : (leafInsert kvs k v).1.length = lmax
      · rw [if_pos hlen]
        rcases hdrop : (leafInsert kvs k v).1.drop (lmax / 2) with _ | ⟨⟨k0, v0⟩, tlr⟩
        · simp only [splitLeaf, hdrop]
          intro L hL
          rw [leavesT] at hL
          rw [List.mem_singleton] at hL
          rw [hL]
          exact leafInsert_ne_nil kvs k v
        · simp only [splitLeaf, hdrop]
          constructor
          · intro L hL
            rw [leavesT, List.mem_singleton] at hL
            rw [hL]
            have : ((leafInsert kvs k v).1.take (lmax / 2)).length = lmax / 2 := by
              rw [List.length_take, hlen]
              omega
            intro hnil
            rw [hnil] at this
            simp at this
            omega
          · intro L hL
            rw [leavesT, List.mem_singleton] at hL
            rw [hL]
            simp
      · rw [if_neg hlen]
        intro L hL
        rw [leavesT, List.mem_singleton] at hL
        rw [hL]
        exact leafInsert_ne_nil kvs k v
  | .node c es =>
    rw [leavesT_node] at hne
    have hE := insertE_leaves lmax imax (k := k) (v := v)
      hl2 hne
    rcases he : insertE lmax imax c es k v with _ | ⟨c2, es2⟩ <;> rw [he] at hE
    · simp only [insertT, he]
    · simp only [insertT, he]
      by_cases hsz : 1 + lenE es2 = imax
      · rw [if_pos hsz]
        rcases hdrop : dropE (imax / 2 - 1) es2 with _ | ⟨κ, t2, re⟩
        · simp only [splitInternal, hdrop]
          intro L hL
          rw [leavesT_node] at hL
          exact hE L hL
        · simp only [splitInternal, hdrop]
          have hsplit := chainSplit_leavesC hdrop
          constructor
          · intro L hL
            rw [leavesT_node] at hL
            refine hE L ?_
            rw [← hsplit]
            rcases List.mem_append.mp hL with h | h
            · exact List.mem_append_left _ h
            · exact List.mem_append_right _ (List.mem_append_left _ h)
          · intro L hL
            rw [leavesT_node] at hL
            refine hE L ?_
            rw [← hsplit]
            exact List.mem_append_right _ (List.mem_append_right _ hL)
      · rw [if_neg hsz]
        intro L hL
        rw [leavesT_node] at hL
        exact hE L hL
termination_by sizeOf t
theorem insertE_leaves (lmax imax : Nat) {c : BPT K V} {es : Entries K V}
    {k : K} {v : V} (hl2 : 2 ≤ lmax)
    (hne : ∀ L ∈ leavesT c ++ leavesC es, L ≠ []) :
    match insertE lmax imax c es k v with
    | none => True
    | some (c2, es2) => ∀ L ∈ leavesT c2 ++ leavesC es2, L ≠ [] := by
  match es with
  | .nil =>
    have hT := insertT_leaves lmax imax (k := k) (v := v)
      hl2 (fun L hL => hne L (List.mem_append_left _ hL))
    rcases ht : insertT lmax imax c k v with _ | c2 | ⟨l, κ, r⟩ <;> rw [ht] at hT <;>
      simp only [insertE, ht]
    · intro L hL
      rw [leavesC, List.append_nil] at hL
      exact hT L hL
    · intro L hL
      rw [leavesC, leavesC, List.append_nil] at hL
      rcases List.mem_append.mp hL with h | h
      · exact hT.1 L h
      · exact hT.2 L h
  | .cons k1 t1 tl =>
    rw [leavesC] at hne
    by_cases hk : k < k1
    · have hT := insertT_leaves lmax imax (k := k) (v := v)
        hl2 (fun L hL => hne L (List.mem_append_left _ hL))
      rcases ht : insertT lmax imax c k v with _ | c2 | ⟨l, κ, r⟩ <;> rw [ht] at hT <;>
        simp only [insertE, if_pos hk, ht]
      · intro L hL
        rw [leavesC] at hL
        rcases List.mem_append.mp hL with h | h
        · exact hT L h
        · exact hne L (List.mem_append_right _ h)
      · intro L hL
        rw [leavesC, leavesC] at hL
        rcases List.mem_append.mp hL with h | h
        · exact hT.1 L h
        · rcases List.mem_append.mp h with h2 | h2
          · exact hT.2 L h2
          · exact hne L (List.mem_append_right _ h2)
    · have hE := insertE_leaves lmax imax (k := k) (v := v)
        hl2 (fun L hL => hne L (by
          rcases List.mem_append.mp hL with h | h
          · exact List.mem_append_right _ (List.mem_append_left _ h)
          · exact List.mem_append_right _ (List.mem_append_right _ h)))
      rcases he : insertE lmax imax t1 tl k v with _ | ⟨t2, tl2⟩ <;> rw [he] at hE <;>
        simp only [insertE, if_neg hk, he]
      intro L hL
      rw [leavesC] at hL
      rcases List.mem_append.mp hL with h | h
      · exact hne L (List.mem_append_left _ h)
      · exact hE L h
termination_by sizeOf c + sizeOf es
end

theorem inLB_none (k : K) : inLB (K := K) none k := by
  rw [inLB]
  trivial

theorem inUB_none (k : K) : inUB (K := K) none k := by
  rw [inUB]
  trivial

/-- Well-formedness of the whole index: the root page, when there is one,
is a well-formed subtree with no outer bounds. -/
def TreeWF (T : BTree K V) : Prop :=
  ∀ t, T.root = some t → WFT none none t

/-- Every leaf page of the index is nonempty. -/
def TreeLeavesNE (T : BTree K V) : Prop :=
  ∀ t, T.root = some t → ∀ L ∈ leavesT t, L ≠ []

theorem insertT_dup_of_mem (lmax imax : Nat) {t : BPT K V} {k : K} {v : V}
    (hwf : WFT none none t) (hmem : k ∈ (flattenT t).map Prod.fst) :
    insertT lmax imax t k v = .dup := by
  have hW := insertT_wf lmax imax (v := v) hwf (inLB_none k)
    (inUB_none k)
  have hfalse := leafInsert_false_of_mem (flattenT t) k v (wfT_sorted hwf).1 hmem
  rcases hr : insertT lmax imax t k v with _ | t2 | ⟨l, κ, r⟩
  · rfl
  · exfalso
    rw [hr] at hW
    have hflag : (leafInsert (flattenT t) k v).2 = true := hW.2.2
    rw [hflag] at hfalse
    simp at hfalse
  · exfalso
    rw [hr] at hW
    have hflag : (leafInsert (flattenT t) k v).2 = true := hW.2.2.2.2.2
    rw [hflag] at hfalse
    simp at hfalse

/-- A true-returning `Insert` grows the contents by the sorted insertion of
the pair and keeps the index well formed with the same size limits. -/
theorem insert_true_spec {T : BTree K V} {k : K} {v : V}
    (hwf : TreeWF T) (ht : (insert T k v).2 = true) :
    (∃ t2, (insert T k v).1.root = some t2 ∧ WFT none none t2 ∧
      flattenT t2 = (leafInsert (flatTree T) k v).1) ∧
    (insert T k v).1.leafMax = T.leafMax ∧
    (insert T k v).1.internalMax = T.internalMax := by
  rcases hroot : T.root with _ | t
  · simp only [insert, hroot]
    refine ⟨⟨.leaf [(k, v)], rfl, ?_, ?_⟩, trivial, trivial⟩
    · rw [WFT]
      exact ⟨List.pairwise_singleton _ _, by
        intro p hp
        exact ⟨inLB_none _, inUB_none _⟩⟩
    · simp only [flatTree, hroot, flattenT, leafInsert]
  · have hW := insertT_wf T.leafMax T.internalMax (v := v)
      (hwf t hroot) (inLB_none k) (inUB_none k)
    have hft : flatTree T = flattenT t := by simp only [flatTree, hroot]
    rcases hr : insertT T.leafMax T.internalMax t k v with _ | t2 | ⟨l, κ, r⟩ <;>
      rw [hr] at hW
    · rw [show insert T k v = (T, false) by simp only [insert, hroot, hr]] at ht
      simp at ht
    · simp only [insert, hroot, hr]
      exact ⟨⟨t2, rfl, hW.1, by rw [hft]; exact hW.2.1⟩, trivial, trivial⟩
    · simp only [insert, hroot, hr]
      refine ⟨⟨.node l (.cons κ r .nil), rfl, ?_, ?_⟩, trivial, trivial⟩
      · rw [WFT, WFE]
        refine ⟨hW.1, inLB_none _, ?_, by rw [WFE]; exact hW.2.1⟩
        rw [inUBw]
        trivial
      · rw [flattenT_node, flattenC, flattenC, List.append_nil, hft]
        exact hW.2.2.2.2.1

/-- `Insert` of a key the index holds returns false with nothing moved. -/
theorem insert_dup_spec {T : BTree K V} {k : K} {v : V}
    (hwf : TreeWF T) (hmem : k ∈ (flatTree T).map Prod.fst) :
    insert T k v = (T, false) := by
  rcases hroot : T.root with _ | t
  · rw [flatTree, hroot] at hmem
    simp at hmem
  · have hd := insertT_dup_of_mem T.leafMax T.internalMax
      (v := v) (hwf t hroot) (by rw [flatTree, hroot] at hmem; exact hmem)
    simp only [insert, hroot, hd]

/-- A true-returning `Insert` keeps every leaf page nonempty when
`leaf_max_size ≥ 2`. -/
theorem insert_leaves_spec {T : BTree K V} {k : K} {v : V}
    (hl2 : 2 ≤ T.leafMax) (hne : TreeLeavesNE T) :
    TreeLeavesNE (insert T k v).1 := by
  rcases hroot : T.root with _ | t
  · simp only [insert, hroot]
    intro t2 h2 L hL
    rw [Option.some.injEq] at h2
    rw [← h2, leavesT, List.mem_singleton] at hL
    rw [hL]
    simp
  · have hG := insertT_leaves T.leafMax T.internalMax (k := k) (v := v)
      hl2 (hne t hroot)
    rcases hr : insertT T.leafMax T.internalMax t k v with _ | t2 | ⟨l, κ, r⟩ <;>
      rw [hr] at hG <;> simp only [insert, hroot, hr]
    · exact hne
    · intro t3 h3
      rw [Option.some.injEq] at h3
      rw [← h3]
      exact hG
    · intro t3 h3 L hL
      rw [Option.some.injEq] at h3
      rw [← h3, leavesT_node, leavesC, leavesC, List.append_nil] at hL
      rcases List.mem_append.mp hL with h | h
      · exact hG.1 L h
      · exact hG.2 L h

end Bounds

section Iterate

variable [Inhabited K] [Inhabited V]

/-- The iterator sitting at leaf `i`, slot `idx`, of a normalised sibling
chain. -/
def chainIter (chain : List (List (K × V))) (i idx : Nat) :
    Iter.IndexIterator K V :=
  { pages := chainPages chain, pageId := (i : Int),
    node := chainPages chain (i : Int), index := (idx : Int) }

theorem beginIter_eq (t : BPT K V) :
    beginIter t = chainIter (leavesT t) 0 0 := rfl

theorem chainPages_at (chain : List (List (K × V))) (i : Nat)
    (h : i < chain.length) :
    chainPages chain (i : Int) =
      { size := ((chain.getD i []).length : Int),
        next := if i + 1 = chain.length then -1 else (i : Int) + 1,
        item := fun j => (chain.getD i []).getD j.toNat default } := by
  simp only [chainPages]
  rw [if_pos ⟨Int.natCast_nonneg i, by rw [Int.toNat_natCast]; exact h⟩]
  simp only [Int.toNat_natCast]

/-- Reading the iterator from leaf `i`, slot `idx`, to `IsEnd()` yields the
rest of that leaf followed by the remaining leaves of the chain. -/
theorem itItems_chain (chain : List (List (K × V)))
    (hne : ∀ L ∈ chain, L ≠ []) :
    ∀ (fuel i idx : Nat), i < chain.length →
      idx < (chain.getD i []).length →
      ((chain.getD i []).drop idx ++ (chain.drop (i + 1)).flatten).length + 1
          ≤ fuel →
      itItems fuel (chainIter chain i idx) =
        (chain.getD i []).drop idx ++ (chain.drop (i + 1)).flatten := by
  intro fuel
  induction fuel with
  | zero =>
    intro i idx hi hidx hbud
    omega
  | succ fuel ih =>
    intro i idx hi hidx hbud
    have hview := chainPages_at chain i hi
    have hend : Iter.isEnd (chainIter chain i idx) = false := by
      rw [Iter.isEnd]
      have h2 : decide ((chainIter chain i idx).node.size ≤
          (chainIter chain i idx).index) = false := by
        simp only [chainIter, hview]
        rw [decide_eq_false_iff_not]
        omega
      rw [h2, Bool.and_false]
    have hdropL := List.drop_eq_getElem_cons hidx
    have hgetD : (chain.getD i []).getD idx default = (chain.getD i [])[idx] :=
      List.getD_eq_getElem _ _ hidx
    simp only [itItems, hend, Bool.false_eq_true, if_false]
    have hitem : (chainIter chain i idx).node.item (chainIter chain i idx).index
        = (chain.getD i [])[idx] := by
      simp only [chainIter, hview, Int.toNat_natCast]
      exact hgetD
    rw [hitem]
    by_cases hA : idx + 1 < (chain.getD i []).length
    · have hcond : ¬ ((chainIter chain i idx).index + 1 =
          (chainIter chain i idx).node.size ∧
          (chainIter chain i idx).node.next ≠ -1) := by
        simp only [chainIter, hview]
        intro hc
        have := hc.1
        omega
      have hinc : Iter.inc (chainIter chain i idx) = chainIter chain i (idx + 1) := by
        rw [Iter.inc, if_neg hcond]
        simp only [chainIter]
        have : ((idx : Int) + 1) = ((idx + 1 : Nat) : Int) := by push_cast; ring
        rw [this]
      rw [hinc, ih i (idx + 1) hi hA (by
        rw [List.length_append, List.length_drop] at hbud ⊢
        omega)]
      rw [hdropL, List.cons_append]
    · have hB : idx + 1 = (chain.getD i []).length := by omega
      by_cases hC : i + 1 < chain.length
      · have hnext : (chainIter chain i idx).node.next = (i : Int) + 1 := by
          simp only [chainIter, hview]
          rw [if_neg (by omega)]
        have hcond : (chainIter chain i idx).index + 1 =
            (chainIter chain i idx).node.size ∧
            (chainIter chain i idx).node.next ≠ -1 := by
          refine ⟨?_, ?_⟩
          · simp only [chainIter, hview]
            omega
          · rw [hnext]
            omega
        have hinc : Iter.inc (chainIter chain i idx) = chainIter chain (i + 1) 0 := by
          rw [Iter.inc, if_pos hcond, hnext]
          simp only [chainIter]
          have h3 : ((i : Int) + 1) = ((i + 1 : Nat) : Int) := by push_cast; ring
          rw [h3, Nat.cast_zero]
      -- the next leaf is nonempty
        have hmem : chain.getD (i + 1) [] ∈ chain := by
          rw [List.getD_eq_getElem _ _ hC]
          exact List.getElem_mem hC
        have hpos : 0 < (chain.getD (i + 1) []).length :=
          List.length_pos.mpr (hne _ hmem)
        have hflat : (chain.drop (i + 1)).flatten =
            chain.getD (i + 1) [] ++ (chain.drop (i + 2)).flatten := by
          rw [List.drop_eq_getElem_cons hC, List.flatten_cons,
            List.getD_eq_getElem _ _ hC]
        have hbud2 : ((chain.getD (i + 1) []).drop 0 ++
            (chain.drop (i + 2)).flatten).length + 1 ≤ fuel := by
          rw [List.length_append, List.length_drop] at hbud ⊢
          rw [hflat, List.length_append] at hbud
          omega
        rw [hinc, ih (i + 1) 0 hC hpos hbud2]
        rw [List.drop_zero, hdropL, hflat]
        have hnil : (chain.getD i []).drop (idx + 1) = [] :=
          List.drop_eq_nil_of_le (by omega)
        rw [hnil, List.cons_append, List.nil_append]
      · have hD : i + 1 = chain.length := by omega
        have hnext : (chainIter chain i idx).node.next = -1 := by
          simp only [chainIter, hview]
          rw [if_pos hD]
        have hcond : ¬ ((chainIter chain i idx).index + 1 =
            (chainIter chain i idx).node.size ∧
            (chainIter chain i idx).node.next ≠ -1) := by
          intro hc
          exact hc.2 hnext
        have hnil2 : chain.drop (i + 1) = [] :=
          List.drop_eq_nil_of_le (by omega)
        have hfuel : 1 ≤ fuel := by
          rw [hdropL, List.cons_append, List.length_cons] at hbud
          omega
        obtain ⟨fuel2, rfl⟩ : ∃ f2, fuel = f2 + 1 := ⟨fuel - 1, by omega⟩
        have hinc : Iter.inc (chainIter chain i idx) =
            { pages := chainPages chain, pageId := (i : Int),
              node := chainPages chain (i : Int), index := (idx : Int) + 1 } := by
          rw [Iter.inc, if_neg hcond]
          simp only [chainIter]
        have hend2 : Iter.isEnd (Iter.inc (chainIter chain i idx)) = true := by
          rw [hinc, Iter.isEnd]
          simp only [hview]
          rw [if_pos hD, beq_self_eq_true, Bool.true_and, decide_eq_true_eq]
          omega
        rw [itItems, hend2]
        rw [hdropL, hnil2]
        have hnil3 : (chain.getD i []).drop (idx + 1) = [] :=
          List.drop_eq_nil_of_le (by omega)
        rw [hnil3]
        simp

/-- `Begin()` then `operator++` to the end reads exactly the tree's
contents in order. -/
theorem itItems_flatten (t : BPT K V) (hne : ∀ L ∈ leavesT t, L ≠ []) :
    itItems ((flattenT t).length + 1) (beginIter t) = flattenT t := by
  have hlen : 0 < (leavesT t).length := List.length_pos.mpr (leavesT_ne_nil t)
  have hmem : (leavesT t).getD 0 [] ∈ leavesT t := by
    rw [List.getD_eq_getElem _ _ hlen]
    exact List.getElem_mem hlen
  have hpos : 0 < ((leavesT t).getD 0 []).length :=
    List.length_pos.mpr (hne _ hmem)
  have hdec : ((leavesT t).getD 0 []).drop 0 ++ ((leavesT t).drop 1).flatten =
      flattenT t := by
    rw [List.drop_zero, ← flatten_leavesT t]
    conv_rhs => rw [← List.drop_zero (leavesT t)]
    rw [List.drop_eq_getElem_cons hlen, List.flatten_cons,
      List.getD_eq_getElem _ _ hlen]
  rw [beginIter_eq]
  rw [itItems_chain (leavesT t) hne _ 0 0 hlen hpos (by rw [hdec])]
  exact hdec

end Iterate

section Permutation

variable [LinearOrder K]

/-- A false-returning `Insert` leaves the tree untouched (the only false
return of `InsertIntoLeaf`, line 180, changes nothing). -/
theorem insert_false_eq {T : BTree K V} {k : K} {v : V}
    (hf : (insert T k v).2 = false) : (insert T k v).1 = T := by
  rcases hroot : T.root with _ | t
  · simp only [insert, hroot] at hf
    exact Bool.noConfusion hf
  · rcases hr : insertT T.leafMax T.internalMax t k v with _ | _ | ⟨_, _, _⟩
    · simp only [insert, hroot, hr]
    · simp only [insert, hroot, hr] at hf
      exact Bool.noConfusion hf
    · simp only [insert, hroot, hr] at hf
      exact Bool.noConfusion hf

/-- `Insert` of a key the index does not hold returns true
(`InsertIntoLeaf` returns false only on a duplicate key). -/
theorem insert_fresh_true {T : BTree K V} {k : K} {v : V}
    (hwf : TreeWF T) (hfresh : k ∉ (flatTree T).map Prod.fst) :
    (insert T k v).2 = true := by
  rcases hroot : T.root with _ | t
  · simp only [insert, hroot]
  · rcases hr : insertT T.leafMax T.internalMax t k v with _ | _ | ⟨_, _, _⟩
    · have hW := insertT_wf T.leafMax T.internalMax (v := v) (hwf t hroot)
        (inLB_none k) (inUB_none k)
      rw [hr] at hW
      exact absurd (by rw [flatTree, hroot]; exact hW) hfresh
    · simp only [insert, hroot, hr]
    · simp only [insert, hroot, hr]

/-- Folding `Insert` over pairs whose keys are fresh and pairwise distinct
keeps the index well formed with its page-size parameters, keeps every
leaf page nonempty, and makes the stored pairs a permutation of the new
pairs plus the old contents. -/
theorem insertAll_spec (lmax imax : Nat) (hl2 : 2 ≤ lmax) :
    ∀ (l : List (K × V)) (T : BTree K V),
      TreeWF T → TreeLeavesNE T →
      T.leafMax = lmax → T.internalMax = imax →
      (∀ p ∈ l, p.1 ∉ (flatTree T).map Prod.fst) →
      (l.map Prod.fst).Nodup →
      TreeWF (insertAll T l) ∧ TreeLeavesNE (insertAll T l) ∧
        (insertAll T l).leafMax = lmax ∧ (insertAll T l).internalMax = imax ∧
        (flatTree (insertAll T l)).Perm (l ++ flatTree T) := by
  intro l
  induction l with
  | nil =>
    intro T hwf hne hlm him _ _
    exact ⟨hwf, hne, hlm, him, by simp [insertAll]⟩
  | cons p tl ih =>
    obtain ⟨k, v⟩ := p
    intro T hwf hne hlm him hfresh hnd
    have hf : (insert T k v).2 = true :=
      insert_fresh_true hwf (hfresh (k, v) (List.mem_cons_self _ _))
    obtain ⟨⟨t2, hroot2, hwf2, hflat2⟩, hlm2, him2⟩ := insert_true_spec hwf hf
    have hne2 : TreeLeavesNE (insert T k v).1 :=
      insert_leaves_spec (by rw [hlm]; exact hl2) hne
    have hflag : (leafInsert (flatTree T) k v).2 = true :=
      leafInsert_true_of_not_mem _ k v (hfresh (k, v) (List.mem_cons_self _ _))
    have hperm1 : (flatTree (insert T k v).1).Perm ((k, v) :: flatTree T) := by
      simp only [flatTree, hroot2, hflat2]
      exact leafInsert_perm _ k v hflag
    have hkeys : ((flatTree (insert T k v).1).map Prod.fst).Perm
        (k :: (flatTree T).map Prod.fst) := by
      simpa using hperm1.map Prod.fst
    rw [List.map_cons, List.nodup_cons] at hnd
    have hfresh2 : ∀ q ∈ tl, q.1 ∉ (flatTree (insert T k v).1).map Prod.fst := by
      intro q hq hmem
      rcases List.mem_cons.mp (hkeys.mem_iff.mp hmem) with h3 | h3
      · exact hnd.1 (by rw [← h3]; exact List.mem_map.mpr ⟨q, hq, rfl⟩)
      · exact hfresh q (List.mem_cons_of_mem _ hq) h3
    have hwf2' : TreeWF (insert T k v).1 := by
      intro t3 h3
      rw [hroot2, Option.some.injEq] at h3
      rw [← h3]
      exact hwf2
    have hstep : insertAll T ((k, v) :: tl) = insertAll (insert T k v).1 tl := rfl
    obtain ⟨hA, hB, hC, hD, hE⟩ := ih (insert T k v).1 hwf2' hne2
      (by rw [hlm2]; exact hlm) (by rw [him2]; exact him) hfresh2 hnd.2
    rw [hstep]
    refine ⟨hA, hB, hC, hD, ?_⟩
    rw [List.cons_append]
    exact hE.trans ((hperm1.append_left tl).trans List.perm_middle)

end Permutation

section Removal

/-- Depth of a page above the leaf level (the first child's depth: the
descent of `FindLeafPage`, line 638, always reaches a leaf there). -/
def heightT : BPT K V → Nat
  | .leaf _ => 0
  | .node c _ => heightT c + 1

mutual
/-- All leaves at the same depth: every child of an internal page has the
head child's height (the sibling page moves of `AdjustLeafNode` /
`AdjustInternalNode` pair pages of the same kind). -/
def balT : BPT K V → Prop
  | .leaf _ => True
  | .node c rest => balT c ∧ balE (heightT c) rest
termination_by t => sizeOf t
def balE (h : Nat) : Entries K V → Prop
  | .nil => True
  | .cons _ t tl => heightT t = h ∧ balT t ∧ balE h tl
termination_by es => sizeOf es
end

/-- Balance of the whole index. -/
def TreeBal (T : BTree K V) : Prop :=
  ∀ t, T.root = some t → balT t

theorem heightT_borrowLeft (a : BPT K V) (κ : K) (b : BPT K V) :
    heightT (borrowLeft a κ b).1 = heightT a := by
  cases a with
  | leaf A =>
    cases b with
    | leaf B =>
      simp only [borrowLeft]
      cases hg : A.getLast? with
      | none => simp [heightT]
      | some p => simp [heightT]
    | node d0 fs => simp [borrowLeft]
  | node c0 es =>
    cases b with
    | leaf B => simp [borrowLeft]
    | node d0 fs =>
      simp only [borrowLeft]
      cases hu : unsnocE es with
      | none => simp [heightT]
      | some x =>
        obtain ⟨es2, kl, cl⟩ := x
        simp [heightT]

theorem heightT_borrowRight (a : BPT K V) (κ : K) (b : BPT K V) :
    heightT (borrowRight a κ b).1 = heightT a := by
  cases a with
  | leaf A =>
    cases b with
    | leaf B =>
      rcases B with _ | ⟨p, _ | ⟨q, B2⟩⟩ <;> simp [borrowRight, heightT]
    | node d0 fs => simp [borrowRight]
  | node c0 es =>
    cases b with
    | leaf B => simp [borrowRight]
    | node d0 fs =>
      cases fs with
      | nil => simp [borrowRight]
      | cons kf tf fs2 => simp [borrowRight, heightT]

theorem heightT_mergeLeft (a : BPT K V) (κ : K) (b : BPT K V) :
    heightT (mergeLeft a κ b) = heightT a := by
  cases a <;> cases b <;> simp [mergeLeft, heightT]

theorem flattenC_appendE (es fs : Entries K V) :
    flattenC (appendE es fs) = flattenC es ++ flattenC fs := by
  match es with
  | .nil => simp [appendE, flattenC]
  | .cons k t tl => simp [appendE, flattenC, flattenC_appendE tl fs]

theorem unsnocE_cons_ne_none (k : K) (t : BPT K V) (tl : Entries K V) :
    unsnocE (.cons k t tl) ≠ none := by
  simp only [unsnocE]
  cases hu : unsnocE tl with
  | none => simp
  | some x =>
    obtain ⟨a, b, c⟩ := x
    simp

theorem unsnocE_flattenC (es : Entries K V) : ∀ {es2 : Entries K V} {kl : K}
    {cl : BPT K V}, unsnocE es = some (es2, kl, cl) →
    flattenC es = flattenC es2 ++ flattenT cl := by
  match es with
  | .nil =>
    intro es2 kl cl h
    simp [unsnocE] at h
  | .cons k t tl =>
    intro es2 kl cl h
    cases hu : unsnocE tl with
    | none =>
      have htl : tl = .nil := by
        cases tl with
        | nil => rfl
        | cons k2 t2 tl2 => exact absurd hu (unsnocE_cons_ne_none k2 t2 tl2)
      subst htl
      simp only [unsnocE, Option.some.injEq, Prod.mk.injEq] at h
      obtain ⟨h1, h2, h3⟩ := h
      subst h1
      subst h3
      simp [flattenC]
    | some x =>
      obtain ⟨tl3, kl3, cl3⟩ := x
      simp only [unsnocE, hu, Option.some.injEq, Prod.mk.injEq] at h
      obtain ⟨h1, h2, h3⟩ := h
      subst h1
      subst h3
      have ih := unsnocE_flattenC tl hu
      simp [flattenC, ih, List.append_assoc]
termination_by sizeOf es

theorem borrowLeft_flatten (a : BPT K V) (κ : K) (b : BPT K V) :
    flattenT (borrowLeft a κ b).1 ++ flattenT (borrowLeft a κ b).2.2 =
      flattenT a ++ flattenT b := by
  cases a with
  | leaf A =>
    cases b with
    | leaf B =>
      simp only [borrowLeft]
      cases hg : A.getLast? with
      | none => simp
      | some p =>
        have hA := List.dropLast_append_getLast? p (Option.mem_def.mpr hg)
        simp only [flattenT]
        conv_rhs => rw [← hA]
        rw [List.append_assoc, List.singleton_append]
    | node d0 fs => simp [borrowLeft]
  | node c0 es =>
    cases b with
    | leaf B => simp [borrowLeft]
    | node d0 fs =>
      simp only [borrowLeft]
      cases hu : unsnocE es with
      | none => simp
      | some x =>
        obtain ⟨es2, kl, cl⟩ := x
        have hC := unsnocE_flattenC es hu
        simp [flattenT_node, flattenC, hC, List.append_assoc]

theorem borrowRight_flatten (a : BPT K V) (κ : K) (b : BPT K V) :
    flattenT (borrowRight a κ b).1 ++ flattenT (borrowRight a κ b).2.2 =
      flattenT a ++ flattenT b := by
  cases a with
  | leaf A =>
    cases b with
    | leaf B =>
      rcases B with _ | ⟨p, _ | ⟨q, B2⟩⟩ <;>
        simp [borrowRight, flattenT, List.append_assoc]
    | node d0 fs => simp [borrowRight]
  | node c0 es =>
    cases b with
    | leaf B => simp [borrowRight]
    | node d0 fs =>
      cases fs with
      | nil => simp [borrowRight]
      | cons kf tf fs2 =>
        simp [borrowRight, flattenT_node, flattenC, flattenC_appendE,
          List.append_assoc]

theorem mergeLeft_flatten (a : BPT K V) (κ : K) (b : BPT K V)
    (hh : heightT a = heightT b) :
    flattenT (mergeLeft a κ b) = flattenT a ++ flattenT b := by
  cases a with
  | leaf A =>
    cases b with
    | leaf B => simp [mergeLeft, flattenT]
    | node d0 fs =>
      exfalso
      simp [heightT] at hh
  | node c0 es =>
    cases b with
    | leaf B =>
      exfalso
      simp [heightT] at hh
    | node d0 fs =>
      simp [mergeLeft, flattenT_node, flattenC_appendE, flattenC,
        List.append_assoc]

theorem finishNode_eq (imax : Nat) (c : BPT K V) (rest : Entries K V) :
    finishNode imax c rest = .ok (.node c rest) ∨
      finishNode imax c rest = .under (.node c rest) := by
  simp only [finishNode]
  split
  · exact Or.inr rfl
  · exact Or.inl rfl

theorem finishNode_height (imax : Nat) (c : BPT K V) (rest : Entries K V) :
    ∀ t2 : BPT K V, (finishNode imax c rest = .ok t2 ∨
      finishNode imax c rest = .under t2) → heightT t2 = heightT c + 1 := by
  intro t2 h
  rcases finishNode_eq imax c rest with hf | hf <;> rcases h with h | h <;>
      rw [hf] at h
  · injection h with h2
    rw [← h2]
    simp [heightT]
  · exact RemRes.noConfusion h
  · exact RemRes.noConfusion h
  · injection h with h2
    rw [← h2]
    simp [heightT]

theorem adjustHead_eq (lmax imax : Nat) (c2 : BPT K V) (rest2 : Entries K V) :
    ∃ t2 : BPT K V, adjustHead lmax imax c2 rest2 = .ok t2 ∨
      adjustHead lmax imax c2 rest2 = .under t2 := by
  cases rest2 with
  | nil =>
    simp only [adjustHead]
    rcases finishNode_eq imax c2 .nil with hf | hf
    · exact ⟨_, Or.inl hf⟩
    · exact ⟨_, Or.inr hf⟩
  | cons k1 t1 tl =>
    simp only [adjustHead]
    split
    · rcases finishNode_eq imax (borrowRight c2 k1 t1).1
          (.cons (borrowRight c2 k1 t1).2.1 (borrowRight c2 k1 t1).2.2 tl)
        with hf | hf
      · exact ⟨_, Or.inl hf⟩
      · exact ⟨_, Or.inr hf⟩
    · rcases finishNode_eq imax (mergeLeft c2 k1 t1) tl with hf | hf
      · exact ⟨_, Or.inl hf⟩
      · exact ⟨_, Or.inr hf⟩

theorem adjustHead_height (lmax imax : Nat) (c2 : BPT K V)
    (rest2 : Entries K V) :
    ∀ t2 : BPT K V, (adjustHead lmax imax c2 rest2 = .ok t2 ∨
      adjustHead lmax imax c2 rest2 = .under t2) →
      heightT t2 = heightT c2 + 1 := by
  intro t2 h
  cases rest2 with
  | nil =>
    simp only [adjustHead] at h
    exact finishNode_height imax c2 .nil t2 h
  | cons k1 t1 tl =>
    simp only [adjustHead] at h
    by_cases hsz : minN lmax imax t1 < sizeN t1
    · rw [if_pos hsz] at h
      have h2 := finishNode_height imax (borrowRight c2 k1 t1).1
        (.cons (borrowRight c2 k1 t1).2.1 (borrowRight c2 k1 t1).2.2 tl) t2 h
      rw [h2, heightT_borrowRight]
    · rw [if_neg hsz] at h
      have h2 := finishNode_height imax (mergeLeft c2 k1 t1) tl t2 h
      rw [h2, heightT_mergeLeft]

theorem finishNode_flatten (imax : Nat) (c : BPT K V) (rest : Entries K V) :
    ∀ t2 : BPT K V, (finishNode imax c rest = .ok t2 ∨
      finishNode imax c rest = .under t2) →
      flattenT t2 = flattenT c ++ flattenC rest := by
  intro t2 h
  rcases finishNode_eq imax c rest with hf | hf <;> rcases h with h | h <;>
      rw [hf] at h
  · injection h with h2
    rw [← h2, flattenT_node]
  · exact RemRes.noConfusion h
  · exact RemRes.noConfusion h
  · injection h with h2
    rw [← h2, flattenT_node]

theorem adjustHead_flatten (lmax imax : Nat) (c2 : BPT K V) :
    ∀ (rest2 : Entries K V), balE (heightT c2) rest2 →
      ∀ t2 : BPT K V, (adjustHead lmax imax c2 rest2 = .ok t2 ∨
        adjustHead lmax imax c2 rest2 = .under t2) →
        flattenT t2 = flattenT c2 ++ flattenC rest2 := by
  intro rest2 hbe t2 h
  cases rest2 with
  | nil =>
    simp only [adjustHead] at h
    exact finishNode_flatten imax c2 .nil t2 h
  | cons k1 t1 tl =>
    simp only [balE] at hbe
    simp only [adjustHead] at h
    by_cases hsz : minN lmax imax t1 < sizeN t1
    · rw [if_pos hsz] at h
      have h2 := finishNode_flatten imax (borrowRight c2 k1 t1).1
        (.cons (borrowRight c2 k1 t1).2.1 (borrowRight c2 k1 t1).2.2 tl) t2 h
      rw [h2]
      simp only [flattenC]
      rw [← List.append_assoc, borrowRight_flatten, List.append_assoc]
    · rw [if_neg hsz] at h
      have h2 := finishNode_flatten imax (mergeLeft c2 k1 t1) tl t2 h
      rw [h2, mergeLeft_flatten c2 k1 t1 hbe.1.symm]
      simp only [flattenC]
      rw [List.append_assoc]

variable [LinearOrder K]

mutual
/-- A removal never changes the height of the page it returns: merges and
borrows move entries between siblings of one level. -/
theorem removeT_height (lmax imax : Nat) (t : BPT K V) (k : K) :
    match removeT lmax imax t k with
    | .notfound => True
    | .ok t2 => heightT t2 = heightT t
    | .under t2 => heightT t2 = heightT t := by
  match t with
  | .leaf kvs =>
    simp only [removeT]
    by_cases h2 : (leafRemove kvs k).2 = false
    · rw [if_pos h2]
      trivial
    · rw [if_neg h2]
      by_cases hlen : (leafRemove kvs k).1.length < lmax / 2
      · rw [if_pos hlen]
        simp [heightT]
      · rw [if_neg hlen]
        simp [heightT]
  | .node c rest =>
    have hE := removeE_height lmax imax c rest k
    rcases hre : removeE lmax imax c rest k with _ | ⟨c2, rest2⟩ | ⟨c2, rest2⟩
    · simp only [removeT, hre]
    · simp only [hre] at hE
      simp only [removeT, hre]
      rcases finishNode_eq imax c2 rest2 with hf | hf <;> simp only [hf] <;>
        simp [heightT, hE]
    · simp only [hre] at hE
      obtain ⟨hh, hr2⟩ := hE
      subst hr2
      simp only [removeT, hre]
      rcases adjustHead_eq lmax imax c2 rest2 with ⟨t2, ha⟩
      have hht := adjustHead_height lmax imax c2 rest2 t2 ha
      rcases ha with ha | ha <;> simp only [ha] <;> simp [hht, hh, heightT]
termination_by sizeOf t
/-- Along a chain: the returned head child keeps its height, and a head
underflow hands the chain back unchanged. -/
theorem removeE_height (lmax imax : Nat) (c : BPT K V) (es : Entries K V)
    (k : K) :
    match removeE lmax imax c es k with
    | .notfound => True
    | .done c2 _ => heightT c2 = heightT c
    | .headUnder c2 rest2 => heightT c2 = heightT c ∧ rest2 = es := by
  match es with
  | .nil =>
    have hT := removeT_height lmax imax c k
    rcases hrt : removeT lmax imax c k with _ | c2 | c2
    · simp only [removeE, hrt]
    · simp only [hrt] at hT
      simp only [removeE, hrt]
      exact hT
    · simp only [hrt] at hT
      simp only [removeE, hrt]
      exact ⟨hT, by trivial⟩
  | .cons k1 t1 tl =>
    simp only [removeE]
    by_cases hk : k < k1
    · rw [if_pos hk]
      have hT := removeT_height lmax imax c k
      rcases hrt : removeT lmax imax c k with _ | c2 | c2
      · simp only [hrt]
      · simp only [hrt] at hT
        simp only [hrt]
        exact hT
      · simp only [hrt] at hT
        simp only [hrt]
        exact ⟨hT, by trivial⟩
    · rw [if_neg hk]
      rcases hre : removeE lmax imax t1 tl k with _ | ⟨t2, tl2⟩ | ⟨t2, tl2⟩
      · simp only [hre]
      · simp only [hre]
      · simp only [hre]
        by_cases hsz : minN lmax imax c < sizeN c
        · rw [if_pos hsz]
          simp [heightT_borrowLeft]
        · rw [if_neg hsz]
          simp [heightT_mergeLeft]
termination_by sizeOf c + sizeOf es
end

mutual
/-- A miss of the removal (`RemoveAndDeleteRecord` found nothing, line
362) is exactly a key the lookup does not find: both descend by the same
separator comparisons. -/
theorem removeT_notfound_iff (lmax imax : Nat) (t : BPT K V) (k : K) :
    removeT lmax imax t k = .notfound ↔ lookupT t k = none := by
  match t with
  | .leaf kvs =>
    simp only [removeT, lookupT]
    constructor
    · intro h
      by_cases h2 : (leafRemove kvs k).2 = false
      · rw [(leafRemove_false_iff kvs k).mp h2]
        rfl
      · rw [if_neg h2] at h
        by_cases hlen : (leafRemove kvs k).1.length < lmax / 2
        · rw [if_pos hlen] at h
          exact RemRes.noConfusion h
        · rw [if_neg hlen] at h
          exact RemRes.noConfusion h
    · intro h
      have hf : (kvs.find? fun p => decide (p.1 = k)) = none := by
        rcases hfind : kvs.find? fun p => decide (p.1 = k) with _ | p
        · exact hfind
        · rw [hfind] at h
          simp at h
      rw [if_pos ((leafRemove_false_iff kvs k).mpr hf)]
  | .node c rest =>
    have hE := removeE_notfound_iff lmax imax c rest k
    simp only [removeT, lookupT]
    rcases hre : removeE lmax imax c rest k with _ | ⟨c2, rest2⟩ | ⟨c2, rest2⟩ <;>
      simp only [hre]
    · exact iff_of_true (by trivial) (hE.mp hre)
    · constructor
      · intro h
        rcases finishNode_eq imax c2 rest2 with hf | hf <;> rw [h] at hf <;>
          exact RemRes.noConfusion hf
      · intro h
        rw [hE.mpr h] at hre
        exact RemE.noConfusion hre
    · constructor
      · intro h
        rcases adjustHead_eq lmax imax c2 rest2 with ⟨t2, ha | ha⟩ <;>
          rw [h] at ha <;> exact RemRes.noConfusion ha
      · intro h
        rw [hE.mpr h] at hre
        exact RemE.noConfusion hre
termination_by sizeOf t
/-- The chain-level miss, by the same comparisons as `lookupE`. -/
theorem removeE_notfound_iff (lmax imax : Nat) (c : BPT K V)
    (es : Entries K V) (k : K) :
    removeE lmax imax c es k = .notfound ↔ lookupE c es k = none := by
  match es with
  | .nil =>
    have hT := removeT_notfound_iff lmax imax c k
    simp only [removeE, lookupE]
    rcases hrt : removeT lmax imax c k with _ | c2 | c2 <;> simp only [hrt]
    · exact iff_of_true (by trivial) (hT.mp hrt)
    · constructor
      · intro h
        exact RemE.noConfusion h
      · intro h
        rw [hT.mpr h] at hrt
        exact RemRes.noConfusion hrt
    · constructor
      · intro h
        exact RemE.noConfusion h
      · intro h
        rw [hT.mpr h] at hrt
        exact RemRes.noConfusion hrt
  | .cons k1 t1 tl =>
    simp only [removeE, lookupE]
    by_cases hk : k < k1
    · rw [if_pos hk, if_pos hk]
      have hT := removeT_notfound_iff lmax imax c k
      rcases hrt : removeT lmax imax c k with _ | c2 | c2 <;> simp only [hrt]
      · exact iff_of_true (by trivial) (hT.mp hrt)
      · constructor
        · intro h
          exact RemE.noConfusion h
        · intro h
          rw [hT.mpr h] at hrt
          exact RemRes.noConfusion hrt
      · constructor
        · intro h
          exact RemE.noConfusion h
        · intro h
          rw [hT.mpr h] at hrt
          exact RemRes.noConfusion hrt
    · rw [if_neg hk, if_neg hk]
      have hE := removeE_notfound_iff lmax imax t1 tl k
      rcases hre : removeE lmax imax t1 tl k with _ | ⟨t2, tl2⟩ | ⟨t2, tl2⟩ <;>
        simp only [hre]
      · exact iff_of_true (by trivial) (hE.mp hre)
      · constructor
        · intro h
          exact RemE.noConfusion h
        · intro h
          rw [hE.mpr h] at hre
          exact RemE.noConfusion hre
      · by_cases hsz : minN lmax imax c < sizeN c
        · rw [if_pos hsz]
          constructor
          · intro h
            exact RemE.noConfusion h
          · intro h
            rw [hE.mpr h] at hre
            exact RemE.noConfusion hre
        · rw [if_neg hsz]
          constructor
          · intro h
            exact RemE.noConfusion h
          · intro h
            rw [hE.mpr h] at hre
            exact RemE.noConfusion hre
termination_by sizeOf c + sizeOf es
end

mutual
/-- What a successful removal does to the contents, as lists: exactly one
pair, carrying the key, leaves; everything else keeps its position
(`RemoveAndDeleteRecord` shifts the tail; borrows and merges move whole
spans between neighbours). -/
theorem removeT_decomp (lmax imax : Nat) (t : BPT K V) (k : K)
    (hbal : balT t) :
    match removeT lmax imax t k with
    | .notfound => True
    | .ok t2 => ∃ A v B, flattenT t = A ++ (k, v) :: B ∧ flattenT t2 = A ++ B
    | .under t2 => ∃ A v B, flattenT t = A ++ (k, v) :: B ∧
        flattenT t2 = A ++ B := by
  match t with
  | .leaf kvs =>
    simp only [removeT]
    by_cases h2 : (leafRemove kvs k).2 = false
    · rw [if_pos h2]
      trivial
    · rw [if_neg h2]
      have ht : (leafRemove kvs k).2 = true := by
        cases hb : (leafRemove kvs k).2
        · exact absurd hb h2
        · rfl
      obtain ⟨A1, v, A2, hA, hR⟩ := leafRemove_true_decomp kvs k ht
      by_cases hlen : (leafRemove kvs k).1.length < lmax / 2
      · rw [if_pos hlen]
        exact ⟨A1, v, A2, by rw [flattenT]; exact hA,
          by rw [flattenT]; exact hR⟩
      · rw [if_neg hlen]
        exact ⟨A1, v, A2, by rw [flattenT]; exact hA,
          by rw [flattenT]; exact hR⟩
  | .node c rest =>
    simp only [balT] at hbal
    obtain ⟨hbc, hbe⟩ := hbal
    have hE := removeE_decomp lmax imax c rest k hbc hbe
    have hH := removeE_height lmax imax c rest k
    rcases hre : removeE lmax imax c rest k with _ | ⟨c2, rest2⟩ | ⟨c2, rest2⟩
    · simp only [removeT, hre]
    · simp only [hre] at hE
      simp only [removeT, hre]
      obtain ⟨A, v, B, h1, h2⟩ := hE
      rcases finishNode_eq imax c2 rest2 with hf | hf <;> simp only [hf] <;>
        exact ⟨A, v, B, by rw [flattenT_node]; exact h1,
          by rw [flattenT_node]; exact h2⟩
    · simp only [hre] at hE hH
      simp only [removeT, hre]
      obtain ⟨A, v, B, h1, h2⟩ := hE
      obtain ⟨hh, hr2⟩ := hH
      subst hr2
      rcases adjustHead_eq lmax imax c2 rest2 with ⟨t2, ha⟩
      have hfl := adjustHead_flatten lmax imax c2 rest2
        (by rw [hh]; exact hbe) t2 ha
      rcases ha with ha | ha <;> simp only [ha] <;>
        exact ⟨A, v, B, by rw [flattenT_node]; exact h1,
          by rw [hfl]; exact h2⟩
termination_by sizeOf t
/-- The chain-level decomposition: balance pins the merged or borrowing
siblings to the same page kind. -/
theorem removeE_decomp (lmax imax : Nat) (c : BPT K V) (es : Entries K V)
    (k : K) (hbc : balT c) (hbe : balE (heightT c) es) :
    match removeE lmax imax c es k with
    | .notfound => True
    | .done c2 rest2 => ∃ A v B, flattenT c ++ flattenC es = A ++ (k, v) :: B ∧
        flattenT c2 ++ flattenC rest2 = A ++ B
    | .headUnder c2 rest2 => ∃ A v B,
        flattenT c ++ flattenC es = A ++ (k, v) :: B ∧
        flattenT c2 ++ flattenC rest2 = A ++ B := by
  match es with
  | .nil =>
    have hT := removeT_decomp lmax imax c k hbc
    rcases hrt : removeT lmax imax c k with _ | c2 | c2
    · simp only [removeE, hrt]
    · simp only [hrt] at hT
      simp only [removeE, hrt]
      obtain ⟨A, v, B, h1, h2⟩ := hT
      exact ⟨A, v, B, by simp only [flattenC, List.append_nil]; exact h1,
        by simp only [flattenC, List.append_nil]; exact h2⟩
    · simp only [hrt] at hT
      simp only [removeE, hrt]
      obtain ⟨A, v, B, h1, h2⟩ := hT
      exact ⟨A, v, B, by simp only [flattenC, List.append_nil]; exact h1,
        by simp only [flattenC, List.append_nil]; exact h2⟩
  | .cons k1 t1 tl =>
    simp only [balE] at hbe
    obtain ⟨hh1, hbt1, hbtl⟩ := hbe
    simp only [removeE]
    by_cases hk : k < k1
    · rw [if_pos hk]
      have hT := removeT_decomp lmax imax c k hbc
      rcases hrt : removeT lmax imax c k with _ | c2 | c2
      · simp only [hrt]
      · simp only [hrt] at hT
        simp only [hrt]
        obtain ⟨A, v, B, h1, h2⟩ := hT
        refine ⟨A, v, B ++ flattenC (.cons k1 t1 tl), ?_, ?_⟩
        · rw [h1, List.append_assoc, List.cons_append]
        · rw [h2, List.append_assoc]
      · simp only [hrt] at hT
        simp only [hrt]
        obtain ⟨A, v, B, h1, h2⟩ := hT
        refine ⟨A, v, B ++ flattenC (.cons k1 t1 tl), ?_, ?_⟩
        · rw [h1, List.append_assoc, List.cons_append]
        · rw [h2, List.append_assoc]
    · rw [if_neg hk]
      have hE := removeE_decomp lmax imax t1 tl k hbt1
        (by rw [hh1]; exact hbtl)
      have hH := removeE_height lmax imax t1 tl k
      rcases hre : removeE lmax imax t1 tl k with _ | ⟨t2, tl2⟩ | ⟨t2, tl2⟩
      · simp only [hre]
      · simp only [hre] at hE
        simp only [hre]
        obtain ⟨A, v, B, h1, h2⟩ := hE
        refine ⟨flattenT c ++ A, v, B, ?_, ?_⟩
        · simp only [flattenC]
          rw [h1, List.append_assoc]
        · simp only [flattenC]
          rw [h2, List.append_assoc]
      · simp only [hre] at hE hH
        simp only [hre]
        obtain ⟨A, v, B, h1, h2⟩ := hE
        obtain ⟨hht, htl⟩ := hH
        subst htl
        by_cases hsz : minN lmax imax c < sizeN c
        · rw [if_pos hsz]
          refine ⟨flattenT c ++ A, v, B, ?_, ?_⟩
          · simp only [flattenC]
            rw [h1, List.append_assoc]
          · simp only [flattenC]
            rw [← List.append_assoc, borrowLeft_flatten, List.append_assoc,
              h2, ← List.append_assoc]
        · rw [if_neg hsz]
          refine ⟨flattenT c ++ A, v, B, ?_, ?_⟩
          · simp only [flattenC]
            rw [h1, List.append_assoc]
          · rw [mergeLeft_flatten c k1 t2 (by rw [hht, hh1]),
              List.append_assoc, h2, ← List.append_assoc]
termination_by sizeOf c + sizeOf es
end

/-- After the decomposition, no pair with the removed key is left, so the
lookup misses on any page holding exactly the remaining pairs. -/
theorem lookup_none_of_removed {t : BPT K V} {k : K} {v : V}
    {A B : List (K × V)}
    (hs : List.Pairwise (fun p q : K × V => p.1 < q.1) (flattenT t))
    (h1 : flattenT t = A ++ (k, v) :: B) :
    ∀ t3 : BPT K V, flattenT t3 = A ++ B → lookupT t3 k = none := by
  rw [h1] at hs
  intro t3 h3
  rcases hl3 : lookupT t3 k with _ | w
  · rfl
  · exfalso
    have hmem := lookupT_sound hl3
    rw [h3] at hmem
    rcases List.mem_append.mp hmem with hqa | hqb
    · have := (List.pairwise_append.mp hs).2.2 (k, w) hqa (k, v)
        (List.mem_cons_self _ _)
      exact lt_irrefl k this
    · have hs2 := (List.pairwise_append.mp hs).2.1
      rw [List.pairwise_cons] at hs2
      exact lt_irrefl k (hs2.1 (k, w) hqb)

/-- `Remove` on the empty tree returns at once (line 323). -/
theorem remove_root_none (T : BTree K V) (k : K) (h : T.root = none) :
    remove T k = T := by
  simp only [remove, h]

/-- `Remove` missing at the leaf leaves the tree untouched (line 362). -/
theorem remove_root_notfound (T : BTree K V) (k : K) (t : BPT K V)
    (hroot : T.root = some t)
    (hnf : removeT T.leafMax T.internalMax t k = .notfound) :
    remove T k = T := by
  simp only [remove, hroot, hnf]

/-- `Remove` on an `.ok` outcome only swaps the root page in. -/
theorem remove_ok_spec (T : BTree K V) (k : K) (t t2 : BPT K V)
    (hroot : T.root = some t)
    (hrem : removeT T.leafMax T.internalMax t k = .ok t2) :
    remove T k = { T with root := some t2 } := by
  simp only [remove, hroot, hrem]

/-- `Remove` on an `.under` outcome at the root: the tree empties when the
root leaf reached size 0, an internal root of size 1 promotes its only
child, and the contents are the adjusted root's in every case. -/
theorem remove_under_spec (T : BTree K V) (k : K) (t t2 : BPT K V)
    (hroot : T.root = some t)
    (hrem : removeT T.leafMax T.internalMax t k = .under t2) :
    ((remove T k).root = none ∧ flattenT t2 = []) ∨
      ∃ t3, (remove T k).root = some t3 ∧ flattenT t3 = flattenT t2 := by
  cases t2 with
  | leaf kvs =>
    simp only [remove, hroot, hrem]
    by_cases h0 : kvs.length = 0
    · rw [if_pos h0]
      left
      refine ⟨rfl, ?_⟩
      rw [flattenT]
      exact List.length_eq_zero.mp h0
    · rw [if_neg h0]
      right
      exact ⟨.leaf kvs, rfl, rfl⟩
  | node c2 rest2 =>
    cases rest2 with
    | nil =>
      simp only [remove, hroot, hrem]
      right
      refine ⟨c2, rfl, ?_⟩
      rw [flattenT_node, flattenC, List.append_nil]
    | cons k1 t1 tl =>
      simp only [remove, hroot, hrem]
      right
      exact ⟨.node c2 (.cons k1 t1 tl), rfl, rfl⟩

end Removal

end BPlus

/-- C2: on a well-formed B+-tree, after `Insert(k, v)` returns true,
`GetValue(k)` returns true with result exactly `{v}` (modelled `some v`),
and a second `Insert` of the same key — any value — returns false and
leaves the tree unchanged. -/
theorem bplus_insert_getvalue_duplicate {K V : Type} [LinearOrder K]
    (T : BPlus.BTree K V) (k : K) (v : V) (hwf : BPlus.TreeWF T)
    (ht : (BPlus.insert T k v).2 = true) :
    BPlus.getValue (BPlus.insert T k v).1 k = some v ∧
      ∀ w, BPlus.insert (BPlus.insert T k v).1 k w =
        ((BPlus.insert T k v).1, false) := by
  obtain ⟨⟨t2, hroot2, hwf2, hflat2⟩, hlm, him⟩ := BPlus.insert_true_spec hwf ht
  have hflag : (BPlus.leafInsert (BPlus.flatTree T) k v).2 = true := by
    cases hf : (BPlus.leafInsert (BPlus.flatTree T) k v).2
    · exfalso
      have hmem := BPlus.leafInsert_false_mem _ k v hf
      have h2 := BPlus.insert_dup_spec (v := v) hwf hmem
      rw [h2] at ht
      simp at ht
    · rfl
  have hkv : (k, v) ∈ (BPlus.leafInsert (BPlus.flatTree T) k v).1 :=
    (BPlus.leafInsert_perm _ k v hflag).mem_iff.mpr (List.mem_cons_self _ _)
  constructor
  · simp only [BPlus.getValue, hroot2]
    exact BPlus.lookupT_complete hwf2 (by rw [hflat2]; exact hkv)
  · intro w
    refine BPlus.insert_dup_spec ?_ ?_
    · intro t3 h3
      rw [hroot2, Option.some.injEq] at h3
      rw [← h3]
      exact hwf2
    · simp only [BPlus.flatTree, hroot2]
      rw [hflat2]
      exact List.mem_map.mpr ⟨(k, v), hkv, rfl⟩

/-- Witness for C2 at a concrete input: inserting `(1, 10)` into the empty
`Nat`-keyed tree, `GetValue 1` returns `10`, and a second insert of key 1
returns false with the tree unchanged. -/
theorem bplus_insert_getvalue_duplicate_witness :
    BPlus.getValue
        (BPlus.insert (BPlus.emptyTree (K := Nat) (V := Nat) 4 4) 1 10).1 1 =
      some 10 ∧
    BPlus.insert (BPlus.insert (BPlus.emptyTree (K := Nat) (V := Nat) 4 4) 1 10).1
        1 99 =
      ((BPlus.insert (BPlus.emptyTree (K := Nat) (V := Nat) 4 4) 1 10).1, false) :=
  have h := bplus_insert_getvalue_duplicate (BPlus.emptyTree 4 4) 1 10
    (fun t h => Option.noConfusion h) (by rfl)
  ⟨h.1, h.2 99⟩

/-- C1: inserting any nonempty list of pairs with pairwise-distinct keys —
in any order — into an initially empty B+-tree whose leaf pages hold at
least two pairs, then iterating from `Begin()` until `IsEnd()`, reads
exactly the inserted keys, each once, in ascending order under the
comparator. -/
theorem bplus_insert_iterate_sorted {K V : Type} [LinearOrder K]
    [Inhabited K] [Inhabited V] (lmax imax : Nat) (l : List (K × V))
    (hl : l ≠ []) (hnd : (l.map Prod.fst).Nodup) (hl2 : 2 ≤ lmax) :
    ∃ t, (BPlus.insertAll (BPlus.emptyTree lmax imax) l).root = some t ∧
      BPlus.itItems ((BPlus.flattenT t).length + 1) (BPlus.beginIter t) =
        BPlus.flattenT t ∧
      List.Pairwise (fun p q : K × V => p.1 < q.1) (BPlus.flattenT t) ∧
      ((BPlus.flattenT t).map Prod.fst).Perm (l.map Prod.fst) := by
  obtain ⟨hwf, hne, hlm, him, hperm⟩ :=
    BPlus.insertAll_spec lmax imax hl2 l (BPlus.emptyTree lmax imax)
      (fun t h => Option.noConfusion h) (fun t h => Option.noConfusion h) rfl rfl
      (by intro p hp; simp [BPlus.flatTree, BPlus.emptyTree]) hnd
  have hflatE : BPlus.flatTree (BPlus.emptyTree (K := K) (V := V) lmax imax) =
      [] := rfl
  rw [hflatE, List.append_nil] at hperm
  rcases hroot : (BPlus.insertAll (BPlus.emptyTree lmax imax) l).root with _ | t
  · exfalso
    have h0 : BPlus.flatTree (BPlus.insertAll (BPlus.emptyTree lmax imax) l) =
        [] := by
      simp [BPlus.flatTree, hroot]
    rw [h0] at hperm
    exact hl hperm.symm.eq_nil
  · have hflat : BPlus.flatTree (BPlus.insertAll (BPlus.emptyTree lmax imax) l) =
        BPlus.flattenT t := by
      simp [BPlus.flatTree, hroot]
    rw [hflat] at hperm
    have hwft : BPlus.WFT none none t := hwf t hroot
    exact ⟨t, rfl, BPlus.itItems_flatten t (hne t hroot),
      (BPlus.wfT_sorted hwft).1, hperm.map Prod.fst⟩

/-- Witness for C1 at a concrete input: inserting keys 3, 1, 2 — out of
order, with capacity-2 leaf pages so the build splits pages — and then
iterating yields the three pairs sorted by key. -/
theorem bplus_insert_iterate_sorted_witness :
    ∃ t, (BPlus.insertAll (BPlus.emptyTree (K := Nat) (V := Nat) 2 3)
        [(3, 30), (1, 10), (2, 20)]).root = some t ∧
      BPlus.itItems ((BPlus.flattenT t).length + 1) (BPlus.beginIter t) =
        BPlus.flattenT t ∧
      List.Pairwise (fun p q : Nat × Nat => p.1 < q.1) (BPlus.flattenT t) ∧
      ((BPlus.flattenT t).map Prod.fst).Perm
        (([(3, 30), (1, 10), (2, 20)] : List (Nat × Nat)).map Prod.fst) :=
  bplus_insert_iterate_sorted 2 3 [(3, 30), (1, 10), (2, 20)]
    (by decide) (by decide) (by decide)

/-- C3, amended: on a well-formed, balanced B+-tree holding key `k`, after
`Remove(k)` a `GetValue(k)` returns false with no value appended, and a
second `Remove(k)` — whose return type is `void`, so it cannot return
false — misses at the leaf and leaves the tree untouched. -/
theorem bplus_remove_getvalue_second {K V : Type} [LinearOrder K]
    (T : BPlus.BTree K V) (k : K) (hwf : BPlus.TreeWF T)
    (hbal : BPlus.TreeBal T) (hmem : k ∈ (BPlus.flatTree T).map Prod.fst) :
    BPlus.getValue (BPlus.remove T k) k = none ∧
      BPlus.remove (BPlus.remove T k) k = BPlus.remove T k := by
  rcases hroot : T.root with _ | t
  · exfalso
    rw [BPlus.flatTree, hroot] at hmem
    simp at hmem
  · have hmem2 : k ∈ (BPlus.flattenT t).map Prod.fst := by
      rw [BPlus.flatTree, hroot] at hmem
      exact hmem
    obtain ⟨p, hp, hpk⟩ := List.mem_map.mp hmem2
    obtain ⟨p1, p2⟩ := p
    cases hpk
    have hlook : BPlus.lookupT t p1 = some p2 :=
      BPlus.lookupT_complete (hwf t hroot) hp
    have hs := (BPlus.wfT_sorted (hwf t hroot)).1
    have hT := BPlus.removeT_decomp T.leafMax T.internalMax t p1 (hbal t hroot)
    rcases hrem : BPlus.removeT T.leafMax T.internalMax t p1 with _ | t2 | t2
    · exfalso
      have h0 := (BPlus.removeT_notfound_iff T.leafMax T.internalMax t p1).mp
        hrem
      rw [h0] at hlook
      exact Option.noConfusion hlook
    · simp only [hrem] at hT
      obtain ⟨A, v, B, h1, h2⟩ := hT
      have hnone := BPlus.lookup_none_of_removed hs h1
      have hrw := BPlus.remove_ok_spec T p1 t t2 hroot hrem
      constructor
      · rw [hrw]
        simp only [BPlus.getValue]
        exact hnone t2 h2
      · have hnf2 := (BPlus.removeT_notfound_iff T.leafMax T.internalMax
          t2 p1).mpr (hnone t2 h2)
        rw [hrw]
        simp only [BPlus.remove, hnf2]
    · simp only [hrem] at hT
      obtain ⟨A, v, B, h1, h2⟩ := hT
      have hnone := BPlus.lookup_none_of_removed hs h1
      rcases BPlus.remove_under_spec T p1 t t2 hroot hrem with
        ⟨hr0, hf0⟩ | ⟨t3, hr3, hf3⟩
      · constructor
        · simp only [BPlus.getValue, hr0]
        · exact BPlus.remove_root_none _ _ hr0
      · have hf : BPlus.flattenT t3 = A ++ B := by
          rw [hf3]
          exact h2
        constructor
        · simp only [BPlus.getValue, hr3]
          exact hnone t3 hf
        · have hnf2 := (BPlus.removeT_notfound_iff (BPlus.remove T p1).leafMax
            (BPlus.remove T p1).internalMax t3 p1).mpr (hnone t3 hf)
          exact BPlus.remove_root_notfound _ _ t3 hr3 hnf2

/-- Witness for C3 at a concrete input: removing key 1 from a one-leaf
tree holding `(1, 10)` empties it; `GetValue 1` then returns `none` and a
second `Remove 1` changes nothing. -/
theorem bplus_remove_getvalue_second_witness :
    BPlus.getValue (BPlus.remove (⟨some (.leaf [(1, 10)]), 4, 4⟩ :
        BPlus.BTree Nat Nat) 1) 1 = none ∧
      BPlus.remove (BPlus.remove (⟨some (.leaf [(1, 10)]), 4, 4⟩ :
          BPlus.BTree Nat Nat) 1) 1 =
        BPlus.remove (⟨some (.leaf [(1, 10)]), 4, 4⟩ : BPlus.BTree Nat Nat) 1 :=
  bplus_remove_getvalue_second (⟨some (.leaf [(1, 10)]), 4, 4⟩ :
      BPlus.BTree Nat Nat) 1
    (by
      intro t h
      injection h with h
      rw [← h]
      simp [BPlus.WFT, BPlus.inLB, BPlus.inUB])
    (by
      intro t h
      injection h with h
      rw [← h]
      simp [BPlus.balT])
    (by simp [BPlus.flatTree, BPlus.flattenT])

/-- Counterexample to the claim as stated: `Remove` is `void` in the code
(line 319) — it moves the state and returns nothing, so a second
`Remove(k)` cannot "return false".  Concretely, removing an absent key
returns only the unchanged tree; no boolean exists in the result. -/
theorem bplus_remove_returns_no_flag :
    BPlus.remove (⟨some (.leaf [(2, 20)]), 4, 4⟩ : BPlus.BTree Nat Nat) 1 =
      (⟨some (.leaf [(2, 20)]), 4, 4⟩ : BPlus.BTree Nat Nat) := by
  simp [BPlus.remove, BPlus.removeT, BPlus.leafRemove]

end BusTub
